import Mathlib

/-!
# The all-to-all meson field module of Hadrons

A shallow embedding of `TA2AMesonField` (Hadrons/Modules/MContraction/A2AMesonField.hpp):
its `setup`, the momentum-phase part of `execute`, and the naming functions
`ioname` / `filename` together with the closures `ionameFn` / `filenameFn`.

Conventions of the embedding.

* `Real` numbers are exact rationals (`ℚ`); `unsigned int` and `size_t` values are
  natural numbers.
* A lattice site is the list of its coordinates, a complex field is a function from
  sites to a scalar type `C`, which stays a parameter (any field, for instance the
  complex numbers), so that every definition below is executable.
* Code of the framework that the module only calls (the string readers `strToVec`,
  the stream output of a real number, the object store of the environment) is either
  a parameter or a small model, and is marked as such.
* An exception is an `Option Exceptions` component of the result, next to the state
  reached when it was thrown.
-/

namespace Hadrons

/-! ## Data model -/

/-- Modelled from the spec: the closed enumeration `Gamma::Algebra` of the sixteen
spin structures (it is declared in the Dirac-algebra header of the library). The
constructors are the sixteen labels of the configuration table. -/
inductive Gamma.Algebra where
  | Gamma5
  | Identity
  | GammaX
  | GammaY
  | GammaZ
  | GammaT
  | GammaXGamma5
  | GammaYGamma5
  | GammaZGamma5
  | GammaTGamma5
  | SigmaXY
  | SigmaXZ
  | SigmaXT
  | SigmaYZ
  | SigmaYT
  | SigmaZT
  deriving DecidableEq, Repr

/-- Modelled from the spec: the text that the stream output of a `Gamma::Algebra`
value writes, namely the label of the spin structure as the configuration table
spells it. -/
def Gamma.Algebra.label : Gamma.Algebra → String
  | .Gamma5 => "Gamma5"
  | .Identity => "Identity"
  | .GammaX => "GammaX"
  | .GammaY => "GammaY"
  | .GammaZ => "GammaZ"
  | .GammaT => "GammaT"
  | .GammaXGamma5 => "GammaXGamma5"
  | .GammaYGamma5 => "GammaYGamma5"
  | .GammaZGamma5 => "GammaZGamma5"
  | .GammaTGamma5 => "GammaTGamma5"
  | .SigmaXY => "SigmaXY"
  | .SigmaXZ => "SigmaXZ"
  | .SigmaXT => "SigmaXT"
  | .SigmaYZ => "SigmaYZ"
  | .SigmaYT => "SigmaYT"
  | .SigmaZT => "SigmaZT"

/-- The parameter class `A2AMesonFieldPar`, field for field. -/
structure A2AMesonFieldPar where
  cacheBlock : Int
  block : Int
  v : String
  w : String
  output : String
  gammas : String
  mom : List String

/-- The library routines the module calls on strings and numbers: the two
instances of `strToVec` used by `setup` and the stream output of a `Real`
used by `ioname`. They are parameters of the embedding. -/
structure Host where
  strToVecReal : String → List ℚ
  strToVecGamma : String → List Gamma.Algebra
  showReal : ℚ → String

/-- The exceptions raised by `HADRONS_ERROR`; `setup` only raises `Size`. -/
inductive Exceptions where
  | Size (msg : String)
  deriving DecidableEq, Repr

/-- A lattice site, as the list of its coordinates. -/
abbrev Site := List Nat

/-- A complex scalar lattice field with values in `C`. -/
abbrev ComplexField (C : Type) := Site → C

/-- Modelled from the spec: the part of the environment the module touches. `dim`
holds the global lattice dimensions (`getDim`), `cache` the cached vectors of
complex fields keyed by their name, and `tmp` the names of the temporaries
registered so far, in registration order. -/
structure Environment (C : Type) where
  dim : List Nat
  cache : List (String × List (ComplexField C))
  tmp : List String

/-- Modelled from the spec: `getNd`, the rank of the lattice, is the number of
global dimensions. -/
def Environment.getNd {C : Type} (env : Environment C) : Nat :=
  env.dim.length

/-- Modelled from the spec: `getDim(mu)`, the global extent of axis `mu`. -/
def Environment.getDim {C : Type} (env : Environment C) (mu : Nat) : Nat :=
  env.dim.getD mu 0

/-- Modelled from the spec: whether a cached object of the given name exists. -/
def Environment.hasCache {C : Type} (env : Environment C) (name : String) : Bool :=
  env.cache.any (fun e => e.1 == name)

/-- Modelled from the spec: `envCache` for a vector of `n` complex fields. The
object is created once; registering an existing name again leaves the stored
object as it is (the table is memoized in the cache of the module host). -/
def Environment.envCache {C : Type} [Zero C] (env : Environment C) (name : String)
    (n : Nat) : Environment C :=
  if env.hasCache name then env
  else { env with cache := env.cache ++ [(name, List.replicate n (fun _ => 0))] }

/-- Modelled from the spec: `envTmp` and `envTmpLat`, which register a temporary
of the module under the name of the module followed by `_tmp_` and the name of
the temporary. -/
def Environment.envTmp {C : Type} (env : Environment C) (modName name : String) :
    Environment C :=
  { env with tmp := env.tmp ++ [modName ++ "_tmp_" ++ name] }

/-- Modelled from the spec: `envGet` for a cached vector of complex fields; an
absent name yields the empty vector. -/
def Environment.envGet {C : Type} (env : Environment C) (name : String) :
    List (ComplexField C) :=
  match env.cache.find? (fun e => e.1 == name) with
  | some e => e.2
  | none => []

/-- Modelled from the spec: writing through the reference returned by `envGet`,
the stored vector of the given name is replaced by its image under `f`. -/
def Environment.update {C : Type} (env : Environment C) (name : String)
    (f : List (ComplexField C) → List (ComplexField C)) : Environment C :=
  { env with cache := env.cache.map (fun e => if e.1 == name then (e.1, f e.2) else e) }

/-- The trajectory counter of the virtual machine (`traj_`). -/
structure VirtualMachine where
  traj_ : Nat

/-- The accessor `getTrajectory`. -/
def VirtualMachine.getTrajectory (vm : VirtualMachine) : Nat :=
  vm.traj_

/-- The mutator `setTrajectory`. -/
def VirtualMachine.setTrajectory (_vm : VirtualMachine) (traj : Nat) : VirtualMachine :=
  { traj_ := traj }

/-- The module `TA2AMesonField`: its name and parameters (from the module base
class), its private members, and the log of the timers it started. -/
structure TA2AMesonField where
  name : String
  par : A2AMesonFieldPar
  hasPhase_ : Bool
  momphName_ : String
  gamma_ : List Gamma.Algebra
  mom_ : List (List ℚ)
  timers : List String

/-- The constructor: `momphName_` is the module name followed by `_momph`, and
`hasPhase_` starts as `false`. -/
def TA2AMesonField.mk0 (name : String) (par : A2AMesonFieldPar) : TA2AMesonField :=
  { name := name, par := par, hasPhase_ := false, momphName_ := name ++ "_momph",
    gamma_ := [], mom_ := [], timers := [] }

/-! ## setup -/

/-- The sixteen spin structures assigned to `gamma_` when `gammas` is `all`, in the
order of the initializer list in `setup`. -/
def allGammas : List Gamma.Algebra :=
  [ .Gamma5, .Identity, .GammaX, .GammaY, .GammaZ, .GammaT,
    .GammaXGamma5, .GammaYGamma5, .GammaZGamma5, .GammaTGamma5,
    .SigmaXY, .SigmaXZ, .SigmaXT, .SigmaYZ, .SigmaYT, .SigmaZT ]

/-- The message of the `Size` error of `setup`. -/
def sizeMessage (have_ want : Nat) : String :=
  "Momentum has " ++ toString have_ ++ " components instead of " ++ toString want

/-- The loop of `setup` over `par().mom`: each string is read as a vector of reals,
a vector whose size is not `nd - 1` raises `Size` at once, otherwise the vector
is pushed to `mom_`. The result is `mom_` as it stands when the loop ends or
throws, and the exception if there is one. -/
def setupMomLoop (H : Host) (nd : Nat) :
    List String → List (List ℚ) → List (List ℚ) × Option Exceptions
  | [], mom => (mom, none)
  | pstr :: rest, mom =>
    let p := H.strToVecReal pstr
    if p.length ≠ nd - 1 then
      (mom, some (Exceptions.Size (sizeMessage p.length (nd - 1))))
    else
      setupMomLoop H nd rest (mom ++ [p])

/-- The state in which `setup` ends: the module, the environment, and the
exception when one was thrown. -/
structure SetupResult (C : Type) where
  mod : TA2AMesonField
  env : Environment C
  error : Option Exceptions

/-- The member function `setup`. -/
def setup {C : Type} [Zero C] (H : Host) (m : TA2AMesonField) (env : Environment C) :
    SetupResult C :=
  -- gamma_.clear(); mom_.clear(); then the assignment of gamma_
  let gamma :=
    if m.par.gammas = "all" then allGammas else H.strToVecGamma m.par.gammas
  let loop := setupMomLoop H env.getNd m.par.mom []
  let m1 : TA2AMesonField := { m with gamma_ := gamma, mom_ := loop.1 }
  match loop.2 with
  | some e => { mod := m1, env := env, error := some e }
  | none =>
    let env1 := env.envCache m.momphName_ m.par.mom.length
    let env2 := env1.envTmp m.name "coor"
    let env3 := env2.envTmp m.name "computation"
    { mod := m1, env := env3, error := none }

/-! ## execute: the momentum phases -/

/-- The scalar operations `execute` uses on complex numbers: the imaginary unit
`Complex i(0.0,1.0)`, the constant `(Real)(2*M_PI)` and the exponential that
`exp` applies at every site. They are parameters of the embedding. -/
structure ComplexOps (C : Type) where
  i : C
  twoPi : C
  exp : C → C

/-- The routine `LatticeCoordinate(coor, mu)` of the lattice runtime: the field whose
value at a site is the coordinate of the site along axis `mu`. -/
def LatticeCoordinate {C : Type} [NatCast C] (mu : Nat) : ComplexField C :=
  fun x => ((x.getD mu 0 : Nat) : C)

/-- The inner loop of the phase construction for one momentum `p`, before the
exponential: starting from the zero field, every `mu` below `p.size()` adds
`(p[mu] / getDim(mu)) * coor`. -/
def momentumSum {C : Type} [Field C] (env : Environment C) (p : List ℚ) :
    ComplexField C :=
  (List.range p.length).foldl
    (fun ph mu => fun x =>
      ph x + (((p.getD mu 0 / (env.getDim mu : ℚ) : ℚ)) : C) * LatticeCoordinate mu x)
    (fun _ => 0)

/-- The loop over the momentum index `j` of the phase construction, acting on the
vector `ph`: entry `j` becomes `exp(2 pi i * sum)` at every site. -/
def phaseLoop {C : Type} [Field C] (K : ComplexOps C) (env : Environment C)
    (mom : List (List ℚ)) : List Nat → List (ComplexField C) → List (ComplexField C)
  | [], ph => ph
  | j :: rest, ph =>
    let s := momentumSum env (mom.getD j [])
    phaseLoop K env mom rest (ph.set j (fun x => K.exp (K.twoPi * K.i * s x)))

/-! ## Names of the output files -/

/-- The loop of `ioname` over the components of a momentum: component `mu` is
written, followed by an underscore unless `mu` is the last index. -/
def ionameLoop (H : Host) (p : List ℚ) : List Nat → String → String
  | [], ss => ss
  | mu :: rest, ss =>
    ionameLoop H p rest
      (ss ++ H.showReal (p.getD mu 0) ++ (if mu = p.length - 1 then "" else "_"))

/-- The member function `ioname`. Indices outside `gamma_` and `mom_` are
undefined behaviour in the source; here they read a default value. -/
def ioname (H : Host) (mod : TA2AMesonField) (m g : Nat) : String :=
  let p := mod.mom_.getD m []
  ionameLoop H p (List.range p.length)
    ((mod.gamma_.getD g Gamma.Algebra.Identity).label ++ "_")

/-- The member function `filename`; `vm` is the virtual machine at the time of
the call. -/
def filename (H : Host) (vm : VirtualMachine) (mod : TA2AMesonField) (m g : Nat) :
    String :=
  mod.par.output ++ "." ++ toString vm.getTrajectory ++ "/" ++ ioname H mod m g ++ ".h5"

/-- The closure `ionameFn` of `execute`, which captures the module. -/
def ionameFn (H : Host) (mod : TA2AMesonField) (m g : Nat) : String :=
  let p := mod.mom_.getD m []
  ionameLoop H p (List.range p.length)
    ((mod.gamma_.getD g Gamma.Algebra.Identity).label ++ "_")

/-- The closure `filenameFn` of `execute`. It captures the module and `ionameFn`,
and its body calls `vm().getTrajectory()` and the member `ioname`; `vm` is the
virtual machine at the time the closure is evaluated. -/
def filenameFn (H : Host) (mod : TA2AMesonField) (vm : VirtualMachine) (m g : Nat) :
    String :=
  mod.par.output ++ "." ++ toString vm.getTrajectory ++ "/" ++ ioname H mod m g ++ ".h5"

/-- The file name the specification describes: output, a dot, the trajectory in
decimal, a slash, the label, an underscore, the rendered components joined by
single underscores, and the extension. -/
def specFilename (H : Host) (output : String) (traj : Nat) (gamma : Gamma.Algebra)
    (p : List ℚ) : String :=
  output ++ "." ++ toString traj ++ "/" ++ gamma.label ++ "_"
    ++ "_".intercalate (p.map H.showReal) ++ ".h5"

/-! ## execute -/

/-- What `execute` leaves behind and hands over: the module and the environment
after the phase block, the arguments of the kernel constructor
(`Kernel kernel(gamma_, ph, grid)`), and the two naming closures passed to
`computation.execute`. -/
structure Execution (C : Type) where
  mod : TA2AMesonField
  env : Environment C
  kernelGamma : List Gamma.Algebra
  kernelPh : List (ComplexField C)
  ionameFn : Nat → Nat → String
  filenameFn : VirtualMachine → Nat → Nat → String

/-- The member function `execute`, up to the call of `computation.execute`. The
phase block runs only when `hasPhase_` is false; it starts and stops the timer
`Momentum phases` and sets `hasPhase_`. -/
def execute {C : Type} [Field C] (K : ComplexOps C) (H : Host) (m : TA2AMesonField)
    (env : Environment C) : Execution C :=
  let nmom := m.mom_.length
  if m.hasPhase_ = false then
    let env1 := env.update m.momphName_ (phaseLoop K env m.mom_ (List.range nmom))
    let m1 : TA2AMesonField :=
      { m with hasPhase_ := true
               timers := m.timers ++ ["start Momentum phases", "stop Momentum phases"] }
    { mod := m1, env := env1, kernelGamma := m1.gamma_,
      kernelPh := env1.envGet m1.momphName_,
      ionameFn := ionameFn H m1, filenameFn := filenameFn H m1 }
  else
    { mod := m, env := env, kernelGamma := m.gamma_,
      kernelPh := env.envGet m.momphName_,
      ionameFn := ionameFn H m, filenameFn := filenameFn H m }

/-- The method `setPar` of the module base class. -/
def TA2AMesonField.setPar (m : TA2AMesonField) (par : A2AMesonFieldPar) :
    TA2AMesonField :=
  { m with par := par }

/-- A number `n` of further calls of `execute` on the module and environment. -/
def executeAgain {C : Type} [Field C] (K : ComplexOps C) (H : Host) :
    Nat → TA2AMesonField × Environment C → TA2AMesonField × Environment C
  | 0, s => s
  | n + 1, s =>
    let e := execute K H s.1 s.2
    executeAgain K H n (e.mod, e.env)


/-- The phase table the specification describes, a pure function of the momentum
list and the lattice dimensions: one field for each momentum `p`, whose value at a
site is `exp(2 pi i * sum)` with the sum of `momentumSum`. -/
def specPhaseTable {C : Type} [Field C] (K : ComplexOps C) (env : Environment C)
    (mom : List (List ℚ)) : List (ComplexField C) :=
  mom.map (fun p => fun x => K.exp (K.twoPi * K.i * momentumSum env p x))

/-- One run of the module with the parameters `par`: `setPar`, `setup`, then
`execute` on the state `setup` left (the sequence is meant for a `setup` that
raises nothing). -/
def runOnce {C : Type} [Field C] (K : ComplexOps C) (H : Host) (par : A2AMesonFieldPar)
    (m : TA2AMesonField) (env : Environment C) : Execution C :=
  execute K H (setup H (m.setPar par) env).mod (setup H (m.setPar par) env).env

/-! ## Saving a block -/

/-- The metadata class `A2AMesonFieldMetadata`, field for field. -/
structure A2AMesonFieldMetadata where
  momentum : List ℚ
  gamma : Gamma.Algebra

/-- The arguments with which an `A2AMatrixIo` object is constructed: the file
name, the data name and the logical shape. -/
structure A2AMatrixIo where
  filename : String
  dataname : String
  nt : Nat
  ni : Nat
  nj : Nat

/-- The helper `IoHelper` of the module. -/
structure IoHelper where
  io : A2AMatrixIo
  md : A2AMesonFieldMetadata
  m : Nat
  g : Nat
  i : Nat
  j : Nat

/-- What `saveBlock` does, in order: timers started and stopped, and the two
methods of the block sink `A2AMatrixIo` it calls, with their arguments. `Mf` is
the type of the matrix set handed over. -/
inductive IoEvent (Mf : Type) where
  | startTimer (name : String)
  | stopTimer (name : String)
  | initFile (io : A2AMatrixIo) (md : A2AMesonFieldMetadata) (block : Int)
  | saveBlock (io : A2AMatrixIo) (mf : Mf) (m g i j : Nat)

/-- The member function `saveBlock`, as the sequence of its effects. -/
def saveBlock {Mf : Type} (mod : TA2AMesonField) (mf : Mf) (h : IoHelper) :
    List (IoEvent Mf) :=
  (if h.i = 0 ∧ h.j = 0 then
      [IoEvent.startTimer "IO: file creation",
       IoEvent.initFile h.io h.md mod.par.block,
       IoEvent.stopTimer "IO: file creation"]
    else [])
  ++ [IoEvent.startTimer "IO: write block",
      IoEvent.saveBlock h.io mf h.m h.g h.i h.j,
      IoEvent.stopTimer "IO: write block"]

/-- Whether an event is a call of the block sink (and not a timer). -/
def IoEvent.isSinkCall {Mf : Type} : IoEvent Mf → Bool
  | .initFile _ _ _ => true
  | .saveBlock _ _ _ _ _ _ => true
  | _ => false

/-! ## The task list of a node

The scheduler that runs is `A2AMatrixBlockComputation::execute`, which `execute`
calls last (`computation.execute`); its header is not among the sources. The task
list, the tile loops and the copy-back of this section and of the two sections on
the loops are therefore models of what the specification says of the Parallel
Sink and of the Block Scheduler, and no definition of the compiled code calls
them. The block that `execute` keeps commented out writes the same loops; the
models take their names from it, and it is not compiled either. -/

/-- Modelled from the spec: the task of a process for one owned pair `(m, g)` and
one outer tile, built from the index `f = m * ngamma + g` of the work partition
(`m = f / ngamma`, `g = f % ngamma`) and the tile origin `(i, j)`: the sink of the
file `filename(m, g)` with the data name `ioname(m, g)`, and the metadata
(momentum `mom_[m]`, label `gamma_[g]`). -/
def mkIoHelper (H : Host) (vm : VirtualMachine) (mod : TA2AMesonField)
    (nt N_i N_j i j f : Nat) : IoHelper :=
  let ngamma := mod.gamma_.length
  let m := f / ngamma
  let g := f % ngamma
  { io := { filename := filename H vm mod m g, dataname := ioname H mod m g,
            nt := nt, ni := N_i, nj := N_j }
    md := { momentum := mod.mom_.getD m [],
            gamma := mod.gamma_.getD g Gamma.Algebra.Identity }
    m := m, g := g, i := i, j := j }

/-- Modelled from the spec: the indices of one process under the work partition
(process r owns every index congruent to r modulo R), listed from `f`, which is
the rank at the first step, in steps of `nRank` while they stay below `total`,
for at most `fuel` steps. -/
def taskIndices (nRank total : Nat) : Nat → Nat → List Nat
  | 0, _ => []
  | fuel + 1, f =>
    if f < total then f :: taskIndices nRank total fuel (f + nRank) else []

/-- Modelled from the spec: the task list of the process of rank `myRank` among
`nRank` for one outer tile, one task for each index `f = myRank, myRank + nRank,
...` below `nmom * ngamma`. The enumeration gets `nmom * ngamma` steps of fuel,
which it never exhausts when `nRank` is positive. -/
def nodeIo (H : Host) (vm : VirtualMachine) (mod : TA2AMesonField)
    (nt N_i N_j i j myRank nRank : Nat) : List IoHelper :=
  let nmom := mod.mom_.length
  let ngamma := mod.gamma_.length
  (taskIndices nRank (nmom * ngamma) (nmom * ngamma) myRank).map
    (mkIoHelper H vm mod nt N_i N_j i j)

/-! ## The block and cache-block loops -/

/-- An index `(m, g, t, i, j)` of a matrix set. -/
abbrev TensorIndex := Nat × Nat × Nat × Nat × Nat

/-- Modelled from the spec: the tiles along one edge of the index space, of
origins `ii`, `ii + step`, ... below `N` and of sizes `min (N - ii) step` (tile
sizes `N_ii = min(N_w - i, block)`, partial tiles at the upper edge): the list of
`(origin, size)`, for at most `fuel` tiles. -/
def tileLoop (N step : Nat) : Nat → Nat → List (Nat × Nat)
  | 0, _ => []
  | fuel + 1, ii =>
    if ii < N then (ii, min (N - ii) step) :: tileLoop N step fuel (ii + step) else []

/-- Modelled from the spec: the copy-back after one inner kernel call (entries
are transferred from the inner buffer into the outer buffer at offsets `(ii, jj)`
relative to the outer tile origin, over `(m, g, t, ii, jj)`): for all `m`, `g`,
`t`, `iii`, `jjj` the entry `(m, g, t, ii + iii, jj + jjj)` of the outer buffer
receives the entry `(m, g, t, iii, jjj)` of the inner buffer, as the list of the
writes (index written, value written). The inner buffer holds the kernel output
for the slab starting at `(i + ii, j + jj)`, that is `K m g t (i+ii+iii)
(j+jj+jjj)`, and `conv` is the conversion the transfer applies to an entry (the
identity when both buffers hold the working precision). -/
def cacheCopy {W F : Type} (conv : W → F) (K : Nat → Nat → Nat → Nat → Nat → W)
    (nmom ngamma nt i j ii jj N_iii N_jjj : Nat) : List (TensorIndex × F) :=
  (List.range nmom).flatMap fun m =>
  (List.range ngamma).flatMap fun g =>
  (List.range nt).flatMap fun t =>
  (List.range N_iii).flatMap fun iii =>
  (List.range N_jjj).map fun jjj =>
    ((m, g, t, ii + iii, jj + jjj), conv (K m g t (i + ii + iii) (j + jj + jjj)))

/-- Modelled from the spec: the inner tiles of one outer tile of origin `(i, j)`,
row-major, each with a kernel call and its copy-back. The result is the list of
all writes to the outer buffer, in order. The enumerations of the inner tiles
get `N_ii` and `N_jj` steps of fuel, which they never exhaust when `cacheBlock`
is positive. -/
def blockWrites {W F : Type} (conv : W → F) (K : Nat → Nat → Nat → Nat → Nat → W)
    (nmom ngamma nt N_i N_j block cacheBlock i j : Nat) : List (TensorIndex × F) :=
  let N_ii := min (N_i - i) block
  let N_jj := min (N_j - j) block
  (tileLoop N_ii cacheBlock N_ii 0).flatMap fun ti =>
  (tileLoop N_jj cacheBlock N_jj 0).flatMap fun tj =>
    cacheCopy conv K nmom ngamma nt i j ti.1 tj.1 ti.2 tj.2

/-- The entry of the outer buffer at an index after a list of writes: the value
of the last write to that index, if there is one. -/
def mfBlockAt {F : Type} (writes : List (TensorIndex × F)) (idx : TensorIndex) :
    Option F :=
  (writes.reverse.find? (fun w => w.1 = idx)).map (fun w => w.2)

/-! ## The Z2 stochastic source (Hadrons/Modules/MSource/Z2.hpp) -/

/-- The parameter class `Z2Par`. -/
structure Z2Par where
  tA : Nat
  tB : Nat

/-- Modelled from the spec: the library constant `Tp`, the index of the time
direction, which is the last of the four axes (the header of the module writes
the time coordinate `x_3`). -/
def Tp : Nat := 3

/-- The scalars `TZ2::execute` uses besides rationals: the imaginary unit (in
`Complex shift(1., 1.)`) and the value of `1./::sqrt(2.)`. They are parameters. -/
structure Z2Scalars (C : Type) where
  i : C
  invSqrt2 : C

/-- The value of a propagator field at a site: a colour-spin matrix, 4 spins times
3 colours a side. -/
abbrev SpinColourMatrix (C : Type) := Matrix (Fin 12) (Fin 12) C

/-- The noise `eta` after the line `eta = (2.*eta - shift)*(1./::sqrt(2.))`, at one
site; `draw` is the field filled by `bernoulli`. -/
def z2Noise {C : Type} [Field C] (S : Z2Scalars C) (draw : ComplexField C) :
    ComplexField C :=
  fun x => (2 * draw x - (1 + S.i)) * S.invSqrt2

/-- The member function `TZ2::execute`: the source field it leaves in `src`. The
field `t` holds the coordinate along `Tp`, `where` keeps `eta` on the sites with
`t >= tA` and `t <= tB` and puts `0.*eta` elsewhere, `src = 1.` is the unit
matrix at every site and `src = src*eta` multiplies every entry by `eta`. -/
def TZ2.execute {C : Type} [Field C] (S : Z2Scalars C) (par : Z2Par)
    (draw : ComplexField C) : Site → SpinColourMatrix C :=
  let t : Site → Nat := fun x => x.getD Tp 0
  let eta : ComplexField C := z2Noise S draw
  let eta2 : ComplexField C :=
    fun x => if t x ≥ par.tA ∧ t x ≤ par.tB then eta x else 0 * eta x
  let src : Site → SpinColourMatrix C := fun _ => 1
  fun x => (src x).map (fun e => e * eta2 x)

/-! ## The outer loops over the blocks -/

/-- Modelled from the spec: the number of tiles along an edge of `N` fields, the
ceiling of `N / block`, in integer arithmetic the quotient and one more when the
remainder is not zero. -/
def NBlock (N block : Nat) : Nat :=
  N / block + (if N % block ≠ 0 then 1 else 0)

/-- Modelled from the spec: the outer tiles of the `N_i` by `N_j` index space in
the order of the visits, row-major (`i` slowest, `j` fastest), with the sizes
`N_ii = min (N_i - i) block` and `N_jj = min (N_j - j) block`: the list of the
tiles `(i, j, N_ii, N_jj)`. The enumerations get `N_i` and `N_j` steps of fuel.
The inner tiles of an outer tile are the same enumeration with `N_ii`, `N_jj`
and `cacheBlock` in the place of `N_i`, `N_j` and `block`. -/
def blockLoop (N_i N_j block : Nat) : List (Nat × Nat × Nat × Nat) :=
  (tileLoop N_i block N_i 0).flatMap fun ti =>
  (tileLoop N_j block N_j 0).map fun tj => (ti.1, tj.1, ti.2, tj.2)

/-- Whether the index pair `(x, y)` lies in a tile `(i, j, N_ii, N_jj)`. -/
def inTile (x y : Nat) (t : Nat × Nat × Nat × Nat) : Bool :=
  decide (t.1 ≤ x ∧ x < t.1 + t.2.2.1 ∧ t.2.1 ≤ y ∧ y < t.2.1 + t.2.2.2)

/-! ## Sample inputs -/

/-- A sample host: it reads and prints the few momenta used below the way the
library does. -/
def sampleHost : Host where
  strToVecReal := fun s =>
    if s = "0 0 0" then [0, 0, 0]
    else if s = "1 0 0" then [1, 0, 0]
    else if s = "1 1 0" then [1, 1, 0]
    else if s = "1 0" then [1, 0]
    else []
  strToVecGamma := fun s => if s = "Identity" then [Gamma.Algebra.Identity] else []
  showReal := fun q =>
    if q = 0 then "0" else if q = 1 then "1" else if q = -1 then "-1" else "2"

/-- Sample parameters with the given spin structures and momenta. -/
def samplePar (gammas : String) (mom : List String) : A2AMesonFieldPar :=
  { cacheBlock := 2, block := 4, v := "v", w := "w", output := "mf",
    gammas := gammas, mom := mom }

/-- A fresh module named `mf` with the given spin structures and momenta. -/
def sampleModule (gammas : String) (mom : List String) : TA2AMesonField :=
  TA2AMesonField.mk0 "mf" (samplePar gammas mom)

/-- An empty environment on the lattice of extents 4, 4, 4, 8. -/
def sampleEnv (C : Type) : Environment C :=
  { dim := [4, 4, 4, 8], cache := [], tmp := [] }

/-- The order in which the configuration table of the specification lists the
sixteen labels. -/
def tableOrder : List Gamma.Algebra :=
  [ .Gamma5, .Identity, .GammaX, .GammaY, .GammaZ, .GammaT,
    .GammaXGamma5, .GammaYGamma5, .GammaZGamma5, .GammaTGamma5,
    .SigmaXY, .SigmaXZ, .SigmaXT, .SigmaYZ, .SigmaZT, .SigmaYT ]

end Hadrons

/-! # Binary I/O of the library (lib/parallelIO/BinaryIO.h)

Conventions of the embedding.

* A `uint32_t` or `uint64_t` value is a natural number; a buffer (`void *`,
  `std::vector<fobj>`) is the list of its 32-bit words as the host reads them, an
  object `fobj` taking `size32 = sizeof(fobj)/4` consecutive words.
* A file is the list of its bytes.
* The host is a parameter: its byte order, what its shift instruction does with a
  count of 32, and the `crc32` of zlib.
-/

namespace Grid

/-! ## The host -/

/-- The host machine. `bigEndian` is its byte order; `shiftMasked` tells whether a
right shift of a 32-bit word by 32 keeps the word (the count is taken modulo 32)
or gives zero; `crc32 crc bytes` is the function of zlib. -/
structure Machine where
  bigEndian : Bool
  shiftMasked : Bool
  crc32 : Nat → List Nat → Nat

/-- The bytes a 32-bit word occupies in the memory of the host, in address
order. -/
def bytesOfWord (M : Machine) (v : Nat) : List Nat :=
  if M.bigEndian then [v / 16777216 % 256, v / 65536 % 256, v / 256 % 256, v % 256]
  else [v % 256, v / 256 % 256, v / 65536 % 256, v / 16777216 % 256]

/-- The 32-bit word the host reads from four bytes in address order. -/
def wordOfBytes (M : Machine) (b0 b1 b2 b3 : Nat) : Nat :=
  if M.bigEndian then b0 * 16777216 + b1 * 65536 + b2 * 256 + b3
  else b0 + b1 * 256 + b2 * 65536 + b3 * 16777216

/-- The bytes of a buffer of words, as `fout.write` puts them in the file. -/
def bytesOfWords (M : Machine) (ws : List Nat) : List Nat :=
  ws.flatMap (bytesOfWord M)

/-- The words of a buffer filled by `fin.read` with the given bytes. -/
def wordsOfBytes (M : Machine) : List Nat → List Nat
  | b0 :: b1 :: b2 :: b3 :: rest => wordOfBytes M b0 b1 b2 b3 :: wordsOfBytes M rest
  | _ => []

/-- The 64-bit value the host reads from two consecutive 32-bit words of memory. -/
def load64 (M : Machine) (w0 w1 : Nat) : Nat :=
  if M.bigEndian then w0 * 4294967296 + w1 else w0 + w1 * 4294967296

/-- The two consecutive 32-bit words of memory that hold a 64-bit value. -/
def store64 (M : Machine) (v : Nat) : List Nat :=
  if M.bigEndian then [v / 4294967296 % 4294967296, v % 4294967296]
  else [v % 4294967296, v / 4294967296 % 4294967296]

/-! ## Byte reversal -/

/-- The function `byte_reverse32`. -/
def byte_reverse32 (f : Nat) : Nat :=
  ((f &&& 0xFF) <<< 24) ||| ((f &&& 0xFF00) <<< 8) ||| ((f &&& 0xFF0000) >>> 8)
    ||| ((f &&& 0xFF000000) >>> 24)

/-- The function `byte_reverse64`. -/
def byte_reverse64 (f : Nat) : Nat :=
  let g := ((f &&& 0xFF) <<< 24) ||| ((f &&& 0xFF00) <<< 8) ||| ((f &&& 0xFF0000) >>> 8)
    ||| ((f &&& 0xFF000000) >>> 24)
  let g := (g <<< 32) % 2 ^ 64
  let f := f >>> 32
  g ||| (((f &&& 0xFF) <<< 24) ||| ((f &&& 0xFF00) <<< 8) ||| ((f &&& 0xFF0000) >>> 8)
    ||| ((f &&& 0xFF000000) >>> 24))

/-- The function `ntohl` of the C library: the identity on a big-endian host, the
reversal of the four bytes on a little-endian one. -/
def ntohl (M : Machine) (x : Nat) : Nat :=
  if M.bigEndian then x else byte_reverse32 x

/-- The function `Grid_ntohll`, whose body is chosen by `BYTE_ORDER == BIG_ENDIAN`. -/
def Grid_ntohll (M : Machine) (A : Nat) : Nat :=
  if M.bigEndian then A else byte_reverse64 A

/-! ## The converters -/

/-- The loop of `be32toh_v` over the first `count` words. -/
def be32toh_loop (M : Machine) : Nat → List Nat → List Nat
  | 0, f => f
  | _ + 1, [] => []
  | count + 1, w :: rest => ntohl M w :: be32toh_loop M count rest

/-- The function `be32toh_v`; `bytes` is its `uint64_t` argument. -/
def be32toh_v (M : Machine) (file_object : List Nat) (bytes : Nat) : List Nat :=
  be32toh_loop M (bytes / 4) file_object

/-- The loop of `le32toh_v` over the first `count` words. -/
def le32toh_loop (M : Machine) : Nat → List Nat → List Nat
  | 0, fp => fp
  | _ + 1, [] => []
  | count + 1, f :: rest =>
    ntohl M (((f &&& 0xFF) <<< 24) ||| ((f &&& 0xFF00) <<< 8) ||| ((f &&& 0xFF0000) >>> 8)
      ||| ((f &&& 0xFF000000) >>> 24))
    :: le32toh_loop M count rest

/-- The function `le32toh_v`. -/
def le32toh_v (M : Machine) (file_object : List Nat) (bytes : Nat) : List Nat :=
  le32toh_loop M (bytes / 4) file_object

/-- The loop of `be64toh_v` over the first `count` 64-bit words. -/
def be64toh_loop (M : Machine) : Nat → List Nat → List Nat
  | 0, f => f
  | count + 1, w0 :: w1 :: rest =>
    store64 M (Grid_ntohll M (load64 M w0 w1)) ++ be64toh_loop M count rest
  | _ + 1, f => f

/-- The function `be64toh_v`. -/
def be64toh_v (M : Machine) (file_object : List Nat) (bytes : Nat) : List Nat :=
  be64toh_loop M (bytes / 8) file_object

/-- The loop of `le64toh_v` over the first `count` 64-bit words. -/
def le64toh_loop (M : Machine) : Nat → List Nat → List Nat
  | 0, fp => fp
  | count + 1, w0 :: w1 :: rest =>
    let f := load64 M w0 w1
    let g := ((f &&& 0xFF) <<< 24) ||| ((f &&& 0xFF00) <<< 8) ||| ((f &&& 0xFF0000) >>> 8)
      ||| ((f &&& 0xFF000000) >>> 24)
    let g := (g <<< 32) % 2 ^ 64
    let f := f >>> 32
    let g := g ||| (((f &&& 0xFF) <<< 24) ||| ((f &&& 0xFF00) <<< 8)
      ||| ((f &&& 0xFF0000) >>> 8) ||| ((f &&& 0xFF000000) >>> 24))
    store64 M (Grid_ntohll M g) ++ le64toh_loop M count rest
  | _ + 1, fp => fp

/-- The function `le64toh_v`. -/
def le64toh_v (M : Machine) (file_object : List Nat) (bytes : Nat) : List Nat :=
  le64toh_loop M (bytes / 8) file_object

/-- The function `htobe32_v`: it calls `be32toh_v` with its own argument `bytes`,
which is a `uint32_t`. -/
def htobe32_v (M : Machine) (file_object : List Nat) (bytes : Nat) : List Nat :=
  be32toh_v M file_object (bytes % 2 ^ 32)

/-- The function `htobe64_v`, with a `uint32_t` argument `bytes`. -/
def htobe64_v (M : Machine) (file_object : List Nat) (bytes : Nat) : List Nat :=
  be64toh_v M file_object (bytes % 2 ^ 32)

/-- The function `htole32_v`, with a `uint32_t` argument `bytes`. -/
def htole32_v (M : Machine) (file_object : List Nat) (bytes : Nat) : List Nat :=
  le32toh_v M file_object (bytes % 2 ^ 32)

/-- The function `htole64_v`, with a `uint32_t` argument `bytes`. -/
def htole64_v (M : Machine) (file_object : List Nat) (bytes : Nat) : List Nat :=
  le64toh_v M file_object (bytes % 2 ^ 32)

/-! ## The checksums -/

/-- The members of `GridBase` that the checksum, `IOobject` and the kernel of the
meson field read. -/
structure GridBase where
  _ndimension : Nat
  lSites : Nat
  LocalDimensions : List Nat
  LocalStarts : List Nat
  FullDimensions : List Nat
  GlobalDimensions : List Nat
  ProcessorCount : Nat
  ThisRank : Nat

/-- Modelled from the spec: `Lexicographic::CoorFromIndex`, the coordinates of a
lexicographic index in a box of the given dimensions, first axis fastest. -/
def Lexicographic.CoorFromIndex (index : Nat) : List Nat → List Nat
  | [] => []
  | d :: dims => index % d :: Lexicographic.CoorFromIndex (index / d) dims

/-- Modelled from the spec: the loop of `Lexicographic::IndexFromCoor`, which adds
`stride * coor[d]` for every axis and multiplies the stride by the dimension. -/
def Lexicographic.indexLoop (stride index : Nat) : List Nat → List Nat → Nat
  | c :: coor, d :: dims => Lexicographic.indexLoop (stride * d) (index + stride * c) coor dims
  | _, _ => index

/-- Modelled from the spec: `Lexicographic::IndexFromCoor`, the lexicographic
index of a site in a box of the given dimensions. -/
def Lexicographic.IndexFromCoor (coor dims : List Nat) : Nat :=
  Lexicographic.indexLoop 1 0 coor dims

/-- The triple of checksums. -/
structure Csums where
  nersc_csum : Nat
  scidac_csuma : Nat
  scidac_csumb : Nat
  deriving DecidableEq, Repr

/-- The index `global_site` computed in the site loop of `Uint32Checksum`: the
coordinates of `local_site` in the local box, shifted by `local_start`, indexed
in the full lattice. -/
def globalSite (grid : GridBase) (local_site : Nat) : Nat :=
  let coor := Lexicographic.CoorFromIndex local_site grid.LocalDimensions
  let coor := (List.range grid._ndimension).map
    (fun d => coor.getD d 0 + grid.LocalStarts.getD d 0)
  Lexicographic.IndexFromCoor coor grid.FullDimensions

/-- The right shift `site_crc >> n` of a 32-bit word for a count `n` up to 32: the
count 32 is outside what the language defines, and the host decides. -/
def shiftRight32 (M : Machine) (x n : Nat) : Nat :=
  if n < 32 then x >>> n else if M.shiftMasked then x >>> (n % 32) else 0

/-- The expression `site_crc<<gsite | site_crc>>(32-gsite)` on 32-bit words. -/
def rotateExpr (M : Machine) (site_crc gsite : Nat) : Nat :=
  ((site_crc <<< gsite) % 2 ^ 32) ||| shiftRight32 M site_crc (32 - gsite)

/-- The words of the object `fbuf[local_site]`. -/
def siteWords (size32 : Nat) (fbuf : List Nat) (local_site : Nat) : List Nat :=
  (fbuf.drop (local_site * size32)).take size32

/-- The body of the site loop of `Uint32Checksum` for one `local_site`, acting on
the three sums of the thread. -/
def siteUpdate (M : Machine) (grid : GridBase) (size32 : Nat) (fbuf : List Nat)
    (thr : Csums) (local_site : Nat) : Csums :=
  let site_buf := siteWords size32 fbuf local_site
  let nersc_csum_thr := (List.range size32).foldl
    (fun acc j => (acc + site_buf.getD j 0) % 2 ^ 32) thr.nersc_csum
  let global_site := globalSite grid local_site
  let gsite29 := global_site % 29
  let gsite31 := global_site % 31
  let zcrc := M.crc32 0 []
  let site_crc := M.crc32 zcrc (bytesOfWords M site_buf) % 2 ^ 32
  { nersc_csum := nersc_csum_thr
    scidac_csuma := thr.scidac_csuma ^^^ rotateExpr M site_crc gsite29
    scidac_csumb := thr.scidac_csumb ^^^ rotateExpr M site_crc gsite31 }

/-- The critical section at the end of the parallel region: the sums of one
thread are added, respectively XOR-ed, into the results. -/
def combine (acc thr : Csums) : Csums :=
  { nersc_csum := (acc.nersc_csum + thr.nersc_csum) % 2 ^ 32
    scidac_csuma := acc.scidac_csuma ^^^ thr.scidac_csuma
    scidac_csumb := acc.scidac_csumb ^^^ thr.scidac_csumb }

/-- The function `Uint32Checksum(grid, fbuf, ...)`. The three results are updated
in place, so they come in as `init`. `schedule` is the distribution of the
iterations `0 .. lsites-1` of the site loop over the threads: one list of
values of `local_site` for each thread, in the order the thread runs them. -/
def Uint32Checksum (M : Machine) (grid : GridBase) (size32 : Nat) (fbuf : List Nat)
    (schedule : List (List Nat)) (init : Csums) : Csums :=
  schedule.foldl
    (fun acc sites => combine acc (sites.foldl (siteUpdate M grid size32 fbuf) ⟨0, 0, 0⟩))
    init

/-- A distribution of the iterations of the site loop over threads is valid when
every iteration below `lsites` is run once. -/
def ValidSchedule (lsites : Nat) (schedule : List (List Nat)) : Prop :=
  List.Perm schedule.flatten (List.range lsites)

/-- The contribution of one site to the additive checksum: the sum of its
`size32` words. -/
def siteSum (size32 : Nat) (fbuf : List Nat) (local_site : Nat) : Nat :=
  ((List.range size32).map (fun j => (siteWords size32 fbuf local_site).getD j 0)).sum

/-- The rotation to the left of a 32-bit word by `r` places, `r` below 32. -/
def rotl32 (x r : Nat) : Nat :=
  (x * 2 ^ r) % 2 ^ 32 + x / 2 ^ (32 - r)

/-- The CRC-32 of the site `local_site`, as a 32-bit word. -/
def siteCrc (M : Machine) (size32 : Nat) (fbuf : List Nat) (local_site : Nat) : Nat :=
  M.crc32 (M.crc32 0 []) (bytesOfWords M (siteWords size32 fbuf local_site)) % 2 ^ 32

/-- The XOR of a list of words. -/
def xorAll (l : List Nat) : Nat :=
  l.foldl (fun a b => a ^^^ b) 0

/-- The word `w` with its byte of index `k` (the bits `8k .. 8k+7`) replaced by
`b`. -/
def setByte (w k b : Nat) : Nat :=
  w - (w / 256 ^ k % 256) * 256 ^ k + b * 256 ^ k

/-- The `n` bytes of a value, the most significant first. -/
def bigEndianBytes (n v : Nat) : List Nat :=
  (List.range n).map (fun k => v / 256 ^ (n - 1 - k) % 256)

/-- The `n` bytes of a value, the least significant first. -/
def littleEndianBytes (n v : Nat) : List Nat :=
  (List.range n).map (fun k => v / 256 ^ k % 256)

/-! ## IOobject -/

/-- The flag `BINARYIO_MASTER_APPEND`. -/
def BINARYIO_MASTER_APPEND : Nat := 0x10

/-- The flag `BINARYIO_UNORDERED`. -/
def BINARYIO_UNORDERED : Nat := 0x08

/-- The flag `BINARYIO_LEXICOGRAPHIC`. -/
def BINARYIO_LEXICOGRAPHIC : Nat := 0x04

/-- The flag `BINARYIO_READ`. -/
def BINARYIO_READ : Nat := 0x02

/-- The flag `BINARYIO_WRITE`. -/
def BINARYIO_WRITE : Nat := 0x01

/-- The stream operations `seekg(pos)` and `read` of `n` bytes: the bytes read, or
nothing when the file ends before (`fin.fail()`). -/
def readAt (file : List Nat) (pos n : Nat) : Option (List Nat) :=
  if pos + n ≤ file.length then some ((file.drop pos).take n) else none

/-- The stream operations `seekp(pos)` and `write`: the bytes replace those of the
file from `pos` on, the file growing (with zero bytes up to `pos`) as needed. -/
def writeAt (file : List Nat) (pos : Nat) (bytes : List Nat) : List Nat :=
  file.take pos ++ List.replicate (pos - file.length) 0 ++ bytes
    ++ file.drop (pos + bytes.length)

/-- The four conditional calls of the read side of `IOobject`, with the byte
count `sizeof(fobj)*iodata.size()`. -/
def fileToHost (M : Machine) (format : String) (iodata : List Nat) (bytes : Nat) :
    List Nat :=
  let iodata := if format = "IEEE32BIG" then be32toh_v M iodata bytes else iodata
  let iodata := if format = "IEEE32" then le32toh_v M iodata bytes else iodata
  let iodata := if format = "IEEE64BIG" then be64toh_v M iodata bytes else iodata
  if format = "IEEE64" then le64toh_v M iodata bytes else iodata

/-- The four conditional calls of the write side of `IOobject`. -/
def hostToFile (M : Machine) (format : String) (iodata : List Nat) (bytes : Nat) :
    List Nat :=
  let iodata := if format = "IEEE32BIG" then htobe32_v M iodata bytes else iodata
  let iodata := if format = "IEEE32" then htole32_v M iodata bytes else iodata
  let iodata := if format = "IEEE64BIG" then htobe64_v M iodata bytes else iodata
  if format = "IEEE64" then htole64_v M iodata bytes else iodata

/-- The reductions `GlobalSum` and `GlobalXOR` at the end of `IOobject`: the
results of the other processes are added, respectively XOR-ed, in. -/
def globalReduce (mine : Csums) (others : List Csums) : Csums :=
  others.foldl combine mine

/-- What a call of `IOobject` leaves: the buffer `iodata`, the file, and the three
checksums. -/
structure IoResult where
  iodata : List Nat
  file : List Nat
  csum : Csums
  deriving DecidableEq

/-- The read branch of `IOobject` (`control & BINARYIO_READ`), on the state
(buffer, file, checksums). -/
def ioRead (M : Machine) (grid : GridBase) (size32 : Nat) (offset : Nat)
    (format : String) (control : Nat) (schedule : List (List Nat)) (st : IoResult) :
    Option IoResult :=
  let sizeofFobj := 4 * size32
  let size := st.iodata.length / size32
  if control &&& BINARYIO_LEXICOGRAPHIC ≠ 0 ∧ grid.ProcessorCount > 1 then
    none
  else
    let got :=
      if control &&& BINARYIO_MASTER_APPEND ≠ 0 then
        if sizeofFobj ≤ st.file.length then
          readAt st.file (st.file.length - sizeofFobj) (size * sizeofFobj)
        else none
      else
        readAt st.file (offset + grid.ThisRank * grid.lSites * sizeofFobj) (size * sizeofFobj)
    match got with
    | none => none
    | some bytes =>
      let iodata := wordsOfBytes M bytes
      let iodata := fileToHost M format iodata (sizeofFobj * size)
      some { iodata := iodata, file := st.file,
             csum := Uint32Checksum M grid size32 iodata schedule st.csum }

/-- The write branch of `IOobject` (`control & BINARYIO_WRITE`). -/
def ioWrite (M : Machine) (grid : GridBase) (size32 : Nat) (offset : Nat)
    (format : String) (control : Nat) (schedule : List (List Nat)) (st : IoResult) :
    Option IoResult :=
  let sizeofFobj := 4 * size32
  let size := st.iodata.length / size32
  let csum := Uint32Checksum M grid size32 st.iodata schedule st.csum
  let iodata := hostToFile M format st.iodata (sizeofFobj * size)
  if control &&& BINARYIO_LEXICOGRAPHIC ≠ 0 ∧ grid.ProcessorCount > 1 then
    none
  else
    let pos :=
      if control &&& BINARYIO_MASTER_APPEND ≠ 0 then st.file.length
      else offset + grid.ThisRank * grid.lSites * sizeofFobj
    some { iodata := iodata, file := writeAt st.file pos (bytesOfWords M iodata),
           csum := csum }

/-- The function `IOobject`, for the stream I/O of a build without MPI I/O: the
branch for a lexicographic transfer by more than one process is not modelled
and yields nothing, as does a failed assertion. `others` holds the checksums
of the other processes, which the final reductions combine with those of this
one. -/
def IOobject (M : Machine) (grid : GridBase) (size32 : Nat) (iodata : List Nat)
    (file : List Nat) (offset : Nat) (format : String) (control : Nat)
    (schedule : List (List Nat)) (others : List Csums) : Option IoResult :=
  let size := iodata.length / size32
  let sizeOk :=
    if control &&& BINARYIO_MASTER_APPEND ≠ 0 then size = 1 else grid.lSites = size
  if ¬ sizeOk then none
  else
    let st : IoResult := { iodata := iodata, file := file, csum := ⟨0, 0, 0⟩ }
    let afterRead :=
      if control &&& BINARYIO_READ ≠ 0 then
        ioRead M grid size32 offset format control schedule st
      else some st
    match afterRead with
    | none => none
    | some st1 =>
      let afterWrite :=
        if control &&& BINARYIO_WRITE ≠ 0 then
          ioWrite M grid size32 offset format control schedule st1
        else some st1
      match afterWrite with
      | none => none
      | some st2 => some { st2 with csum := globalReduce st2.csum others }

/-- A write by `IOobject` followed by a read of the same file at the same offset,
by a single process; the read starts from the buffer the write left. The
result is the pair of what the write and the read left. -/
def writeThenRead (M : Machine) (grid : GridBase) (size32 : Nat) (iodata : List Nat)
    (file : List Nat) (offset : Nat) (format : String) (flags : Nat)
    (schedule : List (List Nat)) : Option (IoResult × IoResult) :=
  match IOobject M grid size32 iodata file offset format (BINARYIO_WRITE ||| flags)
      schedule [] with
  | none => none
  | some w =>
    match IOobject M grid size32 w.iodata w.file offset format (BINARYIO_READ ||| flags)
        schedule [] with
    | none => none
    | some r => some (w, r)

/-! ## Sample host and lattice -/

/-- A sample little-endian host. Its `crc32` is a stand-in for the function of
zlib, good enough to evaluate the code on small inputs. -/
def sampleLittle : Machine where
  bigEndian := false
  shiftMasked := true
  crc32 := fun crc bytes => bytes.foldl (fun c b => (c * 31 + b + 1) % 4294967296) crc

/-- A sample big-endian host, with the same stand-in for `crc32`. -/
def sampleBig : Machine where
  bigEndian := true
  shiftMasked := false
  crc32 := fun crc bytes => bytes.foldl (fun c b => (c * 31 + b + 1) % 4294967296) crc

/-- A lattice of extents 2, 2, 1, 1 held by a single process. -/
def sampleGrid : GridBase where
  _ndimension := 4
  lSites := 4
  LocalDimensions := [2, 2, 1, 1]
  LocalStarts := [0, 0, 0, 0]
  FullDimensions := [2, 2, 1, 1]
  GlobalDimensions := [2, 2, 1, 1]
  ProcessorCount := 1
  ThisRank := 0

/-- A lattice of extents 256, 256, 256, 64 held by a single process: 2^30 sites. -/
def largeGrid : GridBase where
  _ndimension := 4
  lSites := 1073741824
  LocalDimensions := [256, 256, 256, 64]
  LocalStarts := [0, 0, 0, 0]
  FullDimensions := [256, 256, 256, 64]
  GlobalDimensions := [256, 256, 256, 64]
  ProcessorCount := 1
  ThisRank := 0

/-- What the write of the words 1, 2, 3, 4 under the tag IEEE32BIG leaves on the
sample little-endian host. -/
def sampleWritten : IoResult where
  iodata := [16777216, 33554432, 50331648, 67108864]
  file := [0, 0, 0, 1, 0, 0, 0, 2, 0, 0, 0, 3, 0, 0, 0, 4]
  csum := ⟨10, 1521143, 1521143⟩

/-- What the read of the file of `sampleWritten` leaves on the same host. -/
def sampleRead : IoResult where
  iodata := [1, 2, 3, 4]
  file := [0, 0, 0, 1, 0, 0, 0, 2, 0, 0, 0, 3, 0, 0, 0, 4]
  csum := ⟨10, 1521143, 1521143⟩

/-! ## The checksum loop with checked accesses -/

/-- The body of the site loop of `Uint32Checksum` with the access `fbuf[local_site]`
checked against `fbuf.size()`, which is `fbuf.length / size32` objects: nothing
when the index is out of range or when an earlier access was. -/
def siteUpdateChecked (M : Machine) (grid : GridBase) (size32 : Nat) (fbuf : List Nat)
    (thr : Option Csums) (local_site : Nat) : Option Csums :=
  match thr with
  | none => none
  | some t =>
    if local_site < fbuf.length / size32 then some (siteUpdate M grid size32 fbuf t local_site)
    else none

/-- The function `Uint32Checksum` with the accesses `fbuf[local_site]` checked:
nothing when a thread takes an element outside the buffer. -/
def Uint32ChecksumChecked (M : Machine) (grid : GridBase) (size32 : Nat) (fbuf : List Nat)
    (schedule : List (List Nat)) (init : Csums) : Option Csums :=
  schedule.foldl
    (fun acc sites =>
      match acc, sites.foldl (siteUpdateChecked M grid size32 fbuf) (some ⟨0, 0, 0⟩) with
      | some a, some t => some (combine a t)
      | _, _ => none)
    (some init)

/-! ## The state of the random number generators -/

/-- The function `writeRNG` for a single process: `parallel` holds the `lsites`
states of the parallel generator (`size32` words each) and `serial` the state of
the serial generator. The first call of `IOobject` writes the parallel states
at `offset`; the buffer is then resized to one object, which receives the
serial state, and the second call appends it to the file. The checksums of the
second call go to the variables `nersc_csum_tmp`, `scidac_csuma_tmp` and
`scidac_csumb_tmp`, which are not read again: the result is the file and the
checksums of the first call. -/
def writeRNG (M : Machine) (grid : GridBase) (size32 : Nat) (serial parallel : List Nat)
    (file : List Nat) (offset : Nat) (schedule : List (List Nat)) :
    Option (List Nat × Csums) :=
  match IOobject M grid size32 parallel file offset "IEEE32BIG"
      (BINARYIO_WRITE ||| BINARYIO_LEXICOGRAPHIC) schedule [] with
  | none => none
  | some first =>
    match IOobject M grid size32 serial first.file offset "IEEE32BIG"
        (BINARYIO_WRITE ||| BINARYIO_MASTER_APPEND) schedule [] with
    | none => none
    | some second => some (second.file, first.csum)

/-- What `readRNG` returns: the states it has set and the checksums. -/
structure RngRead where
  serial : List Nat
  parallel : List Nat
  csum : Csums
  deriving DecidableEq

/-- The function `readRNG` for a single process: the first call of `IOobject` reads
the `lsites` parallel states at `offset`, the buffer is resized to one object
and the second call reads the serial state from the end of the file; the
checksums of the second call are added, respectively XOR-ed, to those of the
first. -/
def readRNG (M : Machine) (grid : GridBase) (size32 : Nat) (file : List Nat) (offset : Nat)
    (schedule : List (List Nat)) : Option RngRead :=
  match IOobject M grid size32 (List.replicate (grid.lSites * size32) 0) file offset
      "IEEE32BIG" (BINARYIO_READ ||| BINARYIO_LEXICOGRAPHIC) schedule [] with
  | none => none
  | some first =>
    match IOobject M grid size32 (first.iodata.take size32) file offset "IEEE32BIG"
        (BINARYIO_READ ||| BINARYIO_MASTER_APPEND) schedule [] with
    | none => none
    | some second =>
      some { serial := second.iodata, parallel := first.iodata,
             csum := { nersc_csum := (first.csum.nersc_csum + second.csum.nersc_csum) % 2 ^ 32
                       scidac_csuma := first.csum.scidac_csuma ^^^ second.csum.scidac_csuma
                       scidac_csumb := first.csum.scidac_csumb ^^^ second.csum.scidac_csumb } }

/-- A lattice of a single site held by a single process. -/
def unitGrid : GridBase where
  _ndimension := 4
  lSites := 1
  LocalDimensions := [1, 1, 1, 1]
  LocalStarts := [0, 0, 0, 0]
  FullDimensions := [1, 1, 1, 1]
  GlobalDimensions := [1, 1, 1, 1]
  ProcessorCount := 1
  ThisRank := 0

/-! ## Decompositions of the lattice -/

/-- The grid of a single process that holds the whole lattice of the given
extents. -/
def wholeGrid (dims : List Nat) : GridBase where
  _ndimension := dims.length
  lSites := dims.prod
  LocalDimensions := dims
  LocalStarts := dims.map (fun _ => 0)
  FullDimensions := dims
  GlobalDimensions := dims
  ProcessorCount := 1
  ThisRank := 0

/-- One process of a parallel run: its grid, its buffer of `lSites` objects, and the
distribution of its sites over its threads. -/
structure Process where
  grid : GridBase
  fbuf : List Nat
  schedule : List (List Nat)

/-- The checksums `Uint32Checksum` gives a process, started from zero as `IOobject`
starts them. -/
def Process.checksums (M : Machine) (size32 : Nat) (p : Process) : Csums :=
  Uint32Checksum M p.grid size32 p.fbuf p.schedule ⟨0, 0, 0⟩

/-- The global indices of the local sites of the processes, process after
process. -/
def globalSites (procs : List Process) : List Nat :=
  procs.flatMap (fun p => (List.range p.grid.lSites).map (globalSite p.grid))

/-- The processes decompose the lattice of extents `dims`, whose data in global
lexicographic order is `whole`: every global site is the local site of exactly
one process, the threads of a process run each of its local sites once, and
the object a process holds at a local site is the one of the lattice at the
global index of the site. -/
def Decomposition (size32 : Nat) (dims : List Nat) (whole : List Nat)
    (procs : List Process) : Prop :=
  List.Perm (globalSites procs) (List.range dims.prod)
    ∧ (∀ p ∈ procs, ValidSchedule p.grid.lSites p.schedule)
    ∧ (∀ p ∈ procs, ∀ s, s < p.grid.lSites →
        siteWords size32 p.fbuf s = siteWords size32 whole (globalSite p.grid s))

/-- The first of two processes that share the sample lattice of extents 2, 2, 1, 1
along the first axis, with the words 1 to 8 in two-word objects: it holds the
global sites 0 and 2, one thread for each, the second site first. -/
def sampleProcess0 : Process where
  grid := { _ndimension := 4, lSites := 2, LocalDimensions := [1, 2, 1, 1],
            LocalStarts := [0, 0, 0, 0], FullDimensions := [2, 2, 1, 1],
            GlobalDimensions := [2, 2, 1, 1], ProcessorCount := 2, ThisRank := 0 }
  fbuf := [1, 2, 5, 6]
  schedule := [[1], [0]]

/-- The second of the two processes: it holds the global sites 1 and 3, in one
thread. -/
def sampleProcess1 : Process where
  grid := { _ndimension := 4, lSites := 2, LocalDimensions := [1, 2, 1, 1],
            LocalStarts := [1, 0, 0, 0], FullDimensions := [2, 2, 1, 1],
            GlobalDimensions := [2, 2, 1, 1], ProcessorCount := 2, ThisRank := 1 }
  fbuf := [3, 4, 7, 8]
  schedule := [[0, 1]]

/-! ## The improved staggered fermion operator
(lib/qcd/action/fermion/ImprovedStaggeredFermion.cc) -/

namespace QCD

/-- The constants of the library the operator refers to. They are parameters: the
checkerboard tags `Even` and `Odd`, the values `DaggerNo` and `DaggerYes`, and the
number `Nd` of directions. -/
structure Constants where
  Even : Nat
  Odd : Nat
  DaggerNo : Nat
  DaggerYes : Nat
  Nd : Nat

/-- The assertion at which a run ends: a `conformable` check of two grids, an
`assert` on a checkerboard, the `assert` on `dag`, or `assert(0)`. -/
inductive Abort where
  | conformable
  | checkerboard
  | dagger
  | assertZero
  deriving DecidableEq

/-- A lattice field, as far as the operator looks at it: the grid it lives on (an
identifier standing for the pointer `_grid`), its checkerboard tag, and its
data. -/
structure LatticeField (D : Type) where
  _grid : Nat
  checkerboard : Nat
  data : D

/-- The stencil members of the operator. -/
inductive StencilImpl where
  | Stencil
  | StencilEven
  | StencilOdd
  deriving DecidableEq

/-- The doubled gauge field members of the operator, each standing for the pair
one-link and three-link field (`Umu` with `UUUmu`, and so on). -/
inductive DoubledGaugeField where
  | Umu
  | UmuEven
  | UmuOdd
  deriving DecidableEq

/-- The routines of the library that the operator calls on the data of fields; they
are parameters. `DhopSite` and `DhopSiteDag` stand for the whole site loop of
`DhopInternal` and give the new data of `out`; `DhopDir` stands for the site
loop of `DerivInternal` for one `mu` and gives the new data of `Btilde`;
`axpy_norm a x y` stands for `axpy_norm(y, a, x, y)` and gives the new `y` and
the norm; `scale a x y` stands for the assignment `y = a * x`. -/
structure Kernels (D : Type) where
  DhopSite : StencilImpl → DoubledGaugeField → D → D → D
  DhopSiteDag : StencilImpl → DoubledGaugeField → D → D → D
  DhopDir : StencilImpl → DoubledGaugeField → D → D → Nat → D
  axpy_norm : ℚ → LatticeField D → LatticeField D → LatticeField D × ℚ
  scale : ℚ → LatticeField D → LatticeField D → LatticeField D

/-- The members of `ImprovedStaggeredFermion` that the functions below read: the
full grid, the checkerboarded grid and the mass. -/
structure ImprovedStaggeredFermion where
  _grid : Nat
  _cbgrid : Nat
  mass : ℚ

/-- The check `conformable(lhs, rhs)` of two grids: they must be the same grid. -/
def conformable (lhs rhs : Nat) : Except Abort Unit :=
  if lhs = rhs then Except.ok () else Except.error Abort.conformable

/-- The member function `DhopInternal`: the assertion on `dag`, then the site loop
with `DhopSiteDag` or `DhopSite`, which writes the data of `out`. -/
def ImprovedStaggeredFermion.DhopInternal {D : Type} (K : Constants) (L : Kernels D)
    (st : StencilImpl) (U : DoubledGaugeField) (inp out : LatticeField D) (dag : Nat) :
    Except Abort (LatticeField D) :=
  if dag = K.DaggerNo ∨ dag = K.DaggerYes then
    if dag = K.DaggerYes then
      Except.ok { out with data := L.DhopSiteDag st U inp.data out.data }
    else
      Except.ok { out with data := L.DhopSite st U inp.data out.data }
  else Except.error Abort.dagger

/-- The member function `Dhop`. -/
def ImprovedStaggeredFermion.Dhop {D : Type} (op : ImprovedStaggeredFermion) (K : Constants)
    (L : Kernels D) (inp out : LatticeField D) (dag : Nat) : Except Abort (LatticeField D) := do
  conformable inp._grid op._grid
  conformable inp._grid out._grid
  let out := { out with checkerboard := inp.checkerboard }
  ImprovedStaggeredFermion.DhopInternal K L StencilImpl.Stencil DoubledGaugeField.Umu inp out dag

/-- The member function `DhopOE`. -/
def ImprovedStaggeredFermion.DhopOE {D : Type} (op : ImprovedStaggeredFermion)
    (K : Constants) (L : Kernels D) (inp out : LatticeField D) (dag : Nat) :
    Except Abort (LatticeField D) := do
  conformable inp._grid op._cbgrid
  conformable inp._grid out._grid
  if inp.checkerboard = K.Even then
    let out := { out with checkerboard := K.Odd }
    ImprovedStaggeredFermion.DhopInternal K L StencilImpl.StencilEven DoubledGaugeField.UmuOdd
      inp out dag
  else Except.error Abort.checkerboard

/-- The member function `DhopEO`. -/
def ImprovedStaggeredFermion.DhopEO {D : Type} (op : ImprovedStaggeredFermion)
    (K : Constants) (L : Kernels D) (inp out : LatticeField D) (dag : Nat) :
    Except Abort (LatticeField D) := do
  conformable inp._grid op._cbgrid
  conformable inp._grid out._grid
  if inp.checkerboard = K.Odd then
    let out := { out with checkerboard := K.Even }
    ImprovedStaggeredFermion.DhopInternal K L StencilImpl.StencilOdd DoubledGaugeField.UmuEven
      inp out dag
  else Except.error Abort.checkerboard

/-- The member function `M`: the new `out` and the norm returned. -/
def ImprovedStaggeredFermion.M {D : Type} (op : ImprovedStaggeredFermion) (K : Constants)
    (L : Kernels D) (inp out : LatticeField D) : Except Abort (LatticeField D × ℚ) := do
  let out := { out with checkerboard := inp.checkerboard }
  let out ← op.Dhop K L inp out K.DaggerNo
  Except.ok (L.axpy_norm op.mass inp out)

/-- The member function `Mdag`. -/
def ImprovedStaggeredFermion.Mdag {D : Type} (op : ImprovedStaggeredFermion) (K : Constants)
    (L : Kernels D) (inp out : LatticeField D) : Except Abort (LatticeField D × ℚ) := do
  let out := { out with checkerboard := inp.checkerboard }
  let out ← op.Dhop K L inp out K.DaggerYes
  Except.ok (L.axpy_norm op.mass inp out)

/-- The member function `Meooe`. -/
def ImprovedStaggeredFermion.Meooe {D : Type} (op : ImprovedStaggeredFermion) (K : Constants)
    (L : Kernels D) (inp out : LatticeField D) : Except Abort (LatticeField D) :=
  if inp.checkerboard = K.Odd then op.DhopEO K L inp out K.DaggerNo
  else op.DhopOE K L inp out K.DaggerNo

/-- The member function `MeooeDag`. -/
def ImprovedStaggeredFermion.MeooeDag {D : Type} (op : ImprovedStaggeredFermion)
    (K : Constants) (L : Kernels D) (inp out : LatticeField D) :
    Except Abort (LatticeField D) :=
  if inp.checkerboard = K.Odd then op.DhopEO K L inp out K.DaggerYes
  else op.DhopOE K L inp out K.DaggerYes

/-- The member function `Mooee`. -/
def ImprovedStaggeredFermion.Mooee {D : Type} (op : ImprovedStaggeredFermion)
    (L : Kernels D) (inp out : LatticeField D) : LatticeField D :=
  let out := { out with checkerboard := inp.checkerboard }
  L.scale op.mass inp out

/-- The member function `MooeeDag`. -/
def ImprovedStaggeredFermion.MooeeDag {D : Type} (op : ImprovedStaggeredFermion)
    (L : Kernels D) (inp out : LatticeField D) : LatticeField D :=
  let out := { out with checkerboard := inp.checkerboard }
  op.Mooee L inp out

/-- The member function `MooeeInv`. -/
def ImprovedStaggeredFermion.MooeeInv {D : Type} (op : ImprovedStaggeredFermion)
    (L : Kernels D) (inp out : LatticeField D) : LatticeField D :=
  let out := { out with checkerboard := inp.checkerboard }
  L.scale (1 / op.mass) inp out

/-- The member function `MooeeInvDag`. -/
def ImprovedStaggeredFermion.MooeeInvDag {D : Type} (op : ImprovedStaggeredFermion)
    (L : Kernels D) (inp out : LatticeField D) : LatticeField D :=
  let out := { out with checkerboard := inp.checkerboard }
  op.MooeeInv L inp out

/-- How a run of `DerivInternal` ends: with the force field `mat` or at an
assertion; `sweeps` lists the values of `mu` for which the site loop with
`DhopDir` has run. -/
structure DerivResult (G : Type) where
  outcome : Except Abort (LatticeField G)
  sweeps : List Nat

/-- The loop `for (int mu = 0; mu < Nd; mu++)` of `DerivInternal` over the values of
`mu` still to come: the body runs the site loop with `DhopDir` and then reaches
`assert(0)`, which ends the run. -/
def ImprovedStaggeredFermion.derivLoop {D G : Type} (L : Kernels D) (st : StencilImpl)
    (U : DoubledGaugeField) (mat : LatticeField G) (B : LatticeField D) :
    List Nat → D → List Nat → DerivResult G
  | [], _, done => { outcome := Except.ok mat, sweeps := done }
  | mu :: _, Btilde, done =>
    let _Btilde := L.DhopDir st U B.data Btilde mu
    { outcome := Except.error Abort.assertZero, sweeps := done ++ [mu] }

/-- The member function `DerivInternal`; `Btilde0` is the data of the fresh field
`Btilde`. -/
def ImprovedStaggeredFermion.DerivInternal {D G : Type} (K : Constants) (L : Kernels D)
    (st : StencilImpl) (U : DoubledGaugeField) (mat : LatticeField G)
    (_A B : LatticeField D) (Btilde0 : D) (dag : Nat) : DerivResult G :=
  if dag = K.DaggerNo ∨ dag = K.DaggerYes then
    ImprovedStaggeredFermion.derivLoop L st U mat B (List.range K.Nd) Btilde0 []
  else { outcome := Except.error Abort.dagger, sweeps := [] }

/-- The member function `DhopDeriv`; `U` and `V` are its two fermion fields. -/
def ImprovedStaggeredFermion.DhopDeriv {D G : Type} (op : ImprovedStaggeredFermion)
    (K : Constants) (L : Kernels D) (mat : LatticeField G) (U V : LatticeField D)
    (Btilde0 : D) (dag : Nat) : DerivResult G :=
  match (do conformable U._grid op._grid
            conformable U._grid V._grid
            conformable U._grid mat._grid : Except Abort Unit) with
  | Except.error e => { outcome := Except.error e, sweeps := [] }
  | Except.ok _ =>
    let mat := { mat with checkerboard := U.checkerboard }
    ImprovedStaggeredFermion.DerivInternal K L StencilImpl.Stencil DoubledGaugeField.Umu mat
      U V Btilde0 dag

/-- The member function `DhopDerivOE`. -/
def ImprovedStaggeredFermion.DhopDerivOE {D G : Type} (op : ImprovedStaggeredFermion)
    (K : Constants) (L : Kernels D) (mat : LatticeField G) (U V : LatticeField D)
    (Btilde0 : D) (dag : Nat) : DerivResult G :=
  match (do conformable U._grid op._cbgrid
            conformable U._grid V._grid
            conformable U._grid mat._grid : Except Abort Unit) with
  | Except.error e => { outcome := Except.error e, sweeps := [] }
  | Except.ok _ =>
    if V.checkerboard = K.Even ∧ U.checkerboard = K.Odd then
      let mat := { mat with checkerboard := K.Odd }
      ImprovedStaggeredFermion.DerivInternal K L StencilImpl.StencilEven
        DoubledGaugeField.UmuOdd mat U V Btilde0 dag
    else { outcome := Except.error Abort.checkerboard, sweeps := [] }

/-- The member function `DhopDerivEO`. -/
def ImprovedStaggeredFermion.DhopDerivEO {D G : Type} (op : ImprovedStaggeredFermion)
    (K : Constants) (L : Kernels D) (mat : LatticeField G) (U V : LatticeField D)
    (Btilde0 : D) (dag : Nat) : DerivResult G :=
  match (do conformable U._grid op._cbgrid
            conformable U._grid V._grid
            conformable U._grid mat._grid : Except Abort Unit) with
  | Except.error e => { outcome := Except.error e, sweeps := [] }
  | Except.ok _ =>
    if V.checkerboard = K.Odd ∧ U.checkerboard = K.Even then
      let mat := { mat with checkerboard := K.Even }
      ImprovedStaggeredFermion.DerivInternal K L StencilImpl.StencilOdd
        DoubledGaugeField.UmuEven mat U V Btilde0 dag
    else { outcome := Except.error Abort.checkerboard, sweeps := [] }

/-- The values of the constants in the library: `Even` 0, `Odd` 1, `DaggerNo` 0,
`DaggerYes` 1, four directions. -/
def sampleConstants : Constants where
  Even := 0
  Odd := 1
  DaggerNo := 0
  DaggerYes := 1
  Nd := 4

/-- Sample kernels on data that are lists of naturals: the hop routines append a
mark to the data of `out`, `axpy_norm` and `scale` keep the tag of `y`. -/
def sampleKernels : Kernels (List Nat) where
  DhopSite := fun _ _ _ o => o ++ [1]
  DhopSiteDag := fun _ _ _ o => o ++ [2]
  DhopDir := fun _ _ _ b mu => b ++ [mu]
  axpy_norm := fun _ x y => ({ y with data := x.data ++ y.data }, 0)
  scale := fun _ x y => { y with data := x.data }

/-- A sample operator: full grid 0, checkerboarded grid 1. -/
def sampleOperator : ImprovedStaggeredFermion where
  _grid := 0
  _cbgrid := 1
  mass := 1 / 10

end QCD

end Grid

namespace Hadrons

/-! ## The kernel of the meson field -/

/-- The members of the class `MesonFieldKernel`; `mom_` holds the phase fields and
`vol_` is a `double`, here a rational. -/
structure MesonFieldKernel (C : Type) where
  gamma_ : List Gamma.Algebra
  mom_ : List (ComplexField C)
  grid_ : Grid.GridBase
  vol_ : ℚ

/-- The constructor of `MesonFieldKernel`: `vol_ = 1.` and then `vol_ *= d` for
every `d` of `grid_->GlobalDimensions()`. -/
def MesonFieldKernel.mk0 {C : Type} (gamma : List Gamma.Algebra)
    (mom : List (ComplexField C)) (grid : Grid.GridBase) : MesonFieldKernel C :=
  { gamma_ := gamma, mom_ := mom, grid_ := grid,
    vol_ := grid.GlobalDimensions.foldl (fun (vol : ℚ) (d : Nat) => vol * (d : ℚ)) 1 }

/-- The member function `MesonFieldKernel::flops`. -/
def MesonFieldKernel.flops {C : Type} (k : MesonFieldKernel C)
    (blockSizei blockSizej : Nat) : ℚ :=
  k.vol_ * (2 * 8 + 6 + 8 * (k.mom_.length : ℚ)) * blockSizei * blockSizej
    * k.gamma_.length

/-- The grid of one of two processes that share a lattice of extents 4, 4, 4, 8
along the last axis: 512 sites in all, 256 of them local. -/
def sampleSplitGrid : Grid.GridBase where
  _ndimension := 4
  lSites := 256
  LocalDimensions := [4, 4, 4, 4]
  LocalStarts := [0, 0, 0, 0]
  FullDimensions := [4, 4, 4, 8]
  GlobalDimensions := [4, 4, 4, 8]
  ProcessorCount := 2
  ThisRank := 0

/-! ## Lemmas on setup -/

theorem setupMomLoop_error_iff (H : Host) (nd : Nat) (l : List String)
    (acc : List (List ℚ)) :
    (∃ msg, (setupMomLoop H nd l acc).2 = some (Exceptions.Size msg)) ↔
      ∃ pstr ∈ l, (H.strToVecReal pstr).length ≠ nd - 1 := by
  induction l generalizing acc with
  | nil => simp [setupMomLoop]
  | cons pstr rest ih =>
    by_cases hp : (H.strToVecReal pstr).length = nd - 1
    · simp [setupMomLoop, hp, ih]
    · simp [setupMomLoop, hp]

theorem setupMomLoop_none_iff (H : Host) (nd : Nat) (l : List String)
    (acc : List (List ℚ)) :
    (setupMomLoop H nd l acc).2 = none ↔
      ∀ pstr ∈ l, (H.strToVecReal pstr).length = nd - 1 := by
  induction l generalizing acc with
  | nil => simp [setupMomLoop]
  | cons pstr rest ih =>
    by_cases hp : (H.strToVecReal pstr).length = nd - 1
    · simp [setupMomLoop, hp, ih]
    · simp [setupMomLoop, hp]

theorem setupMomLoop_fst_of_none (H : Host) (nd : Nat) (l : List String)
    (acc : List (List ℚ)) (h : (setupMomLoop H nd l acc).2 = none) :
    (setupMomLoop H nd l acc).1 = acc ++ l.map H.strToVecReal := by
  induction l generalizing acc with
  | nil => simp [setupMomLoop]
  | cons pstr rest ih =>
    by_cases hp : (H.strToVecReal pstr).length = nd - 1
    · simp only [setupMomLoop, hp, ne_eq, not_true_eq_false, if_false] at h ⊢
      rw [ih _ h]
      simp
    · simp [setupMomLoop, hp] at h

theorem setup_error_eq {C : Type} [Zero C] (H : Host) (m : TA2AMesonField)
    (env : Environment C) :
    (setup H m env).error = (setupMomLoop H env.getNd m.par.mom []).2 := by
  unfold setup
  cases h : (setupMomLoop H env.getNd m.par.mom []).2 <;> simp [h]

theorem setup_gamma_eq {C : Type} [Zero C] (H : Host) (m : TA2AMesonField)
    (env : Environment C) :
    (setup H m env).mod.gamma_ =
      if m.par.gammas = "all" then allGammas else H.strToVecGamma m.par.gammas := by
  unfold setup
  cases h : (setupMomLoop H env.getNd m.par.mom []).2 <;> simp [h]

theorem setup_mom_eq {C : Type} [Zero C] (H : Host) (m : TA2AMesonField)
    (env : Environment C) :
    (setup H m env).mod.mom_ = (setupMomLoop H env.getNd m.par.mom []).1 := by
  unfold setup
  cases h : (setupMomLoop H env.getNd m.par.mom []).2 <;> simp [h]

theorem setup_env_of_error {C : Type} [Zero C] (H : Host) (m : TA2AMesonField)
    (env : Environment C) (e : Exceptions) (h : (setup H m env).error = some e) :
    (setup H m env).env = env := by
  rw [setup_error_eq] at h
  unfold setup
  simp [h]

theorem setup_env_of_none {C : Type} [Zero C] (H : Host) (m : TA2AMesonField)
    (env : Environment C) (h : (setup H m env).error = none) :
    (setup H m env).env =
      ((env.envCache m.momphName_ m.par.mom.length).envTmp m.name "coor").envTmp
        m.name "computation" := by
  rw [setup_error_eq] at h
  unfold setup
  simp [h]

theorem hasCache_envCache {C : Type} [Zero C] (env : Environment C) (name : String)
    (n : Nat) : (env.envCache name n).hasCache name = true := by
  unfold Environment.envCache
  by_cases hc : env.hasCache name = true
  · rw [if_pos hc]
    exact hc
  · rw [if_neg hc]
    simp [Environment.hasCache]

/-! ## Claims on setup -/

/-- C1: `setup` raises a `Size` error exactly when some entry of `par().mom` reads
as a vector whose number of components differs from `Nd - 1`; when it raises, the
environment is as it was on entry, so none of the three registrations (the phase
cache, `coor`, `computation`) has been made; and when it does not raise, the two
temporaries have been registered, in this order, after the phase cache. -/
theorem setup_size_error_iff {C : Type} [Zero C] (H : Host) (m : TA2AMesonField)
    (env : Environment C) :
    ((∃ msg, (setup H m env).error = some (Exceptions.Size msg)) ↔
        ∃ pstr ∈ m.par.mom, (H.strToVecReal pstr).length ≠ env.getNd - 1)
      ∧ (∀ e, (setup H m env).error = some e → (setup H m env).env = env)
      ∧ ((setup H m env).error = none →
          (setup H m env).env.hasCache m.momphName_ = true ∧
          (setup H m env).env.tmp =
            env.tmp ++ [m.name ++ "_tmp_" ++ "coor", m.name ++ "_tmp_" ++ "computation"]) := by
  refine ⟨?_, ?_, ?_⟩
  · rw [setup_error_eq]
    exact setupMomLoop_error_iff H env.getNd m.par.mom []
  · intro e he
    exact setup_env_of_error H m env e he
  · intro hn
    rw [setup_env_of_none H m env hn]
    constructor
    · exact hasCache_envCache env m.momphName_ m.par.mom.length
    · simp only [Environment.envTmp, Environment.envCache]
      split <;> simp

/-- C2: when `par().gammas` is `all`, `setup` leaves `gamma_` with sixteen entries,
no two of them equal, and every element of the enumeration among them. -/
theorem setup_all_gammas_cover {C : Type} [Zero C] (H : Host) (m : TA2AMesonField)
    (env : Environment C) (hall : m.par.gammas = "all") :
    (setup H m env).mod.gamma_.length = 16
      ∧ (setup H m env).mod.gamma_.Nodup
      ∧ ∀ a : Gamma.Algebra, a ∈ (setup H m env).mod.gamma_ := by
  rw [setup_gamma_eq, if_pos hall]
  refine ⟨rfl, by decide, ?_⟩
  intro a
  cases a <;> decide

/-- Witness of C2 on the sample module with three momenta. -/
theorem setup_all_gammas_cover_witness :
    (setup sampleHost (sampleModule "all" ["0 0 0", "1 0 0", "1 1 0"])
        (sampleEnv ℚ)).mod.gamma_.length = 16
      ∧ (setup sampleHost (sampleModule "all" ["0 0 0", "1 0 0", "1 1 0"])
        (sampleEnv ℚ)).mod.gamma_.Nodup
      ∧ ∀ a : Gamma.Algebra, a ∈ (setup sampleHost
          (sampleModule "all" ["0 0 0", "1 0 0", "1 1 0"]) (sampleEnv ℚ)).mod.gamma_ :=
  setup_all_gammas_cover sampleHost (sampleModule "all" ["0 0 0", "1 0 0", "1 1 0"])
    (sampleEnv ℚ) rfl

/-- C3, as stated, fails: with `gammas` equal to `all` the list built by `setup` is
not the list in the order of the configuration table; the entries of index 14 and
15 are `SigmaYT` and `SigmaZT`, where the table has `SigmaZT` and `SigmaYT`. -/
theorem setup_all_gammas_not_table_order :
    (setup sampleHost (sampleModule "all" ["0 0 0"]) (sampleEnv ℚ)).mod.gamma_ ≠ tableOrder
      ∧ (setup sampleHost (sampleModule "all" ["0 0 0"]) (sampleEnv ℚ)).mod.gamma_[14]?
          = some Gamma.Algebra.SigmaYT
      ∧ tableOrder[14]? = some Gamma.Algebra.SigmaZT := by
  rw [setup_gamma_eq]
  refine ⟨?_, ?_, ?_⟩
  · rw [if_pos (by rfl)]
    decide
  · rw [if_pos (by rfl)]
    rfl
  · rfl

/-- C3, amended: with `gammas` equal to `all` the list built by `setup` is, in this
order, Gamma5, Identity, GammaX, GammaY, GammaZ, GammaT, GammaXGamma5,
GammaYGamma5, GammaZGamma5, GammaTGamma5, SigmaXY, SigmaXZ, SigmaXT, SigmaYZ,
SigmaYT, SigmaZT; index `g` of a slice stands for the `g`-th label of this list. -/
theorem setup_all_gammas_order {C : Type} [Zero C] (H : Host) (m : TA2AMesonField)
    (env : Environment C) (hall : m.par.gammas = "all") :
    (setup H m env).mod.gamma_ =
      [ Gamma.Algebra.Gamma5, Gamma.Algebra.Identity, Gamma.Algebra.GammaX,
        Gamma.Algebra.GammaY, Gamma.Algebra.GammaZ, Gamma.Algebra.GammaT,
        Gamma.Algebra.GammaXGamma5, Gamma.Algebra.GammaYGamma5,
        Gamma.Algebra.GammaZGamma5, Gamma.Algebra.GammaTGamma5,
        Gamma.Algebra.SigmaXY, Gamma.Algebra.SigmaXZ, Gamma.Algebra.SigmaXT,
        Gamma.Algebra.SigmaYZ, Gamma.Algebra.SigmaYT, Gamma.Algebra.SigmaZT ] := by
  rw [setup_gamma_eq, if_pos hall]
  rfl

/-- Witness of the amended C3 on the sample module. -/
theorem setup_all_gammas_order_witness :
    (setup sampleHost (sampleModule "all" ["0 0 0"]) (sampleEnv ℚ)).mod.gamma_ =
      [ Gamma.Algebra.Gamma5, Gamma.Algebra.Identity, Gamma.Algebra.GammaX,
        Gamma.Algebra.GammaY, Gamma.Algebra.GammaZ, Gamma.Algebra.GammaT,
        Gamma.Algebra.GammaXGamma5, Gamma.Algebra.GammaYGamma5,
        Gamma.Algebra.GammaZGamma5, Gamma.Algebra.GammaTGamma5,
        Gamma.Algebra.SigmaXY, Gamma.Algebra.SigmaXZ, Gamma.Algebra.SigmaXT,
        Gamma.Algebra.SigmaYZ, Gamma.Algebra.SigmaYT, Gamma.Algebra.SigmaZT ] :=
  setup_all_gammas_order sampleHost (sampleModule "all" ["0 0 0"]) (sampleEnv ℚ) rfl

/-- C4, as stated, fails: with an empty momentum list `setup` raises no error and
completes with `mom_` of size zero. -/
theorem setup_empty_mom_completes :
    (sampleModule "all" []).par.mom = []
      ∧ (setup sampleHost (sampleModule "all" []) (sampleEnv ℚ)).error = none
      ∧ (setup sampleHost (sampleModule "all" []) (sampleEnv ℚ)).mod.mom_.length = 0 := by
  refine ⟨rfl, ?_, ?_⟩
  · rw [setup_error_eq]
    rfl
  · rw [setup_mom_eq]
    rfl

/-- C4, amended: `setup` has no check on empty lists. Whenever every configured
momentum reads as a vector of `Nd - 1` components (in particular when there is
none), `setup` completes without error, `mom_` holds one vector for each
configured momentum, in order, and `gamma_` holds the sixteen structures for
`all` and the structures read from `gammas` otherwise. -/
theorem setup_completes {C : Type} [Zero C] (H : Host) (m : TA2AMesonField)
    (env : Environment C)
    (hmom : ∀ pstr ∈ m.par.mom, (H.strToVecReal pstr).length = env.getNd - 1) :
    (setup H m env).error = none
      ∧ (setup H m env).mod.mom_ = m.par.mom.map H.strToVecReal
      ∧ (setup H m env).mod.mom_.length = m.par.mom.length
      ∧ (setup H m env).mod.gamma_ =
          (if m.par.gammas = "all" then allGammas else H.strToVecGamma m.par.gammas) := by
  have hn : (setupMomLoop H env.getNd m.par.mom []).2 = none :=
    (setupMomLoop_none_iff H env.getNd m.par.mom []).2 hmom
  have hm : (setup H m env).mod.mom_ = m.par.mom.map H.strToVecReal := by
    rw [setup_mom_eq, setupMomLoop_fst_of_none H env.getNd m.par.mom [] hn]
    simp
  refine ⟨?_, hm, ?_, setup_gamma_eq H m env⟩
  · rw [setup_error_eq]
    exact hn
  · rw [hm]
    simp

/-- Witness of the amended C4: the empty momentum list and the empty list of spin
structures. -/
theorem setup_completes_witness :
    (setup sampleHost (sampleModule "" []) (sampleEnv ℚ)).error = none
      ∧ (setup sampleHost (sampleModule "" []) (sampleEnv ℚ)).mod.mom_
          = ([] : List String).map sampleHost.strToVecReal
      ∧ (setup sampleHost (sampleModule "" []) (sampleEnv ℚ)).mod.mom_.length
          = ([] : List String).length
      ∧ (setup sampleHost (sampleModule "" []) (sampleEnv ℚ)).mod.gamma_ =
          (if (sampleModule "" []).par.gammas = "all" then allGammas
            else sampleHost.strToVecGamma (sampleModule "" []).par.gammas) :=
  setup_completes sampleHost (sampleModule "" []) (sampleEnv ℚ)
    (by intro pstr hp; cases hp)

/-! ## Lemmas on strings and names -/

theorem intercalate_go_append (s x acc : String) (l : List String) :
    String.intercalate.go (x ++ acc) s l = x ++ String.intercalate.go acc s l := by
  induction l generalizing acc with
  | nil => rfl
  | cons a t ih =>
    simp only [String.intercalate.go, String.append_assoc]
    exact ih _

theorem intercalate_cons_cons (s a b : String) (t : List String) :
    s.intercalate (a :: b :: t) = a ++ s ++ s.intercalate (b :: t) := by
  simp only [String.intercalate, String.intercalate.go]
  exact intercalate_go_append s (a ++ s) b t

theorem intercalate_singleton (s a : String) : s.intercalate [a] = a := rfl

/-- The loop of `ioname`, started at index `pre.length`, appends the remaining
components joined by single underscores. -/
theorem ionameLoop_eq (H : Host) (pre suf : List ℚ) (ss : String) :
    ionameLoop H (pre ++ suf) (List.range' pre.length suf.length) ss =
      ss ++ "_".intercalate (suf.map H.showReal) := by
  induction suf generalizing pre ss with
  | nil => simp [ionameLoop, String.intercalate]
  | cons a t ih =>
    have hget : (pre ++ a :: t).getD pre.length 0 = a := by
      rw [List.getD_eq_getElem?_getD, List.getElem?_append_right (le_refl _)]
      simp
    have hsplit : pre ++ a :: t = (pre ++ [a]) ++ t := by simp
    have hlen : (pre ++ [a]).length = pre.length + 1 := by simp
    simp only [List.length_cons, List.range'_succ, ionameLoop, hget]
    rw [hsplit, ← hlen, ih (pre ++ [a])]
    cases t with
    | nil =>
      simp [String.intercalate, String.intercalate.go]
    | cons b t2 =>
      have hne : ¬ (pre.length = ((pre ++ [a]) ++ b :: t2).length - 1) := by
        simp
      rw [if_neg hne]
      simp only [List.map_cons]
      rw [intercalate_cons_cons]
      simp only [String.append_assoc]

theorem ioname_eq (H : Host) (mod : TA2AMesonField) (m g : Nat) :
    ioname H mod m g =
      (mod.gamma_.getD g Gamma.Algebra.Identity).label ++ "_"
        ++ "_".intercalate ((mod.mom_.getD m []).map H.showReal) := by
  unfold ioname
  have h := ionameLoop_eq H [] (mod.mom_.getD m [])
    ((mod.gamma_.getD g Gamma.Algebra.Identity).label ++ "_")
  simp only [List.nil_append, List.length_nil] at h
  simp only [List.range_eq_range']
  exact h

theorem split_at_char (c : Char) (L L2 J J2 : List Char) (h : c ∉ L) (h2 : c ∉ L2)
    (e : L ++ c :: J = L2 ++ c :: J2) : L = L2 ∧ J = J2 := by
  induction L generalizing L2 with
  | nil =>
    cases L2 with
    | nil => simpa using e
    | cons d L3 =>
      simp only [List.nil_append, List.cons_append, List.cons.injEq] at e
      simp [e.1] at h2
  | cons d L1 ih =>
    cases L2 with
    | nil =>
      simp only [List.nil_append, List.cons_append, List.cons.injEq] at e
      simp [e.1] at h
    | cons d2 L3 =>
      simp only [List.cons_append, List.cons.injEq] at e
      simp only [List.mem_cons, not_or] at h h2
      obtain ⟨r1, r2⟩ := ih L3 h.2 h2.2 e.2
      exact ⟨by rw [e.1, r1], r2⟩

theorem intercalate_cons_cons_data (a b : String) (t : List String) :
    ("_".intercalate (a :: b :: t)).data = a.data ++ '_' :: ("_".intercalate (b :: t)).data := by
  rw [intercalate_cons_cons]
  simp only [String.data_append]
  simp

/-- Joining by underscores is injective on lists of strings that are not empty
and hold no underscore. -/
theorem intercalate_injective (l l2 : List String)
    (h : ∀ s ∈ l, '_' ∉ s.data ∧ s ≠ "") (h2 : ∀ s ∈ l2, '_' ∉ s.data ∧ s ≠ "")
    (e : "_".intercalate l = "_".intercalate l2) : l = l2 := by
  induction l generalizing l2 with
  | nil =>
    cases l2 with
    | nil => rfl
    | cons a t =>
      exfalso
      have ha := h2 a (List.mem_cons_self a t)
      cases t with
      | nil =>
        rw [intercalate_singleton] at e
        exact ha.2 e.symm
      | cons b t2 =>
        have e2 := congrArg String.data e
        rw [intercalate_cons_cons_data] at e2
        have e3 : ("_".intercalate ([] : List String)).data = [] := rfl
        rw [e3] at e2
        cases hd : a.data with
        | nil => rw [hd] at e2; simp at e2
        | cons c r => rw [hd] at e2; simp at e2
  | cons a t ih =>
    have ha := h a (List.mem_cons_self a t)
    have ht : ∀ s ∈ t, '_' ∉ s.data ∧ s ≠ "" :=
      fun s hs => h s (List.mem_cons_of_mem a hs)
    cases l2 with
    | nil =>
      exfalso
      cases t with
      | nil =>
        rw [intercalate_singleton] at e
        exact ha.2 e
      | cons b t2 =>
        have e2 := congrArg String.data e
        rw [intercalate_cons_cons_data] at e2
        have e3 : ("_".intercalate ([] : List String)).data = [] := rfl
        rw [e3] at e2
        cases hd : a.data with
        | nil => rw [hd] at e2; simp at e2
        | cons c r => rw [hd] at e2; simp at e2
    | cons a2 t2 =>
      have ha2 := h2 a2 (List.mem_cons_self a2 t2)
      have ht2 : ∀ s ∈ t2, '_' ∉ s.data ∧ s ≠ "" :=
        fun s hs => h2 s (List.mem_cons_of_mem a2 hs)
      cases t with
      | nil =>
        cases t2 with
        | nil =>
          rw [intercalate_singleton, intercalate_singleton] at e
          rw [e]
        | cons b2 t3 =>
          exfalso
          have e2 := congrArg String.data e
          rw [intercalate_singleton, intercalate_cons_cons_data] at e2
          apply ha.1
          rw [e2]
          simp
      | cons b t1 =>
        cases t2 with
        | nil =>
          exfalso
          have e2 := congrArg String.data e
          rw [intercalate_singleton, intercalate_cons_cons_data] at e2
          apply ha2.1
          rw [← e2]
          simp
        | cons b2 t3 =>
          have e2 := congrArg String.data e
          rw [intercalate_cons_cons_data, intercalate_cons_cons_data] at e2
          obtain ⟨r1, r2⟩ := split_at_char '_' _ _ _ _ ha.1 ha2.1 e2
          have r3 : a = a2 := String.ext r1
          have r4 : b :: t1 = b2 :: t3 := ih (b2 :: t3) ht ht2 (String.ext r2)
          rw [r3, r4]

theorem label_no_underscore (a : Gamma.Algebra) : '_' ∉ a.label.data := by
  cases a <;> decide

theorem label_injective (a b : Gamma.Algebra) (h : a.label = b.label) : a = b := by
  cases a <;> cases b <;> first | rfl | (exfalso; revert h; decide)

theorem filenameFn_eq_filename (H : Host) (mod : TA2AMesonField) (vm : VirtualMachine)
    (m g : Nat) : filenameFn H mod vm m g = filename H vm mod m g := rfl

theorem execute_filenameFn {C : Type} [Field C] (K : ComplexOps C) (H : Host)
    (mod : TA2AMesonField) (env : Environment C) (vm : VirtualMachine) (m g : Nat) :
    (execute K H mod env).filenameFn vm m g = filename H vm mod m g := by
  unfold execute
  split <;> rfl

theorem execute_ionameFn {C : Type} [Field C] (K : ComplexOps C) (H : Host)
    (mod : TA2AMesonField) (env : Environment C) (m g : Nat) :
    (execute K H mod env).ionameFn m g = ioname H mod m g := by
  unfold execute
  split <;> rfl

theorem getD_eq_getElem_of_lt {α : Type} (l : List α) (n : Nat) (d : α) (h : n < l.length) :
    l.getD n d = l[n] := by
  rw [List.getD_eq_getElem?_getD, List.getElem?_eq_getElem h]
  rfl

/-! ## Claims on the names of the output files -/

/-- C5: for indices `m` and `g` in range, `filename(m, g)` is the output prefix, a
dot, the trajectory in decimal, a slash, the label of `gamma_[g]`, an underscore,
the printed components of `mom_[m]` in axis order joined by single underscores
(none trailing), and `.h5`; the closure `filenameFn` handed to the computation
returns the same string as `filename(m, g)`, and `ionameFn` the same string as
`ioname(m, g)`. -/
theorem filename_eq_spec {C : Type} [Field C] (K : ComplexOps C) (H : Host)
    (mod : TA2AMesonField) (env : Environment C) (vm : VirtualMachine) (m g : Nat)
    (hm : m < mod.mom_.length) (hg : g < mod.gamma_.length) :
    filename H vm mod m g =
        specFilename H mod.par.output vm.getTrajectory mod.gamma_[g] mod.mom_[m]
      ∧ (execute K H mod env).filenameFn vm m g = filename H vm mod m g
      ∧ (execute K H mod env).ionameFn m g = ioname H mod m g := by
  refine ⟨?_, execute_filenameFn K H mod env vm m g, execute_ionameFn K H mod env m g⟩
  unfold filename specFilename
  rw [ioname_eq, getD_eq_getElem_of_lt _ _ _ hm, getD_eq_getElem_of_lt _ _ _ hg]
  simp only [String.append_assoc]

/-- Witness of C5: the module set up with all spin structures and two momenta, at
trajectory 1000, momentum index 1 and spin index 0. -/
theorem filename_eq_spec_witness :
    filename sampleHost (VirtualMachine.mk 1000)
        (setup sampleHost (sampleModule "all" ["0 0 0", "1 0 0"]) (sampleEnv ℂ)).mod 1 0
        = "mf.1000/Gamma5_1_0_0.h5"
      ∧ (execute (ComplexOps.mk Complex.I (2 * (Real.pi : ℂ)) Complex.exp) sampleHost
          (setup sampleHost (sampleModule "all" ["0 0 0", "1 0 0"]) (sampleEnv ℂ)).mod
          (setup sampleHost (sampleModule "all" ["0 0 0", "1 0 0"]) (sampleEnv ℂ)).env
          ).filenameFn (VirtualMachine.mk 1000) 1 0
        = "mf.1000/Gamma5_1_0_0.h5" := by
  have h := filename_eq_spec (ComplexOps.mk Complex.I (2 * (Real.pi : ℂ)) Complex.exp)
    sampleHost (setup sampleHost (sampleModule "all" ["0 0 0", "1 0 0"]) (sampleEnv ℂ)).mod
    (setup sampleHost (sampleModule "all" ["0 0 0", "1 0 0"]) (sampleEnv ℂ)).env
    (VirtualMachine.mk 1000) 1 0 (by decide) (by decide)
  have hv : filename sampleHost (VirtualMachine.mk 1000)
      (setup sampleHost (sampleModule "all" ["0 0 0", "1 0 0"]) (sampleEnv ℂ)).mod 1 0
      = "mf.1000/Gamma5_1_0_0.h5" := by
    rw [h.1]
    decide
  exact ⟨hv, h.2.1.trans hv⟩

/-- C6: when `gamma_` has no repeated structure, no two momenta of `mom_` print to
the same list of component strings, and the number printer writes neither an
underscore nor the empty string (labels never hold an underscore), two different
index pairs in range get different I/O names and different file names. -/
theorem ioname_injective (H : Host) (mod : TA2AMesonField)
    (hshow : ∀ q : ℚ, '_' ∉ (H.showReal q).data ∧ H.showReal q ≠ "")
    (hgamma : mod.gamma_.Nodup)
    (hmom : (mod.mom_.map (fun p => p.map H.showReal)).Nodup)
    (m g m2 g2 : Nat) (hm : m < mod.mom_.length) (hg : g < mod.gamma_.length)
    (hm2 : m2 < mod.mom_.length) (hg2 : g2 < mod.gamma_.length)
    (hne : (m, g) ≠ (m2, g2)) :
    ioname H mod m g ≠ ioname H mod m2 g2
      ∧ ∀ vm : VirtualMachine, filename H vm mod m g ≠ filename H vm mod m2 g2 := by
  have key : ioname H mod m g ≠ ioname H mod m2 g2 := by
    intro e
    apply hne
    rw [ioname_eq, ioname_eq, getD_eq_getElem_of_lt _ _ _ hm, getD_eq_getElem_of_lt _ _ _ hg,
      getD_eq_getElem_of_lt _ _ _ hm2, getD_eq_getElem_of_lt _ _ _ hg2] at e
    have e2 := congrArg String.data e
    simp only [String.data_append] at e2
    simp only [List.append_assoc, List.singleton_append] at e2
    obtain ⟨r1, r2⟩ := split_at_char '_' _ _ _ _ (label_no_underscore _)
      (label_no_underscore _) e2
    have hlab : mod.gamma_[g] = mod.gamma_[g2] := label_injective _ _ (String.ext r1)
    have hgg : g = g2 := (List.Nodup.getElem_inj_iff hgamma).1 hlab
    have hall : ∀ (p : List ℚ), ∀ s ∈ p.map H.showReal, '_' ∉ s.data ∧ s ≠ "" := by
      intro p s hs
      obtain ⟨q, _, rfl⟩ := List.mem_map.1 hs
      exact hshow q
    have hl : mod.mom_[m].map H.showReal = mod.mom_[m2].map H.showReal :=
      intercalate_injective _ _ (hall _) (hall _) (String.ext r2)
    have hmm : m = m2 := by
      have i1 : m < (mod.mom_.map (fun p => p.map H.showReal)).length := by simpa using hm
      have i2 : m2 < (mod.mom_.map (fun p => p.map H.showReal)).length := by simpa using hm2
      have e3 : (mod.mom_.map (fun p => p.map H.showReal))[m]
          = (mod.mom_.map (fun p => p.map H.showReal))[m2] := by
        simpa using hl
      exact (List.Nodup.getElem_inj_iff hmom).1 e3
    rw [hmm, hgg]
  refine ⟨key, ?_⟩
  intro vm e
  apply key
  unfold filename at e
  have e2 := congrArg String.data e
  simp only [String.data_append] at e2
  exact String.ext (List.append_cancel_left (List.append_cancel_right e2))

/-- Witness of C6: the module set up with all spin structures and two momenta;
the pairs (0, 0) and (1, 0) get different names. -/
theorem ioname_injective_witness :
    ioname sampleHost
        (setup sampleHost (sampleModule "all" ["0 0 0", "1 0 0"]) (sampleEnv ℚ)).mod 0 0
      ≠ ioname sampleHost
        (setup sampleHost (sampleModule "all" ["0 0 0", "1 0 0"]) (sampleEnv ℚ)).mod 1 0 :=
  (ioname_injective sampleHost
    (setup sampleHost (sampleModule "all" ["0 0 0", "1 0 0"]) (sampleEnv ℚ)).mod
    (by
      intro q
      simp only [sampleHost]
      split_ifs <;> decide)
    (by decide) (by decide) 0 0 1 0 (by decide) (by decide) (by decide) (by decide)
    (by decide)).1

/-- C7, as stated, fails: the closure `filenameFn` produced by one call of `execute`
returns, for the same indices, a name with trajectory 1 when it is evaluated while
the counter is 1 and a different name, with trajectory 2, when it is evaluated
after the counter has been set to 2; the second name is not the one of the
counter value at entry. -/
theorem filenameFn_follows_counter :
    (execute (ComplexOps.mk Complex.I (2 * (Real.pi : ℂ)) Complex.exp) sampleHost
        (setup sampleHost (sampleModule "all" ["0 0 0"]) (sampleEnv ℂ)).mod
        (setup sampleHost (sampleModule "all" ["0 0 0"]) (sampleEnv ℂ)).env
        ).filenameFn (VirtualMachine.mk 1) 0 0 = "mf.1/Gamma5_0_0_0.h5"
      ∧ (execute (ComplexOps.mk Complex.I (2 * (Real.pi : ℂ)) Complex.exp) sampleHost
        (setup sampleHost (sampleModule "all" ["0 0 0"]) (sampleEnv ℂ)).mod
        (setup sampleHost (sampleModule "all" ["0 0 0"]) (sampleEnv ℂ)).env
        ).filenameFn ((VirtualMachine.mk 1).setTrajectory 2) 0 0 = "mf.2/Gamma5_0_0_0.h5"
      ∧ (execute (ComplexOps.mk Complex.I (2 * (Real.pi : ℂ)) Complex.exp) sampleHost
        (setup sampleHost (sampleModule "all" ["0 0 0"]) (sampleEnv ℂ)).mod
        (setup sampleHost (sampleModule "all" ["0 0 0"]) (sampleEnv ℂ)).env
        ).filenameFn ((VirtualMachine.mk 1).setTrajectory 2) 0 0
        ≠ filename sampleHost (VirtualMachine.mk 1)
          (setup sampleHost (sampleModule "all" ["0 0 0"]) (sampleEnv ℂ)).mod 0 0 := by
  simp only [execute_filenameFn]
  decide

/-- C7, amended: the closure `filenameFn` reads the trajectory counter each time it
is evaluated. For every state `vm` of the virtual machine at the evaluation, the
name it returns is built from the value of the counter in `vm`; hence two
evaluations made under equal counter values return the same name. Nothing is
captured on entry of `execute`. -/
theorem filenameFn_reads_counter {C : Type} [Field C] (K : ComplexOps C) (H : Host)
    (mod : TA2AMesonField) (env : Environment C) (m g : Nat) :
    (∀ vm : VirtualMachine, (execute K H mod env).filenameFn vm m g =
        mod.par.output ++ "." ++ toString vm.getTrajectory ++ "/" ++ ioname H mod m g
          ++ ".h5")
      ∧ (∀ vm vm2 : VirtualMachine, vm.getTrajectory = vm2.getTrajectory →
          (execute K H mod env).filenameFn vm m g
            = (execute K H mod env).filenameFn vm2 m g) := by
  constructor
  · intro vm
    rw [execute_filenameFn]
    rfl
  · intro vm vm2 h
    rw [execute_filenameFn, execute_filenameFn]
    unfold filename
    rw [h]

/-! ## Lemmas on the phase table -/

theorem foldl_sum_range {C : Type} [Field C] (f : Nat → Site → C) (n : Nat)
    (init : ComplexField C) (x : Site) :
    ((List.range n).foldl (fun ph mu => fun y => ph y + f mu y) init) x =
      init x + ∑ mu in Finset.range n, f mu x := by
  induction n with
  | zero => simp
  | succ k ih =>
    rw [List.range_succ, List.foldl_append]
    simp only [List.foldl_cons, List.foldl_nil]
    rw [ih, Finset.sum_range_succ, add_assoc]

theorem momentumSum_eq_sum {C : Type} [Field C] (env : Environment C) (p : List ℚ)
    (x : Site) :
    momentumSum env p x =
      ∑ mu in Finset.range p.length,
        (((p.getD mu 0 / (env.getDim mu : ℚ) : ℚ)) : C) * ((x.getD mu 0 : ℕ) : C) := by
  unfold momentumSum
  have h := foldl_sum_range
    (fun mu y => (((p.getD mu 0 / (env.getDim mu : ℚ) : ℚ)) : C) * LatticeCoordinate mu y)
    p.length (fun _ => 0) x
  simp only [zero_add] at h
  exact h

theorem momentumSum_congr_dim {C : Type} [Field C] (env env2 : Environment C)
    (h : env.dim = env2.dim) (p : List ℚ) : momentumSum env p = momentumSum env2 p := by
  unfold momentumSum Environment.getDim
  rw [h]

theorem specPhaseTable_congr_dim {C : Type} [Field C] (K : ComplexOps C)
    (env env2 : Environment C) (h : env.dim = env2.dim) (mom : List (List ℚ)) :
    specPhaseTable K env mom = specPhaseTable K env2 mom := by
  unfold specPhaseTable
  simp only [momentumSum_congr_dim env env2 h]

theorem phaseLoop_getElem? {C : Type} [Field C] (K : ComplexOps C) (env : Environment C)
    (mom : List (List ℚ)) (js : List Nat) (ph : List (ComplexField C)) (j : Nat) :
    (phaseLoop K env mom js ph)[j]? =
      if j ∈ js then
        (ph[j]?).map (fun _ => fun x => K.exp (K.twoPi * K.i * momentumSum env (mom.getD j []) x))
      else ph[j]? := by
  induction js generalizing ph with
  | nil => simp [phaseLoop]
  | cons k rest ih =>
    simp only [phaseLoop]
    rw [ih]
    by_cases hk : k = j
    · subst hk
      by_cases hlt : k < ph.length
      · simp [List.getElem?_set_self, hlt]
      · have h1 : ph[k]? = none := List.getElem?_eq_none (not_lt.1 hlt)
        have h2 : (ph.set k (fun x =>
            K.exp (K.twoPi * K.i * momentumSum env (mom.getD k []) x)))[k]? = none :=
          List.getElem?_eq_none (by simpa using not_lt.1 hlt)
        rw [h2, h1]
        simp
    · have h1 : (ph.set k (fun x =>
          K.exp (K.twoPi * K.i * momentumSum env (mom.getD k []) x)))[j]? = ph[j]? :=
        List.getElem?_set_ne hk
      have h2 : (j ∈ k :: rest) ↔ j ∈ rest := by
        simp [List.mem_cons, Ne.symm hk]
      rw [h1]
      simp only [h2]

theorem phaseLoop_eq_table {C : Type} [Field C] (K : ComplexOps C) (env : Environment C)
    (mom : List (List ℚ)) (ph : List (ComplexField C)) (h : ph.length = mom.length) :
    phaseLoop K env mom (List.range mom.length) ph = specPhaseTable K env mom := by
  apply List.ext_getElem?
  intro j
  rw [phaseLoop_getElem?]
  unfold specPhaseTable
  by_cases hj : j < mom.length
  · have hj2 : j < ph.length := by omega
    simp [List.mem_range, hj, List.getElem?_eq_getElem hj2, List.getElem?_eq_getElem hj,
      getD_eq_getElem_of_lt _ _ _ hj]
  · have h1 : ph[j]? = none := List.getElem?_eq_none (by omega)
    have h2 : mom[j]? = none := List.getElem?_eq_none (by omega)
    simp [List.mem_range, hj, h1, h2]

theorem phaseLoop_nil {C : Type} [Field C] (K : ComplexOps C) (env : Environment C)
    (mom : List (List ℚ)) (js : List Nat) : phaseLoop K env mom js [] = [] := by
  induction js with
  | nil => rfl
  | cons k rest ih => simpa [phaseLoop] using ih

/-! ## Lemmas on the environment -/

theorem find_map_update {C : Type} (l : List (String × List (ComplexField C)))
    (name : String) (f : List (ComplexField C) → List (ComplexField C)) :
    (l.map (fun e => if e.1 == name then (e.1, f e.2) else e)).find?
        (fun e => e.1 == name)
      = (l.find? (fun e => e.1 == name)).map (fun e => (e.1, f e.2)) := by
  induction l with
  | nil => rfl
  | cons e t ih =>
    by_cases h : e.1 = name
    · simp [List.find?_cons, h]
    · simp only [List.map_cons, List.find?_cons]
      have hb : (e.1 == name) = false := by simpa using h
      simp only [hb, Bool.false_eq_true, if_false]
      exact ih

theorem envGet_update {C : Type} (env : Environment C) (name : String)
    (f : List (ComplexField C) → List (ComplexField C)) (hf : f [] = []) :
    (env.update name f).envGet name = f (env.envGet name) := by
  unfold Environment.update Environment.envGet
  simp only [find_map_update]
  cases h : env.cache.find? (fun e => e.1 == name) with
  | none => simp [hf]
  | some e => simp

theorem hasCache_update {C : Type} (env : Environment C) (name name2 : String)
    (f : List (ComplexField C) → List (ComplexField C)) :
    (env.update name f).hasCache name2 = env.hasCache name2 := by
  unfold Environment.update Environment.hasCache
  simp only [List.any_map]
  congr 1
  funext e
  simp only [Function.comp]
  split <;> rfl

theorem envGet_nil_of_hasCache_false {C : Type} (env : Environment C) (name : String)
    (h : env.hasCache name = false) : env.cache.find? (fun e => e.1 == name) = none := by
  unfold Environment.hasCache at h
  rw [List.find?_eq_none]
  intro e he
  have := (List.any_eq_false.1 h) e he
  simpa using this

theorem envGet_eq_of_cache_eq {C : Type} (env env2 : Environment C) (name : String)
    (h : env.cache = env2.cache) : env.envGet name = env2.envGet name := by
  unfold Environment.envGet
  rw [h]

theorem envGet_envCache_fresh {C : Type} [Zero C] (env : Environment C) (name : String)
    (n : Nat) (h : env.hasCache name = false) :
    (env.envCache name n).envGet name = List.replicate n (fun _ => 0) := by
  unfold Environment.envCache
  rw [h]
  simp only [Bool.false_eq_true, if_false]
  unfold Environment.envGet
  simp only [List.find?_append, envGet_nil_of_hasCache_false env name h]
  simp

theorem envCache_of_hasCache {C : Type} [Zero C] (env : Environment C) (name : String)
    (n : Nat) (h : env.hasCache name = true) : env.envCache name n = env := by
  unfold Environment.envCache
  rw [if_pos h]

/-! ## Lemmas on setup and execute as state transformers -/

theorem setup_hasPhase {C : Type} [Zero C] (H : Host) (m : TA2AMesonField)
    (env : Environment C) : (setup H m env).mod.hasPhase_ = m.hasPhase_ := by
  unfold setup
  cases h : (setupMomLoop H env.getNd m.par.mom []).2 <;> simp [h]

theorem setup_momphName {C : Type} [Zero C] (H : Host) (m : TA2AMesonField)
    (env : Environment C) : (setup H m env).mod.momphName_ = m.momphName_ := by
  unfold setup
  cases h : (setupMomLoop H env.getNd m.par.mom []).2 <;> simp [h]

theorem setup_dim {C : Type} [Zero C] (H : Host) (m : TA2AMesonField)
    (env : Environment C) : (setup H m env).env.dim = env.dim := by
  cases h : (setup H m env).error with
  | some e => rw [setup_env_of_error H m env e h]
  | none =>
    rw [setup_env_of_none H m env h]
    simp only [Environment.envTmp, Environment.envCache]
    split <;> rfl

theorem setup_envGet_of_hasCache {C : Type} [Zero C] (H : Host) (m : TA2AMesonField)
    (env : Environment C) (hc : env.hasCache m.momphName_ = true) (name : String) :
    (setup H m env).env.envGet name = env.envGet name := by
  cases h : (setup H m env).error with
  | some e => rw [setup_env_of_error H m env e h]
  | none =>
    rw [setup_env_of_none H m env h, envCache_of_hasCache env _ _ hc]
    exact envGet_eq_of_cache_eq _ _ name rfl

theorem setup_envGet_fresh {C : Type} [Zero C] (H : Host) (m : TA2AMesonField)
    (env : Environment C) (hc : env.hasCache m.momphName_ = false)
    (hn : (setup H m env).error = none) :
    (setup H m env).env.envGet m.momphName_ =
      List.replicate m.par.mom.length (fun _ => 0) := by
  rw [setup_env_of_none H m env hn, ← envGet_envCache_fresh env m.momphName_ m.par.mom.length hc]
  exact envGet_eq_of_cache_eq _ _ _ rfl

theorem setup_hasCache_of_none {C : Type} [Zero C] (H : Host) (m : TA2AMesonField)
    (env : Environment C) (hn : (setup H m env).error = none) :
    (setup H m env).env.hasCache m.momphName_ = true := by
  rw [setup_env_of_none H m env hn]
  exact hasCache_envCache env m.momphName_ m.par.mom.length

theorem execute_hasPhase {C : Type} [Field C] (K : ComplexOps C) (H : Host)
    (m : TA2AMesonField) (env : Environment C) :
    (execute K H m env).mod.hasPhase_ = true := by
  unfold execute
  split
  · rfl
  · rename_i h
    simpa using h

theorem execute_momphName {C : Type} [Field C] (K : ComplexOps C) (H : Host)
    (m : TA2AMesonField) (env : Environment C) :
    (execute K H m env).mod.momphName_ = m.momphName_ := by
  unfold execute
  split <;> rfl

theorem execute_kernelPh {C : Type} [Field C] (K : ComplexOps C) (H : Host)
    (m : TA2AMesonField) (env : Environment C) :
    (execute K H m env).kernelPh = (execute K H m env).env.envGet m.momphName_ := by
  unfold execute
  split <;> rfl

theorem execute_hasCache {C : Type} [Field C] (K : ComplexOps C) (H : Host)
    (m : TA2AMesonField) (env : Environment C) (name : String) :
    (execute K H m env).env.hasCache name = env.hasCache name := by
  unfold execute
  split
  · exact hasCache_update env _ name _
  · rfl

theorem execute_of_hasPhase {C : Type} [Field C] (K : ComplexOps C) (H : Host)
    (m : TA2AMesonField) (env : Environment C) (h : m.hasPhase_ = true) :
    (execute K H m env).mod = m ∧ (execute K H m env).env = env := by
  unfold execute
  rw [h]
  simp

theorem execute_env_fresh {C : Type} [Field C] (K : ComplexOps C) (H : Host)
    (m : TA2AMesonField) (env : Environment C) (h : m.hasPhase_ = false) :
    (execute K H m env).env =
      env.update m.momphName_ (phaseLoop K env m.mom_ (List.range m.mom_.length)) := by
  unfold execute
  rw [h]
  simp

/-- The first build: with `hasPhase_` false and a cached vector of the size of
`mom_`, `execute` hands the kernel the phase table of `mom_`. -/
theorem execute_kernelPh_fresh {C : Type} [Field C] (K : ComplexOps C) (H : Host)
    (m : TA2AMesonField) (env : Environment C) (hph : m.hasPhase_ = false)
    (hsize : (env.envGet m.momphName_).length = m.mom_.length) :
    (execute K H m env).kernelPh = specPhaseTable K env m.mom_ := by
  rw [execute_kernelPh, execute_env_fresh K H m env hph,
    envGet_update env _ _ (phaseLoop_nil K env m.mom_ _),
    phaseLoop_eq_table K env m.mom_ _ hsize]

/-- A later run: once `hasPhase_` is true and the cached vector exists, the sequence
`setPar`, `setup`, `execute` hands the kernel the cached vector as it is. -/
theorem runOnce_kernelPh_kept {C : Type} [Field C] (K : ComplexOps C) (H : Host)
    (par : A2AMesonFieldPar) (m : TA2AMesonField) (env : Environment C)
    (hph : m.hasPhase_ = true) (hc : env.hasCache m.momphName_ = true) :
    (runOnce K H par m env).kernelPh = env.envGet m.momphName_ := by
  unfold runOnce
  have h1 : (setup H (m.setPar par) env).mod.hasPhase_ = true := by
    rw [setup_hasPhase]
    exact hph
  have h2 : (setup H (m.setPar par) env).mod.momphName_ = m.momphName_ := by
    rw [setup_momphName]
    rfl
  rw [execute_kernelPh, (execute_of_hasPhase K H _ _ h1).2, h2]
  exact setup_envGet_of_hasCache H (m.setPar par) env hc m.momphName_

/-- The first run of a fresh module: the kernel gets the phase table of the
momenta read from the parameters. -/
theorem runOnce_kernelPh_first {C : Type} [Field C] (K : ComplexOps C) (H : Host)
    (par : A2AMesonFieldPar) (m : TA2AMesonField) (env : Environment C)
    (hph : m.hasPhase_ = false) (hc : env.hasCache m.momphName_ = false)
    (hn : (setup H (m.setPar par) env).error = none) :
    (runOnce K H par m env).kernelPh =
      specPhaseTable K env (par.mom.map H.strToVecReal) := by
  unfold runOnce
  have hmom : (setup H (m.setPar par) env).mod.mom_ = par.mom.map H.strToVecReal := by
    rw [setup_mom_eq]
    have hl : (setupMomLoop H env.getNd (m.setPar par).par.mom []).2 = none := by
      rw [← setup_error_eq]
      exact hn
    rw [setupMomLoop_fst_of_none H env.getNd _ [] hl]
    rfl
  have h1 : (setup H (m.setPar par) env).mod.hasPhase_ = false := by
    rw [setup_hasPhase]
    exact hph
  have h2 : (setup H (m.setPar par) env).mod.momphName_ = m.momphName_ := by
    rw [setup_momphName]
    rfl
  have h3 : ((setup H (m.setPar par) env).env.envGet
      (setup H (m.setPar par) env).mod.momphName_).length
      = (setup H (m.setPar par) env).mod.mom_.length := by
    rw [h2]
    have := setup_envGet_fresh H (m.setPar par) env hc hn
    rw [show (m.setPar par).momphName_ = m.momphName_ from rfl] at this
    rw [this, hmom]
    simp [TA2AMesonField.setPar]
  rw [execute_kernelPh_fresh K H _ _ h1 h3, hmom]
  exact specPhaseTable_congr_dim K _ _ (setup_dim H (m.setPar par) env) _

theorem executeAgain_of_hasPhase {C : Type} [Field C] (K : ComplexOps C) (H : Host)
    (n : Nat) (m : TA2AMesonField) (env : Environment C) (h : m.hasPhase_ = true) :
    executeAgain K H n (m, env) = (m, env) := by
  induction n with
  | zero => rfl
  | succ k ih =>
    simp only [executeAgain]
    rw [(execute_of_hasPhase K H m env h).1, (execute_of_hasPhase K H m env h).2]
    exact ih

theorem getD_set_of_ne (x : Site) (i mu t : Nat) (h : mu ≠ i) :
    (x.set i t).getD mu 0 = x.getD mu 0 := by
  rw [List.getD_eq_getElem?_getD, List.getD_eq_getElem?_getD,
    List.getElem?_set_ne (Ne.symm h)]

/-! ## Claims on the phase table -/

/-- C8: on the first build (`hasPhase_` false, every momentum with `Nd - 1`
components, a cached vector of the size of `mom_`, as `setup` leaves them), for
every momentum index `j` and every site `x` the value accumulated before the
exponential is the sum over the axes `mu` below `Nd - 1` of
`(mom_[j][mu] / L_mu) * x_mu`, started from zero; it does not change when the
coordinate of index `Nd - 1` (time) changes; and the field handed to the kernel
as `ph[j]` is `exp(2 pi i * sum)` at every site. -/
theorem phase_is_exp_of_spatial_sum {C : Type} [Field C] (K : ComplexOps C) (H : Host)
    (m : TA2AMesonField) (env : Environment C)
    (hph : m.hasPhase_ = false)
    (hrows : ∀ p ∈ m.mom_, p.length = env.getNd - 1)
    (hsize : (env.envGet m.momphName_).length = m.mom_.length)
    (j : Nat) (hj : j < m.mom_.length) :
    (∀ x : Site, momentumSum env m.mom_[j] x =
        ∑ mu in Finset.range (env.getNd - 1),
          (((m.mom_[j].getD mu 0 / (env.getDim mu : ℚ) : ℚ)) : C) * ((x.getD mu 0 : ℕ) : C))
      ∧ (∀ (x : Site) (t : Nat),
          momentumSum env m.mom_[j] (x.set (env.getNd - 1) t) = momentumSum env m.mom_[j] x)
      ∧ (execute K H m env).kernelPh[j]? =
          some (fun x => K.exp (K.twoPi * K.i * momentumSum env m.mom_[j] x)) := by
  have hlen : m.mom_[j].length = env.getNd - 1 := hrows _ (List.getElem_mem hj)
  refine ⟨?_, ?_, ?_⟩
  · intro x
    rw [momentumSum_eq_sum, hlen]
  · intro x t
    rw [momentumSum_eq_sum, momentumSum_eq_sum, hlen]
    apply Finset.sum_congr rfl
    intro mu hmu
    have hne : mu ≠ env.getNd - 1 := Nat.ne_of_lt (Finset.mem_range.1 hmu)
    rw [getD_set_of_ne x _ mu t hne]
  · rw [execute_kernelPh_fresh K H m env hph hsize]
    unfold specPhaseTable
    rw [List.getElem?_map, List.getElem?_eq_getElem hj]
    rfl

/-- Witness of C8: the module set up with the momenta (0,0,0) and (1,0,0) on the
lattice of extents 4, 4, 4, 8, over the complex numbers, momentum index 1. -/
theorem phase_is_exp_of_spatial_sum_witness :
    (∀ x : Site,
        momentumSum (setup sampleHost (sampleModule "all" ["0 0 0", "1 0 0"]) (sampleEnv ℂ)).env
          ((setup sampleHost (sampleModule "all" ["0 0 0", "1 0 0"]) (sampleEnv ℂ)).mod.mom_.getD
            1 []) x =
        ∑ mu in Finset.range 3,
          (((([1, 0, 0] : List ℚ).getD mu 0 / (([4, 4, 4, 8] : List ℕ).getD mu 0 : ℚ) : ℚ)) : ℂ)
            * ((x.getD mu 0 : ℕ) : ℂ))
      ∧ (execute (ComplexOps.mk Complex.I (2 * (Real.pi : ℂ)) Complex.exp) sampleHost
          (setup sampleHost (sampleModule "all" ["0 0 0", "1 0 0"]) (sampleEnv ℂ)).mod
          (setup sampleHost (sampleModule "all" ["0 0 0", "1 0 0"]) (sampleEnv ℂ)).env
          ).kernelPh[1]? =
        some (fun x => Complex.exp (2 * (Real.pi : ℂ) * Complex.I *
          momentumSum (sampleEnv ℂ) [1, 0, 0] x)) := by
  have h := phase_is_exp_of_spatial_sum
    (ComplexOps.mk Complex.I (2 * (Real.pi : ℂ)) Complex.exp) sampleHost
    (setup sampleHost (sampleModule "all" ["0 0 0", "1 0 0"]) (sampleEnv ℂ)).mod
    (setup sampleHost (sampleModule "all" ["0 0 0", "1 0 0"]) (sampleEnv ℂ)).env
    (by decide) (by decide) (by decide) 1 (by decide)
  exact ⟨h.1, h.2.2⟩

/-- C9: the first `execute` sets `hasPhase_`; any number of later calls of `execute`
on the module leaves the module (its timer log included, so the timer
`Momentum phases` is not started again) and the environment (the cached vector
`ph` included) as the first call left them, and a later call hands the kernel
the same phase fields as the first. -/
theorem phase_table_idempotent {C : Type} [Field C] (K : ComplexOps C) (H : Host)
    (m : TA2AMesonField) (env : Environment C) (n : Nat) :
    (execute K H m env).mod.hasPhase_ = true
      ∧ executeAgain K H n ((execute K H m env).mod, (execute K H m env).env)
          = ((execute K H m env).mod, (execute K H m env).env)
      ∧ (execute K H (execute K H m env).mod (execute K H m env).env).mod.timers
          = (execute K H m env).mod.timers
      ∧ (execute K H (execute K H m env).mod (execute K H m env).env).env.envGet m.momphName_
          = (execute K H m env).env.envGet m.momphName_
      ∧ (execute K H (execute K H m env).mod (execute K H m env).env).kernelPh
          = (execute K H m env).kernelPh := by
  have h1 := execute_hasPhase K H m env
  have h2 := execute_of_hasPhase K H (execute K H m env).mod (execute K H m env).env h1
  refine ⟨h1, executeAgain_of_hasPhase K H n _ _ h1, ?_, ?_, ?_⟩
  · rw [h2.1]
  · rw [h2.2]
  · rw [execute_kernelPh K H (execute K H m env).mod, h2.2, execute_momphName,
      ← execute_kernelPh]

/-- Two runs in a row on a fresh module, with parameters `A` then `B`: the second
run hands the kernel the phase table of the momenta of `A`. -/
theorem runOnce_twice_kernelPh {C : Type} [Field C] (K : ComplexOps C) (H : Host)
    (A B : A2AMesonFieldPar) (m : TA2AMesonField) (env : Environment C)
    (hph : m.hasPhase_ = false) (hc : env.hasCache m.momphName_ = false)
    (hA : (setup H (m.setPar A) env).error = none) :
    (runOnce K H B (runOnce K H A m env).mod (runOnce K H A m env).env).kernelPh
      = specPhaseTable K env (A.mom.map H.strToVecReal) := by
  have hname : (runOnce K H A m env).mod.momphName_ = m.momphName_ := by
    unfold runOnce
    rw [execute_momphName, setup_momphName]
    rfl
  have h1 : (runOnce K H A m env).mod.hasPhase_ = true := by
    unfold runOnce
    exact execute_hasPhase K H _ _
  have h2 : (runOnce K H A m env).env.hasCache (runOnce K H A m env).mod.momphName_
      = true := by
    rw [hname]
    unfold runOnce
    rw [execute_hasCache]
    exact setup_hasCache_of_none H (m.setPar A) env hA
  rw [runOnce_kernelPh_kept K H B _ _ h1 h2, hname,
    ← runOnce_kernelPh_first K H A m env hph hc hA]
  unfold runOnce
  rw [execute_kernelPh, setup_momphName]
  rfl

theorem exp_quarter_ne_one :
    Complex.exp (2 * (Real.pi : ℂ) * Complex.I * (1 / 4)) ≠ 1 := by
  intro h
  obtain ⟨n, hn⟩ := Complex.exp_eq_one_iff.1 h
  have hpi : (2 * (Real.pi : ℂ) * Complex.I) ≠ 0 := by
    simp [Real.pi_ne_zero, Complex.I_ne_zero]
  have h2 : ((1 : ℂ) / 4) = (n : ℂ) := by
    have h5 : (2 * (Real.pi : ℂ) * Complex.I) * (1 / 4)
        = (2 * (Real.pi : ℂ) * Complex.I) * (n : ℂ) := by
      rw [hn]
      ring
    exact mul_left_cancel₀ hpi h5
  have h3 : (1 : ℂ) = ((4 * n : ℤ) : ℂ) := by
    push_cast
    rw [← h2]
    norm_num
  have h4 : (1 : ℤ) = 4 * n := by exact_mod_cast h3
  omega

theorem sample_tables_differ :
    specPhaseTable (ComplexOps.mk Complex.I (2 * (Real.pi : ℂ)) Complex.exp) (sampleEnv ℂ)
        [[0, 0, 0]]
      ≠ specPhaseTable (ComplexOps.mk Complex.I (2 * (Real.pi : ℂ)) Complex.exp)
        (sampleEnv ℂ) [[1, 0, 0]] := by
  intro h
  unfold specPhaseTable at h
  simp only [List.map_cons, List.map_nil, List.cons.injEq, and_true] at h
  have h2 := congrFun h [1, 0, 0, 0]
  have hA : momentumSum (sampleEnv ℂ) [0, 0, 0] [1, 0, 0, 0] = 0 := by
    rw [momentumSum_eq_sum]
    simp [Finset.sum_range_succ, Environment.getDim, sampleEnv]
  have hB : momentumSum (sampleEnv ℂ) [1, 0, 0] [1, 0, 0, 0] = 1 / 4 := by
    rw [momentumSum_eq_sum]
    simp [Finset.sum_range_succ, Environment.getDim, sampleEnv]
  simp only [hA, hB, mul_zero, Complex.exp_zero] at h2
  exact exp_quarter_ne_one h2.symm

/-- C10, as stated, fails: a fresh module is run with the momentum (0,0,0) and then
with the momentum (1,0,0), both `setup` calls raising nothing; the phase fields
handed to the kernel by the second `execute` are not the phase table of (1,0,0),
which is what a fresh module run with (1,0,0) hands over. -/
theorem second_run_uses_first_phases :
    (setup sampleHost ((sampleModule "all" []).setPar (samplePar "all" ["0 0 0"]))
        (sampleEnv ℂ)).error = none
      ∧ (setup sampleHost
          ((runOnce (ComplexOps.mk Complex.I (2 * (Real.pi : ℂ)) Complex.exp) sampleHost
            (samplePar "all" ["0 0 0"]) (sampleModule "all" []) (sampleEnv ℂ)).mod.setPar
            (samplePar "all" ["1 0 0"]))
          (runOnce (ComplexOps.mk Complex.I (2 * (Real.pi : ℂ)) Complex.exp) sampleHost
            (samplePar "all" ["0 0 0"]) (sampleModule "all" []) (sampleEnv ℂ)).env).error = none
      ∧ (runOnce (ComplexOps.mk Complex.I (2 * (Real.pi : ℂ)) Complex.exp) sampleHost
          (samplePar "all" ["1 0 0"])
          (runOnce (ComplexOps.mk Complex.I (2 * (Real.pi : ℂ)) Complex.exp) sampleHost
            (samplePar "all" ["0 0 0"]) (sampleModule "all" []) (sampleEnv ℂ)).mod
          (runOnce (ComplexOps.mk Complex.I (2 * (Real.pi : ℂ)) Complex.exp) sampleHost
            (samplePar "all" ["0 0 0"]) (sampleModule "all" []) (sampleEnv ℂ)).env).kernelPh
        ≠ specPhaseTable (ComplexOps.mk Complex.I (2 * (Real.pi : ℂ)) Complex.exp)
            (sampleEnv ℂ) [[1, 0, 0]]
      ∧ (runOnce (ComplexOps.mk Complex.I (2 * (Real.pi : ℂ)) Complex.exp) sampleHost
          (samplePar "all" ["1 0 0"]) (sampleModule "all" []) (sampleEnv ℂ)).kernelPh
        = specPhaseTable (ComplexOps.mk Complex.I (2 * (Real.pi : ℂ)) Complex.exp)
            (sampleEnv ℂ) [[1, 0, 0]] := by
  refine ⟨by decide, by decide, ?_, ?_⟩
  · rw [runOnce_twice_kernelPh _ sampleHost (samplePar "all" ["0 0 0"])
      (samplePar "all" ["1 0 0"]) (sampleModule "all" []) (sampleEnv ℂ) rfl rfl (by decide)]
    exact sample_tables_differ
  · rw [runOnce_kernelPh_first _ sampleHost (samplePar "all" ["1 0 0"])
      (sampleModule "all" []) (sampleEnv ℂ) rfl rfl (by decide)]
    rfl

/-- C10, amended: the phase fields handed to the kernel are those built by the
first `execute` of the module instance. For a fresh module (`hasPhase_` false,
no cached vector yet) that is run with parameters `A` (`setup` raising nothing)
and then with parameters `B`, the second `execute` hands the kernel the same
fields as the first, namely the phase table of the momentum list of `A` on the
lattice; the momentum list of `B` does not enter. -/
theorem phases_are_those_of_first_run {C : Type} [Field C] (K : ComplexOps C) (H : Host)
    (A B : A2AMesonFieldPar) (m : TA2AMesonField) (env : Environment C)
    (hph : m.hasPhase_ = false) (hc : env.hasCache m.momphName_ = false)
    (hA : (setup H (m.setPar A) env).error = none) :
    (runOnce K H B (runOnce K H A m env).mod (runOnce K H A m env).env).kernelPh
        = (runOnce K H A m env).kernelPh
      ∧ (runOnce K H B (runOnce K H A m env).mod (runOnce K H A m env).env).kernelPh
        = specPhaseTable K env (A.mom.map H.strToVecReal) := by
  have h1 := runOnce_twice_kernelPh K H A B m env hph hc hA
  have h2 := runOnce_kernelPh_first K H A m env hph hc hA
  exact ⟨h1.trans h2.symm, h1⟩

/-- Witness of the amended C10: the sample module run with (0,0,0), then with
(1,0,0). -/
theorem phases_are_those_of_first_run_witness :
    (runOnce (ComplexOps.mk Complex.I (2 * (Real.pi : ℂ)) Complex.exp) sampleHost
        (samplePar "all" ["1 0 0"])
        (runOnce (ComplexOps.mk Complex.I (2 * (Real.pi : ℂ)) Complex.exp) sampleHost
          (samplePar "all" ["0 0 0"]) (sampleModule "all" []) (sampleEnv ℂ)).mod
        (runOnce (ComplexOps.mk Complex.I (2 * (Real.pi : ℂ)) Complex.exp) sampleHost
          (samplePar "all" ["0 0 0"]) (sampleModule "all" []) (sampleEnv ℂ)).env).kernelPh
      = specPhaseTable (ComplexOps.mk Complex.I (2 * (Real.pi : ℂ)) Complex.exp)
          (sampleEnv ℂ) [[0, 0, 0]] :=
  (phases_are_those_of_first_run (ComplexOps.mk Complex.I (2 * (Real.pi : ℂ)) Complex.exp)
    sampleHost (samplePar "all" ["0 0 0"]) (samplePar "all" ["1 0 0"])
    (sampleModule "all" []) (sampleEnv ℂ) rfl rfl (by decide)).2

/-! ## Claims on saving a block and on the task list -/

/-- C11: the calls `saveBlock` makes on the block sink are `initFile(md, par().block)`
followed by `saveBlock(mf, m, g, i, j)` when the tile origin is `i = 0` and
`j = 0`, and the single call `saveBlock(mf, m, g, i, j)` for every other origin;
so `initFile` is called exactly when the origin is `(0, 0)`, and `saveBlock`
exactly once, last. -/
theorem saveBlock_calls {Mf : Type} (mod : TA2AMesonField) (mf : Mf) (h : IoHelper) :
    (saveBlock mod mf h).filter IoEvent.isSinkCall =
        (if h.i = 0 ∧ h.j = 0 then
          [IoEvent.initFile h.io h.md mod.par.block,
           IoEvent.saveBlock h.io mf h.m h.g h.i h.j]
        else [IoEvent.saveBlock h.io mf h.m h.g h.i h.j])
      ∧ (IoEvent.initFile h.io h.md mod.par.block ∈ saveBlock mod mf h
          ↔ h.i = 0 ∧ h.j = 0) := by
  unfold saveBlock
  by_cases hc : h.i = 0 ∧ h.j = 0
  · simp [hc, IoEvent.isSinkCall]
  · simp [hc, IoEvent.isSinkCall]

theorem taskIndices_mem (nRank total : Nat) (fuel f x : Nat) :
    x ∈ taskIndices nRank total fuel f ↔
      ∃ k, k < fuel ∧ x = f + k * nRank ∧ x < total := by
  induction fuel generalizing f with
  | zero => simp [taskIndices]
  | succ n ih =>
    unfold taskIndices
    by_cases hf : f < total
    · rw [if_pos hf, List.mem_cons, ih]
      constructor
      · rintro (rfl | ⟨k, hk, rfl, hx⟩)
        · exact ⟨0, by omega, by simp, hf⟩
        · exact ⟨k + 1, by omega, by rw [Nat.add_mul]; omega, hx⟩
      · rintro ⟨k, hk, hx, hlt⟩
        cases k with
        | zero => left; simpa using hx
        | succ k =>
          right
          exact ⟨k, by omega, by rw [Nat.add_mul] at hx; omega, hlt⟩
    · rw [if_neg hf]
      simp only [List.not_mem_nil, false_iff]
      rintro ⟨k, _, hx, hlt⟩
      have : f ≤ f + k * nRank := Nat.le_add_right _ _
      omega

theorem taskIndices_nodup (nRank total : Nat) (hR : 0 < nRank) (fuel f : Nat) :
    (taskIndices nRank total fuel f).Nodup := by
  induction fuel generalizing f with
  | zero => simp [taskIndices]
  | succ n ih =>
    unfold taskIndices
    by_cases hf : f < total
    · rw [if_pos hf, List.nodup_cons]
      refine ⟨?_, ih _⟩
      rw [taskIndices_mem]
      rintro ⟨k, _, hx, _⟩
      have : 0 ≤ k * nRank := Nat.zero_le _
      omega
    · rw [if_neg hf]
      exact List.nodup_nil

/-- With the fuel of the task list, rank `r` below `nRank` takes exactly the
indices below `total` that are congruent to `r`. -/
theorem taskIndices_mem_full (nRank total r x : Nat) (hr : r < nRank) :
    x ∈ taskIndices nRank total total r ↔ x < total ∧ x % nRank = r := by
  rw [taskIndices_mem]
  constructor
  · rintro ⟨k, _, hx, hlt⟩
    refine ⟨hlt, ?_⟩
    rw [hx, Nat.add_mul_mod_self_right, Nat.mod_eq_of_lt hr]
  · rintro ⟨hlt, hmod⟩
    refine ⟨x / nRank, ?_, ?_, hlt⟩
    · have h1 : x / nRank ≤ x := Nat.div_le_self _ _
      omega
    · have h2 := Nat.div_add_mod x nRank
      rw [hmod] at h2
      rw [Nat.mul_comm] at h2
      omega

theorem decode_injective (ngamma : Nat) (f f2 : Nat)
    (h : (f / ngamma, f % ngamma) = (f2 / ngamma, f2 % ngamma)) : f = f2 := by
  simp only [Prod.mk.injEq] at h
  have h1 := Nat.div_add_mod f ngamma
  have h2 := Nat.div_add_mod f2 ngamma
  rw [h.1, h.2] at h1
  omega

theorem filter_length_of_not_mem {α : Type} (l : List α) (p : α → Bool) (a : α)
    (hp : ∀ x, p x = true ↔ x = a) (h : a ∉ l) : (l.filter p).length = 0 := by
  rw [List.length_eq_zero, List.filter_eq_nil_iff]
  intro x hx hpx
  exact h (((hp x).1 hpx) ▸ hx)

theorem filter_length_of_mem_nodup {α : Type} (l : List α) (p : α → Bool) (a : α)
    (hp : ∀ x, p x = true ↔ x = a) (hnd : l.Nodup) (h : a ∈ l) :
    (l.filter p).length = 1 := by
  induction l with
  | nil => cases h
  | cons x t ih =>
    rw [List.nodup_cons] at hnd
    by_cases hx : x = a
    · have hpx : p x = true := (hp x).2 hx
      rw [List.filter_cons_of_pos hpx, List.length_cons,
        filter_length_of_not_mem t p a hp (hx ▸ hnd.1)]
    · have hpx : ¬ p x = true := fun hh => hx ((hp x).1 hh)
      rw [List.filter_cons_of_neg hpx]
      rcases List.mem_cons.1 h with rfl | ht
      · exact absurd rfl hx
      · exact ih hnd.2 ht

/-- C12: for a positive number `nRank` of processes and a module with `nmom` momenta
and a positive number `ngamma` of spin structures, the task list of rank `r` holds
the pair `(m, g)` in range exactly once when `r = (m * ngamma + g) % nRank` and
not at all for any other rank, every task of it has `m < nmom` and
`g < ngamma`, and its enumeration has ended within its fuel. The task lists are
those of the model of the work partition (`nodeIo`); the scheduler that runs is
not among the sources. -/
theorem nodeIo_partition (H : Host) (vm : VirtualMachine) (mod : TA2AMesonField)
    (nt N_i N_j i j nRank : Nat) (hR : 0 < nRank) (hgamma : 0 < mod.gamma_.length) :
    (∀ r m g, r < nRank → m < mod.mom_.length → g < mod.gamma_.length →
        (((nodeIo H vm mod nt N_i N_j i j r nRank).map (fun h => (h.m, h.g))).filter
            (fun p => p = (m, g))).length
          = if r = (m * mod.gamma_.length + g) % nRank then 1 else 0)
      ∧ (∀ r, ∀ h ∈ nodeIo H vm mod nt N_i N_j i j r nRank,
          h.m < mod.mom_.length ∧ h.g < mod.gamma_.length ∧ h.i = i ∧ h.j = j)
      ∧ (∀ r, r < nRank →
          (nodeIo H vm mod nt N_i N_j i j r nRank).length * nRank + r
            ≥ mod.mom_.length * mod.gamma_.length) := by
  have hmap : ∀ r, (nodeIo H vm mod nt N_i N_j i j r nRank).map (fun h => (h.m, h.g))
      = (taskIndices nRank (mod.mom_.length * mod.gamma_.length)
          (mod.mom_.length * mod.gamma_.length) r).map
          (fun f => (f / mod.gamma_.length, f % mod.gamma_.length)) := by
    intro r
    unfold nodeIo
    simp only [List.map_map]
    rfl
  refine ⟨?_, ?_, ?_⟩
  · intro r m g hr hm hg
    rw [hmap]
    have hnd : ((taskIndices nRank (mod.mom_.length * mod.gamma_.length)
          (mod.mom_.length * mod.gamma_.length) r).map
          (fun f => (f / mod.gamma_.length, f % mod.gamma_.length))).Nodup :=
      List.Nodup.map_on (fun a _ b _ hab => decode_injective _ a b hab)
        (taskIndices_nodup nRank _ hR _ r)
    have hf : (m * mod.gamma_.length + g) / mod.gamma_.length = m
        ∧ (m * mod.gamma_.length + g) % mod.gamma_.length = g := by
      constructor
      · rw [Nat.mul_comm, Nat.mul_add_div hgamma, Nat.div_eq_of_lt hg]
        rfl
      · rw [Nat.mul_comm, Nat.mul_add_mod, Nat.mod_eq_of_lt hg]
    have hlt : m * mod.gamma_.length + g < mod.mom_.length * mod.gamma_.length := by
      calc m * mod.gamma_.length + g < m * mod.gamma_.length + mod.gamma_.length := by omega
        _ = (m + 1) * mod.gamma_.length := by rw [Nat.add_mul, Nat.one_mul]
        _ ≤ mod.mom_.length * mod.gamma_.length := Nat.mul_le_mul_right _ hm
    by_cases hrm : r = (m * mod.gamma_.length + g) % nRank
    · rw [if_pos hrm]
      apply filter_length_of_mem_nodup _ _ (m, g) (fun x => by simp) hnd
      rw [List.mem_map]
      refine ⟨m * mod.gamma_.length + g, ?_, ?_⟩
      · rw [taskIndices_mem_full _ _ _ _ hr]
        exact ⟨hlt, hrm.symm⟩
      · rw [hf.1, hf.2]
    · rw [if_neg hrm]
      apply filter_length_of_not_mem _ _ (m, g) (fun x => by simp)
      rw [List.mem_map]
      rintro ⟨f, hfm, hfe⟩
      rw [taskIndices_mem_full _ _ _ _ hr] at hfm
      have := decode_injective mod.gamma_.length f (m * mod.gamma_.length + g)
        (by rw [hfe, hf.1, hf.2])
      rw [this] at hfm
      exact hrm hfm.2.symm
  · intro r h hh
    unfold nodeIo at hh
    simp only [List.mem_map] at hh
    obtain ⟨f, hfm, rfl⟩ := hh
    have hlt : f < mod.mom_.length * mod.gamma_.length := by
      rw [taskIndices_mem] at hfm
      obtain ⟨k, _, _, hlt⟩ := hfm
      exact hlt
    refine ⟨?_, Nat.mod_lt _ hgamma, rfl, rfl⟩
    show f / mod.gamma_.length < mod.mom_.length
    exact Nat.div_lt_of_lt_mul (by rw [Nat.mul_comm]; exact hlt)
  · intro r hr
    by_contra hcon
    have hlt : (nodeIo H vm mod nt N_i N_j i j r nRank).length * nRank + r
        < mod.mom_.length * mod.gamma_.length := by omega
    -- the index after the last task would be below the bound, hence a task itself
    have hx : (nodeIo H vm mod nt N_i N_j i j r nRank).length * nRank + r
        ∈ taskIndices nRank (mod.mom_.length * mod.gamma_.length)
          (mod.mom_.length * mod.gamma_.length) r := by
      rw [taskIndices_mem_full _ _ _ _ hr]
      refine ⟨hlt, ?_⟩
      rw [Nat.add_comm, Nat.add_mul_mod_self_right, Nat.mod_eq_of_lt hr]
    -- but the tasks are the indices r + k * nRank with k below their number
    have hall : ∀ fuel f, ∀ x ∈ taskIndices nRank
        (mod.mom_.length * mod.gamma_.length) fuel f,
        x < f + (taskIndices nRank (mod.mom_.length * mod.gamma_.length) fuel f).length
          * nRank := by
      intro fuel
      induction fuel with
      | zero => intro f x hx0; simp [taskIndices] at hx0
      | succ n ih =>
        intro f x hx0
        unfold taskIndices at hx0 ⊢
        by_cases hf : f < mod.mom_.length * mod.gamma_.length
        · rw [if_pos hf] at hx0 ⊢
          rw [List.mem_cons] at hx0
          rw [List.length_cons, Nat.add_mul, Nat.one_mul]
          rcases hx0 with rfl | hx1
          · omega
          · have := ih (f + nRank) x hx1
            omega
        · rw [if_neg hf] at hx0
          simp at hx0
    have hlen : (nodeIo H vm mod nt N_i N_j i j r nRank).length
        = (taskIndices nRank (mod.mom_.length * mod.gamma_.length)
          (mod.mom_.length * mod.gamma_.length) r).length := by
      unfold nodeIo
      simp
    have := hall _ r _ hx
    rw [hlen] at this
    omega

/-- Witness of C12: the module set up with all sixteen spin structures and three
momenta, five processes, the lattice of time extent 8 and eight fields a side. -/
theorem nodeIo_partition_witness :
    (∀ r m g, r < 5 →
        m < (setup sampleHost (sampleModule "all" ["0 0 0", "1 0 0", "1 1 0"])
          (sampleEnv ℚ)).mod.mom_.length →
        g < (setup sampleHost (sampleModule "all" ["0 0 0", "1 0 0", "1 1 0"])
          (sampleEnv ℚ)).mod.gamma_.length →
        (((nodeIo sampleHost (VirtualMachine.mk 1000)
            (setup sampleHost (sampleModule "all" ["0 0 0", "1 0 0", "1 1 0"])
              (sampleEnv ℚ)).mod 8 8 8 0 0 r 5).map (fun h => (h.m, h.g))).filter
            (fun p => p = (m, g))).length
          = if r = (m * (setup sampleHost (sampleModule "all" ["0 0 0", "1 0 0", "1 1 0"])
              (sampleEnv ℚ)).mod.gamma_.length + g) % 5 then 1 else 0)
      ∧ (∀ r, ∀ h ∈ nodeIo sampleHost (VirtualMachine.mk 1000)
            (setup sampleHost (sampleModule "all" ["0 0 0", "1 0 0", "1 1 0"])
              (sampleEnv ℚ)).mod 8 8 8 0 0 r 5,
          h.m < (setup sampleHost (sampleModule "all" ["0 0 0", "1 0 0", "1 1 0"])
              (sampleEnv ℚ)).mod.mom_.length
            ∧ h.g < (setup sampleHost (sampleModule "all" ["0 0 0", "1 0 0", "1 1 0"])
              (sampleEnv ℚ)).mod.gamma_.length ∧ h.i = 0 ∧ h.j = 0)
      ∧ (∀ r, r < 5 →
          (nodeIo sampleHost (VirtualMachine.mk 1000)
            (setup sampleHost (sampleModule "all" ["0 0 0", "1 0 0", "1 1 0"])
              (sampleEnv ℚ)).mod 8 8 8 0 0 r 5).length * 5 + r
            ≥ (setup sampleHost (sampleModule "all" ["0 0 0", "1 0 0", "1 1 0"])
              (sampleEnv ℚ)).mod.mom_.length
              * (setup sampleHost (sampleModule "all" ["0 0 0", "1 0 0", "1 1 0"])
              (sampleEnv ℚ)).mod.gamma_.length) :=
  nodeIo_partition sampleHost (VirtualMachine.mk 1000)
    (setup sampleHost (sampleModule "all" ["0 0 0", "1 0 0", "1 1 0"]) (sampleEnv ℚ)).mod
    8 8 8 0 0 5 (by decide) (by decide)

/-! ## Lemmas on the tile loops -/

theorem filter_flatMap_none {α β : Type} (l : List α) (f : α → List β) (p : β → Bool)
    (h : ∀ x ∈ l, ∀ y ∈ f x, p y = false) : (l.flatMap f).filter p = [] := by
  rw [List.filter_eq_nil_iff]
  intro y hy
  rw [List.mem_flatMap] at hy
  obtain ⟨x, hx, hyx⟩ := hy
  rw [h x hx y hyx]
  simp

/-- Filtering a nest: when only one element `x0` of a list without repetition
contributes entries that pass the filter, the filter of the whole is the filter
of the contribution of `x0`. -/
theorem filter_flatMap_unique {α β : Type} (l : List α) (f : α → List β) (p : β → Bool)
    (x0 : α) (hx : x0 ∈ l) (hnd : l.Nodup)
    (hother : ∀ x ∈ l, x ≠ x0 → ∀ y ∈ f x, p y = false) :
    (l.flatMap f).filter p = (f x0).filter p := by
  induction l with
  | nil => cases hx
  | cons x t ih =>
    rw [List.nodup_cons] at hnd
    rw [List.flatMap_cons, List.filter_append]
    by_cases hxx : x = x0
    · subst hxx
      rw [filter_flatMap_none t f p, List.append_nil]
      intro z hz y hy
      refine hother z (List.mem_cons_of_mem _ hz) ?_ y hy
      rintro rfl
      exact hnd.1 hz
    · have h1 : (f x).filter p = [] := by
        rw [List.filter_eq_nil_iff]
        intro y hy
        rw [hother x (List.mem_cons_self _ _) hxx y hy]
        simp
      rw [h1, List.nil_append]
      rcases List.mem_cons.1 hx with rfl | ht
      · exact absurd rfl hxx
      · exact ih ht hnd.2 (fun z hz => hother z (List.mem_cons_of_mem _ hz))

theorem flatMap_singleton_eq_map {α β : Type} (l : List α) (f : α → β) :
    l.flatMap (fun x => [f x]) = l.map f := by
  induction l with
  | nil => rfl
  | cons a t ih => rw [List.flatMap_cons, List.map_cons, ih]; rfl

theorem filter_map_unique {α β : Type} (l : List α) (f : α → β) (p : β → Bool)
    (x0 : α) (hx : x0 ∈ l) (hnd : l.Nodup) (hp : p (f x0) = true)
    (hother : ∀ x ∈ l, x ≠ x0 → p (f x) = false) :
    (l.map f).filter p = [f x0] := by
  have h := filter_flatMap_unique l (fun x => [f x]) p x0 hx hnd
    (fun x hxl hne y hy => by
      rw [List.mem_singleton] at hy
      rw [hy]
      exact hother x hxl hne)
  rw [flatMap_singleton_eq_map] at h
  rw [h]
  simp [hp]

theorem tileLoop_eq_map (N step : Nat) (fuel f : Nat) :
    tileLoop N step fuel f =
      (taskIndices step N fuel f).map (fun s => (s, min (N - s) step)) := by
  induction fuel generalizing f with
  | zero => rfl
  | succ n ih =>
    unfold tileLoop taskIndices
    by_cases hf : f < N
    · rw [if_pos hf, if_pos hf, List.map_cons, ih]
    · rw [if_neg hf, if_neg hf]
      rfl

theorem tileLoop_nodup (N step : Nat) (hstep : 0 < step) (fuel f : Nat) :
    (tileLoop N step fuel f).Nodup := by
  rw [tileLoop_eq_map]
  apply List.Nodup.map_on _ (taskIndices_nodup step N hstep fuel f)
  intro a _ b _ hab
  simp only [Prod.mk.injEq] at hab
  exact hab.1

/-- With the fuel of the loops and a positive step, every tile starts at a
multiple of the step below `N` and has the size `min (N - start) step`. -/
theorem tileLoop_mem (N step : Nat) (s n : Nat) :
    (s, n) ∈ tileLoop N step N 0 ↔
      (∃ k, k < N ∧ s = k * step) ∧ s < N ∧ n = min (N - s) step := by
  rw [tileLoop_eq_map, List.mem_map]
  constructor
  · rintro ⟨x, hx, hxe⟩
    simp only [Prod.mk.injEq] at hxe
    rw [taskIndices_mem] at hx
    obtain ⟨k, hk, hxk, hlt⟩ := hx
    obtain ⟨rfl, rfl⟩ := hxe
    exact ⟨⟨k, hk, by omega⟩, hlt, rfl⟩
  · rintro ⟨⟨k, hk, hs⟩, hlt, hn⟩
    refine ⟨s, ?_, by rw [hn]⟩
    rw [taskIndices_mem]
    exact ⟨k, hk, by omega, hlt⟩

/-- The tile that holds the index `a`. -/
theorem tileLoop_mem_of_lt (N step a : Nat) (ha : a < N) :
    (a / step * step, min (N - a / step * step) step) ∈ tileLoop N step N 0 := by
  rw [tileLoop_mem]
  have h1 : a / step * step ≤ a := Nat.div_mul_le_self a step
  have h2 : a / step ≤ a := Nat.div_le_self a step
  exact ⟨⟨a / step, by omega, rfl⟩, by omega, rfl⟩

/-- An index lies in the tile found by division, and in no other tile. -/
theorem tile_of_index (N step a s n iii : Nat) (hstep : 0 < step)
    (hmem : (s, n) ∈ tileLoop N step N 0) (hiii : iii < n) (ha : s + iii = a) :
    (s, n) = (a / step * step, min (N - a / step * step) step) := by
  rw [tileLoop_mem] at hmem
  obtain ⟨⟨k, _, hs⟩, _, hn⟩ := hmem
  have hlt : iii < step := by
    rw [hn] at hiii
    exact lt_of_lt_of_le hiii (min_le_right _ _)
  have hk : a / step = k := by
    rw [← ha, hs, Nat.mul_comm, Nat.mul_add_div hstep, Nat.div_eq_of_lt hlt]
    rfl
  rw [hk, ← hs, hn]

theorem index_in_tile (N step a : Nat) (hstep : 0 < step) (ha : a < N) :
    a - a / step * step < min (N - a / step * step) step
      ∧ a / step * step + (a - a / step * step) = a := by
  have h1 : a / step * step ≤ a := Nat.div_mul_le_self a step
  have h2 : a % step < step := Nat.mod_lt a hstep
  have h3 := Nat.div_add_mod a step
  rw [Nat.mul_comm] at h3
  refine ⟨?_, by omega⟩
  rw [lt_min_iff]
  constructor
  · omega
  · omega

theorem cacheCopy_mem {W F : Type} (conv : W → F) (K : Nat → Nat → Nat → Nat → Nat → W)
    (nmom ngamma nt i j ii jj N_iii N_jjj : Nat) (y : TensorIndex × F) :
    y ∈ cacheCopy conv K nmom ngamma nt i j ii jj N_iii N_jjj ↔
      ∃ m, m < nmom ∧ ∃ g, g < ngamma ∧ ∃ t, t < nt ∧ ∃ iii, iii < N_iii ∧
        ∃ jjj, jjj < N_jjj ∧
          ((m, g, t, ii + iii, jj + jjj), conv (K m g t (i + ii + iii) (j + jj + jjj))) = y := by
  simp only [cacheCopy, List.mem_flatMap, List.mem_map, List.mem_range]

/-- One inner tile that holds the index `(a, b)` writes the entry `(m, g, t, a, b)`
exactly once, with the kernel value of the global index. -/
theorem cacheCopy_filter {W F : Type} (conv : W → F) (K : Nat → Nat → Nat → Nat → Nat → W)
    (nmom ngamma nt i j ii jj N_iii N_jjj m g t iii jjj : Nat)
    (hm : m < nmom) (hg : g < ngamma) (ht : t < nt) (hi : iii < N_iii) (hj : jjj < N_jjj) :
    (cacheCopy conv K nmom ngamma nt i j ii jj N_iii N_jjj).filter
        (fun w => w.1 = (m, g, t, ii + iii, jj + jjj))
      = [((m, g, t, ii + iii, jj + jjj),
          conv (K m g t (i + ii + iii) (j + jj + jjj)))] := by
  unfold cacheCopy
  refine (filter_flatMap_unique (List.range nmom) _ _ m (List.mem_range.2 hm)
    (List.nodup_range nmom) ?_).trans ?_
  · intro m2 _ hne y hy
    simp only [List.mem_flatMap, List.mem_map, List.mem_range] at hy
    obtain ⟨g2, _, t2, _, i2, _, j2, _, rfl⟩ := hy
    simp only [decide_eq_false_iff_not, Prod.mk.injEq, not_and]
    intro h
    exact absurd h hne
  refine (filter_flatMap_unique (List.range ngamma) _ _ g (List.mem_range.2 hg)
    (List.nodup_range ngamma) ?_).trans ?_
  · intro g2 _ hne y hy
    simp only [List.mem_flatMap, List.mem_map, List.mem_range] at hy
    obtain ⟨t2, _, i2, _, j2, _, rfl⟩ := hy
    simp only [decide_eq_false_iff_not, Prod.mk.injEq, not_and]
    intro _ h
    exact absurd h hne
  refine (filter_flatMap_unique (List.range nt) _ _ t (List.mem_range.2 ht)
    (List.nodup_range nt) ?_).trans ?_
  · intro t2 _ hne y hy
    simp only [List.mem_flatMap, List.mem_map, List.mem_range] at hy
    obtain ⟨i2, _, j2, _, rfl⟩ := hy
    simp only [decide_eq_false_iff_not, Prod.mk.injEq, not_and]
    intro _ _ h
    exact absurd h hne
  refine (filter_flatMap_unique (List.range N_iii) _ _ iii (List.mem_range.2 hi)
    (List.nodup_range N_iii) ?_).trans ?_
  · intro i2 _ hne y hy
    simp only [List.mem_map, List.mem_range] at hy
    obtain ⟨j2, _, rfl⟩ := hy
    simp only [decide_eq_false_iff_not, Prod.mk.injEq, not_and]
    intro _ _ _ h
    exact absurd (Nat.add_left_cancel h) hne
  refine filter_map_unique (List.range N_jjj) _ _ jjj (List.mem_range.2 hj)
    (List.nodup_range N_jjj) ?_ ?_
  · simp
  · intro j2 _ hne
    simp only [decide_eq_false_iff_not, Prod.mk.injEq, not_and]
    intro _ _ _ _ h
    exact absurd (Nat.add_left_cancel h) hne

theorem find_reverse_of_filter {α : Type} (l : List α) (p : α → Bool) (x : α)
    (h : l.filter p = [x]) : l.reverse.find? p = some x := by
  have h2 : l.reverse.filter p = [x] := by
    rw [List.filter_reverse, h]
    rfl
  generalize l.reverse = r at h2
  induction r with
  | nil => simp at h2
  | cons a t ih =>
    by_cases hpa : p a = true
    · rw [List.filter_cons_of_pos hpa] at h2
      rw [List.find?_cons_of_pos _ hpa]
      simp only [List.cons.injEq] at h2
      rw [h2.1]
    · rw [List.filter_cons_of_neg hpa] at h2
      rw [List.find?_cons_of_neg _ hpa]
      exact ih h2

/-! ## Claim on the tiling -/

/-- C13: with a positive `cacheBlock`, for the outer tile of origin `(i, j)` and
sizes `N_ii = min (N_i - i) block`, `N_jj = min (N_j - j) block`, and for all
`m`, `g`, `t` in range and all `a < N_ii`, `b < N_jj`: among all the writes of
the inner tiles exactly one goes to the entry `(m, g, t, a, b)` of the staging
block, it writes the kernel value `K m g t (i + a) (j + b)` (converted by the
transfer), and this is the value the entry holds when the inner tiles are done.
The value does not involve `block` or `cacheBlock`. The writes are those of the
model of the copy-back (`blockWrites`); the scheduler that runs is not among the
sources. -/
theorem blockWrites_tile_invariant {W F : Type} (conv : W → F)
    (K : Nat → Nat → Nat → Nat → Nat → W)
    (nmom ngamma nt N_i N_j block cacheBlock i j m g t a b : Nat)
    (hcb : 0 < cacheBlock) (hm : m < nmom) (hg : g < ngamma) (ht : t < nt)
    (ha : a < min (N_i - i) block) (hb : b < min (N_j - j) block) :
    (blockWrites conv K nmom ngamma nt N_i N_j block cacheBlock i j).filter
        (fun w => w.1 = (m, g, t, a, b))
        = [((m, g, t, a, b), conv (K m g t (i + a) (j + b)))]
      ∧ mfBlockAt (blockWrites conv K nmom ngamma nt N_i N_j block cacheBlock i j)
          (m, g, t, a, b) = some (conv (K m g t (i + a) (j + b))) := by
  have key : (blockWrites conv K nmom ngamma nt N_i N_j block cacheBlock i j).filter
        (fun w => w.1 = (m, g, t, a, b))
        = [((m, g, t, a, b), conv (K m g t (i + a) (j + b)))] := by
    unfold blockWrites
    obtain ⟨hia, hea⟩ := index_in_tile (min (N_i - i) block) cacheBlock a hcb ha
    obtain ⟨hib, heb⟩ := index_in_tile (min (N_j - j) block) cacheBlock b hcb hb
    refine (filter_flatMap_unique _ _ _ _
      (tileLoop_mem_of_lt (min (N_i - i) block) cacheBlock a ha)
      (tileLoop_nodup _ _ hcb _ _) ?_).trans ?_
    · intro ti hti hne y hy
      simp only [List.mem_flatMap] at hy
      obtain ⟨tj, _, hy2⟩ := hy
      rw [cacheCopy_mem] at hy2
      obtain ⟨m2, _, g2, _, t2, _, i2, hi2, j2, _, rfl⟩ := hy2
      simp only [decide_eq_false_iff_not, Prod.mk.injEq, not_and]
      intro _ _ _ h
      exact absurd (tile_of_index _ cacheBlock a ti.1 ti.2 i2 hcb hti hi2 h) hne
    refine (filter_flatMap_unique _ _ _ _
      (tileLoop_mem_of_lt (min (N_j - j) block) cacheBlock b hb)
      (tileLoop_nodup _ _ hcb _ _) ?_).trans ?_
    · intro tj htj hne y hy
      rw [cacheCopy_mem] at hy
      obtain ⟨m2, _, g2, _, t2, _, i2, _, j2, hj2, rfl⟩ := hy
      simp only [decide_eq_false_iff_not, Prod.mk.injEq, not_and]
      intro _ _ _ _ h
      exact absurd (tile_of_index _ cacheBlock b tj.1 tj.2 j2 hcb htj hj2 h) hne
    have h := cacheCopy_filter conv K nmom ngamma nt i j (a / cacheBlock * cacheBlock)
      (b / cacheBlock * cacheBlock)
      (min (min (N_i - i) block - a / cacheBlock * cacheBlock) cacheBlock)
      (min (min (N_j - j) block - b / cacheBlock * cacheBlock) cacheBlock)
      m g t (a - a / cacheBlock * cacheBlock) (b - b / cacheBlock * cacheBlock)
      hm hg ht hia hib
    rw [hea, heb, Nat.add_assoc i, Nat.add_assoc j, hea, heb] at h
    exact h
  exact ⟨key, by
    unfold mfBlockAt
    rw [find_reverse_of_filter _ _ _ key]
    rfl⟩

/-- Witness of C13: eight fields a side, block 4 and cache block 3 (a partial
inner tile), the outer tile of origin (4, 4), the entry (1, 2) of that tile, a
kernel that returns its own index. -/
theorem blockWrites_tile_invariant_witness :
    (blockWrites (fun w : TensorIndex => w) (fun m g t x y => (m, g, t, x, y))
          3 16 8 8 8 4 3 4 4).filter (fun w => w.1 = (2, 5, 7, 1, 2))
        = [((2, 5, 7, 1, 2), (2, 5, 7, 4 + 1, 4 + 2))]
      ∧ mfBlockAt (blockWrites (fun w : TensorIndex => w) (fun m g t x y => (m, g, t, x, y))
          3 16 8 8 8 4 3 4 4) (2, 5, 7, 1, 2) = some (2, 5, 7, 4 + 1, 4 + 2) :=
  blockWrites_tile_invariant (fun w : TensorIndex => w) (fun m g t x y => (m, g, t, x, y))
    3 16 8 8 8 4 3 4 4 2 5 7 1 2 (by decide) (by decide) (by decide) (by decide)
    (by decide) (by decide)

/-! ## Claim on the Z2 source -/

/-- C20: at every site `x` the Z2 source is the noise `eta(x)` times the unit
colour-spin matrix when `tA <= x_t <= tB`, both ends included, and the zero
matrix otherwise; hence it is zero everywhere when `tA > tB`, and when
`tA = tB` it is `eta(x)` times the unit matrix on the time slice `x_t = tA` and
zero off it. -/
theorem z2_source_band {C : Type} [Field C] (S : Z2Scalars C) (par : Z2Par)
    (draw : ComplexField C) :
    (∀ x : Site, TZ2.execute S par draw x =
        if par.tA ≤ x.getD Tp 0 ∧ x.getD Tp 0 ≤ par.tB then
          z2Noise S draw x • (1 : SpinColourMatrix C)
        else 0)
      ∧ (par.tB < par.tA → ∀ x : Site, TZ2.execute S par draw x = 0)
      ∧ (par.tA = par.tB → ∀ x : Site, TZ2.execute S par draw x =
          if x.getD Tp 0 = par.tA then z2Noise S draw x • (1 : SpinColourMatrix C)
          else 0) := by
  have main : ∀ x : Site, TZ2.execute S par draw x =
      if par.tA ≤ x.getD Tp 0 ∧ x.getD Tp 0 ≤ par.tB then
        z2Noise S draw x • (1 : SpinColourMatrix C)
      else 0 := by
    intro x
    unfold TZ2.execute
    by_cases hc : par.tA ≤ x.getD Tp 0 ∧ x.getD Tp 0 ≤ par.tB
    · simp only [ge_iff_le, hc, and_self, if_true]
      ext a b
      simp [Matrix.map_apply, Matrix.smul_apply, mul_comm]
    · simp only [ge_iff_le, hc, if_false]
      ext a b
      simp [Matrix.map_apply]
  refine ⟨main, ?_, ?_⟩
  · intro hlt x
    rw [main x, if_neg]
    omega
  · intro heq x
    rw [main x]
    by_cases hx : x.getD Tp 0 = par.tA
    · rw [if_pos hx, if_pos]
      omega
    · rw [if_neg hx, if_neg]
      omega

/-! ## Claim on the values of the Z2 noise -/

/-- C21 fails in the code: with the imaginary unit and `1/sqrt 2` of the complex
numbers, the draw 0 + 0i gives the noise `-(1 + i)/sqrt 2`, which is none of
`1 + i`, `1 - i`, `-1 + i`, `-1 - i`, the values the header comment of the module
promises. -/
theorem z2_noise_is_scaled :
    z2Noise (Z2Scalars.mk Complex.I ((1 / Real.sqrt 2 : ℝ) : ℂ)) (fun _ => 0) [0, 0, 0, 0]
        = -(1 + Complex.I) * ((1 / Real.sqrt 2 : ℝ) : ℂ)
      ∧ z2Noise (Z2Scalars.mk Complex.I ((1 / Real.sqrt 2 : ℝ) : ℂ)) (fun _ => 0)
          [0, 0, 0, 0] ≠ 1 + Complex.I
      ∧ z2Noise (Z2Scalars.mk Complex.I ((1 / Real.sqrt 2 : ℝ) : ℂ)) (fun _ => 0)
          [0, 0, 0, 0] ≠ 1 - Complex.I
      ∧ z2Noise (Z2Scalars.mk Complex.I ((1 / Real.sqrt 2 : ℝ) : ℂ)) (fun _ => 0)
          [0, 0, 0, 0] ≠ -1 + Complex.I
      ∧ z2Noise (Z2Scalars.mk Complex.I ((1 / Real.sqrt 2 : ℝ) : ℂ)) (fun _ => 0)
          [0, 0, 0, 0] ≠ -1 - Complex.I := by
  have hs : Real.sqrt 2 * Real.sqrt 2 = 2 := Real.mul_self_sqrt (by norm_num)
  have hpos : 0 < Real.sqrt 2 := Real.sqrt_pos.2 (by norm_num)
  have hs0 : (0 : ℝ) < 1 / Real.sqrt 2 := by positivity
  have hs1 : (1 / Real.sqrt 2 : ℝ) ≠ 1 := by
    intro h
    rw [div_eq_iff hpos.ne'] at h
    nlinarith
  generalize (1 / Real.sqrt 2 : ℝ) = s at hs0 hs1
  have e : z2Noise (Z2Scalars.mk Complex.I (s : ℂ)) (fun _ => 0) [0, 0, 0, 0]
      = -(1 + Complex.I) * (s : ℂ) := by
    unfold z2Noise
    ring
  have re : (-(1 + Complex.I) * (s : ℂ)).re = -s := by
    simp [Complex.mul_re]
  refine ⟨e, ?_, ?_, ?_, ?_⟩
  · intro h
    rw [e] at h
    have h2 := congrArg Complex.re h
    rw [re] at h2
    simp at h2
    linarith
  · intro h
    rw [e] at h
    have h2 := congrArg Complex.re h
    rw [re] at h2
    simp at h2
    linarith
  · intro h
    rw [e] at h
    have h2 := congrArg Complex.re h
    rw [re] at h2
    simp at h2
    exact hs1 h2
  · intro h
    rw [e] at h
    have h2 := congrArg Complex.re h
    rw [re] at h2
    simp at h2
    exact hs1 h2

/-- What the noise is for every draw: when the draw at a site is `a + b i` with `a`
and `b` each 0 or 1, the noise at the site is one of the four values `(1 + i) s`,
`(1 - i) s`, `(-1 + i) s`, `(-1 - i) s`, where `s` is the value of
`1./::sqrt(2.)`: the four numbers `+-1 +-i` scaled by `1/sqrt 2`. -/
theorem z2_noise_values {C : Type} [Field C] (S : Z2Scalars C) (draw : ComplexField C)
    (x : Site) (a b : C) (ha : a = 0 ∨ a = 1) (hb : b = 0 ∨ b = 1)
    (hd : draw x = a + b * S.i) :
    z2Noise S draw x = (1 + S.i) * S.invSqrt2 ∨ z2Noise S draw x = (1 - S.i) * S.invSqrt2
      ∨ z2Noise S draw x = (-1 + S.i) * S.invSqrt2
      ∨ z2Noise S draw x = (-1 - S.i) * S.invSqrt2 := by
  unfold z2Noise
  rw [hd]
  rcases ha with rfl | rfl <;> rcases hb with rfl | rfl
  · right; right; right; ring
  · right; right; left; ring
  · right; left; ring
  · left; ring

/-- The values of the noise at the draw 1 + 0i in the complex numbers. -/
theorem z2_noise_values_witness :
    z2Noise (Z2Scalars.mk Complex.I ((1 / Real.sqrt 2 : ℝ) : ℂ))
          (fun _ => 1 + 0 * Complex.I) [0, 0, 0, 0]
        = (1 + Complex.I) * ((1 / Real.sqrt 2 : ℝ) : ℂ)
      ∨ z2Noise (Z2Scalars.mk Complex.I ((1 / Real.sqrt 2 : ℝ) : ℂ))
          (fun _ => 1 + 0 * Complex.I) [0, 0, 0, 0]
        = (1 - Complex.I) * ((1 / Real.sqrt 2 : ℝ) : ℂ)
      ∨ z2Noise (Z2Scalars.mk Complex.I ((1 / Real.sqrt 2 : ℝ) : ℂ))
          (fun _ => 1 + 0 * Complex.I) [0, 0, 0, 0]
        = (-1 + Complex.I) * ((1 / Real.sqrt 2 : ℝ) : ℂ)
      ∨ z2Noise (Z2Scalars.mk Complex.I ((1 / Real.sqrt 2 : ℝ) : ℂ))
          (fun _ => 1 + 0 * Complex.I) [0, 0, 0, 0]
        = (-1 - Complex.I) * ((1 / Real.sqrt 2 : ℝ) : ℂ) :=
  z2_noise_values (Z2Scalars.mk Complex.I ((1 / Real.sqrt 2 : ℝ) : ℂ))
    (fun _ => 1 + 0 * Complex.I) [0, 0, 0, 0] 1 0 (Or.inr rfl) (Or.inl rfl) rfl

/-! ## Claim on the flop count of the kernel -/

theorem foldl_mul_cast (l : List Nat) (v : ℚ) :
    l.foldl (fun (vol : ℚ) (d : Nat) => vol * (d : ℚ)) v = v * (l.prod : ℚ) := by
  induction l generalizing v with
  | nil => simp
  | cons x t ih =>
    rw [List.foldl_cons, ih, List.prod_cons]
    push_cast
    ring

/-- Counterexample to C22: for one of two processes that share a lattice of 512
sites, with one phase field and one spin structure, `flops(1, 1)` is
512 * 30 = 15360, not 256 * 30 = 7680 as the local site count would give. -/
theorem flops_uses_global_volume :
    (MesonFieldKernel.mk0 [Gamma.Algebra.Identity] [fun _ => (1 : ℚ)]
        sampleSplitGrid).flops 1 1 = 15360
      ∧ (sampleSplitGrid.lSites : ℚ) * (22 + 8 * 1) * 1 * 1 * 1 = 7680 := by
  constructor
  · unfold MesonFieldKernel.flops MesonFieldKernel.mk0
    rw [foldl_mul_cast]
    simp [sampleSplitGrid]
    norm_num
  · simp [sampleSplitGrid]
    norm_num

/-- C22: for a kernel built by the constructor, `flops(N_ii, N_jj)` is
`V * (22 + 8 * N_mom) * N_ii * N_jj * N_gamma` where `V` is the product of
the global dimensions of the grid (the site count of the whole lattice),
`N_mom` the number of phase fields and `N_gamma` the number of spin
structures; it is the formula with the local site count exactly when the
local site count is that product. -/
theorem flops_formula {C : Type} (gamma : List Gamma.Algebra) (mom : List (ComplexField C))
    (grid : Grid.GridBase) (N_ii N_jj : Nat) :
    (MesonFieldKernel.mk0 gamma mom grid).flops N_ii N_jj
        = (grid.GlobalDimensions.prod : ℚ) * (22 + 8 * (mom.length : ℚ)) * N_ii * N_jj
          * gamma.length
      ∧ (grid.lSites = grid.GlobalDimensions.prod →
          (MesonFieldKernel.mk0 gamma mom grid).flops N_ii N_jj
            = (grid.lSites : ℚ) * (22 + 8 * (mom.length : ℚ)) * N_ii * N_jj
              * gamma.length) := by
  have h : (MesonFieldKernel.mk0 gamma mom grid).flops N_ii N_jj
      = (grid.GlobalDimensions.prod : ℚ) * (22 + 8 * (mom.length : ℚ)) * N_ii * N_jj
        * gamma.length := by
    unfold MesonFieldKernel.flops MesonFieldKernel.mk0
    rw [foldl_mul_cast]
    ring
  refine ⟨h, fun hl => ?_⟩
  rw [h, hl]

/-! ## Lemmas on the outer loops -/

theorem NBlock_lt_iff (N step a : Nat) (hstep : 0 < step) :
    a * step < N ↔ a < NBlock N step := by
  unfold NBlock
  have h1 := Nat.div_add_mod N step
  have h2 : N % step < step := Nat.mod_lt N hstep
  rw [Nat.mul_comm] at h1
  constructor
  · intro h
    by_cases hle : a ≤ N / step
    · by_cases hr : N % step ≠ 0
      · rw [if_pos hr]
        omega
      · rw [if_neg hr]
        have hr0 : N % step = 0 := by omega
        by_cases heq : a = N / step
        · rw [heq] at h
          omega
        · omega
    · have h3 : (N / step + 1) * step ≤ a * step := Nat.mul_le_mul_right _ (by omega)
      rw [Nat.add_mul, Nat.one_mul] at h3
      omega
  · intro h
    by_cases hr : N % step ≠ 0
    · rw [if_pos hr] at h
      have h3 : a * step ≤ N / step * step := Nat.mul_le_mul_right _ (by omega)
      omega
    · rw [if_neg hr] at h
      have h3 : (a + 1) * step ≤ N / step * step := Nat.mul_le_mul_right _ (by omega)
      rw [Nat.add_mul, Nat.one_mul] at h3
      omega

theorem NBlock_le (N step : Nat) (hstep : 0 < step) : NBlock N step ≤ N := by
  by_cases h : NBlock N step = 0
  · omega
  · have h1 : NBlock N step - 1 < NBlock N step := by omega
    rw [← NBlock_lt_iff N step _ hstep] at h1
    have h2 : NBlock N step - 1 ≤ (NBlock N step - 1) * step := Nat.le_mul_of_pos_right _ hstep
    omega

/-- With enough fuel, the loop from `a * step` visits the multiples of `step` from
there up to the last one below `N`. -/
theorem taskIndices_blocks (step N : Nat) (hstep : 0 < step) (fuel a : Nat)
    (hfuel : NBlock N step ≤ a + fuel) :
    taskIndices step N fuel (a * step)
      = (List.range (NBlock N step - a)).map (fun k => (a + k) * step) := by
  induction fuel generalizing a with
  | zero =>
    have h0 : NBlock N step - a = 0 := by omega
    rw [h0]
    rfl
  | succ n ih =>
    unfold taskIndices
    by_cases hlt : a * step < N
    · rw [if_pos hlt]
      have ha : a < NBlock N step := (NBlock_lt_iff N step a hstep).1 hlt
      have e1 : a * step + step = (a + 1) * step := by rw [Nat.add_mul, Nat.one_mul]
      have e2 : NBlock N step - a = (NBlock N step - (a + 1)) + 1 := by omega
      rw [e1, ih (a + 1) (by omega), e2, List.range_succ_eq_map, List.map_cons, List.map_map]
      congr 1
      apply List.map_congr_left
      intro k _
      simp only [Function.comp, Nat.succ_eq_add_one]
      congr 1
      omega
    · rw [if_neg hlt]
      have ha : ¬ a < NBlock N step := fun h => hlt ((NBlock_lt_iff N step a hstep).2 h)
      have h0 : NBlock N step - a = 0 := by omega
      rw [h0]
      rfl

/-- With enough fuel, the tiles of a loop are those of origin `a * step` for `a`
below `NBlock`, in this order. -/
theorem tileLoop_closed (N step fuel : Nat) (hstep : 0 < step) (hfuel : NBlock N step ≤ fuel) :
    tileLoop N step fuel 0
      = (List.range (NBlock N step)).map (fun a => (a * step, min (N - a * step) step)) := by
  have h := taskIndices_blocks step N hstep fuel 0 (by omega)
  rw [Nat.zero_mul] at h
  rw [tileLoop_eq_map, h, List.map_map]
  apply List.map_congr_left
  intro k _
  simp only [Function.comp, Nat.zero_add, Nat.sub_zero]

theorem length_flatMap_const {α β : Type} (l : List α) (f : α → List β) (n : Nat)
    (h : ∀ x ∈ l, (f x).length = n) : (l.flatMap f).length = l.length * n := by
  induction l with
  | nil => simp
  | cons x t ih =>
    rw [List.flatMap_cons, List.length_append, h x (List.mem_cons_self _ _),
      ih (fun y hy => h y (List.mem_cons_of_mem _ hy)), List.length_cons, Nat.add_mul,
      Nat.one_mul, Nat.add_comm]

/-! ## Claim on the outer loops -/

/-- C23: for a positive `block`, the enumerations of the outer tiles along `i` and
`j` end by their bounds (more fuel changes nothing) and visit the tiles of origin
`(a * block, b * block)` for `a` below `NBlock_i` and `b` below `NBlock_j`, `a`
slowest, each with the sizes `min (N_i - i) block` and `min (N_j - j) block`,
which are at least 1 and stay inside the index ranges; every index pair in range
lies in exactly one visited tile; the number of tiles is `NBlock_i * NBlock_j`.
The inner tiles of an outer tile are this enumeration for `N_ii`, `N_jj` and
`cacheBlock`, so the same holds for them when `cacheBlock` is positive. The tiles
are those of the model of the Block Scheduler (`blockLoop`); the scheduler that
runs is not among the sources. -/
theorem blockLoop_tiles {W F : Type} (N_i N_j block : Nat) (hb : 0 < block) :
    blockLoop N_i N_j block
        = (List.range (NBlock N_i block)).flatMap (fun a =>
            (List.range (NBlock N_j block)).map (fun b =>
              (a * block, b * block, min (N_i - a * block) block,
                min (N_j - b * block) block)))
      ∧ (∀ fuel, N_i ≤ fuel → tileLoop N_i block fuel 0 = tileLoop N_i block N_i 0)
      ∧ (∀ fuel, N_j ≤ fuel → tileLoop N_j block fuel 0 = tileLoop N_j block N_j 0)
      ∧ (∀ t ∈ blockLoop N_i N_j block,
          1 ≤ t.2.2.1 ∧ 1 ≤ t.2.2.2 ∧ t.1 + t.2.2.1 ≤ N_i ∧ t.2.1 + t.2.2.2 ≤ N_j)
      ∧ (∀ x y, x < N_i → y < N_j →
          ((blockLoop N_i N_j block).filter (inTile x y)).length = 1)
      ∧ (blockLoop N_i N_j block).length = NBlock N_i block * NBlock N_j block
      ∧ (∀ (conv : W → F) (K : Nat → Nat → Nat → Nat → Nat → W)
          (nmom ngamma nt cacheBlock i j : Nat),
          blockWrites conv K nmom ngamma nt N_i N_j block cacheBlock i j
            = (blockLoop (min (N_i - i) block) (min (N_j - j) block) cacheBlock).flatMap
                (fun t => cacheCopy conv K nmom ngamma nt i j t.1 t.2.1 t.2.2.1 t.2.2.2)) := by
  have ci := tileLoop_closed N_i block N_i hb (NBlock_le N_i block hb)
  have cj := tileLoop_closed N_j block N_j hb (NBlock_le N_j block hb)
  have hclosed : blockLoop N_i N_j block
      = (List.range (NBlock N_i block)).flatMap (fun a =>
          (List.range (NBlock N_j block)).map (fun b =>
            (a * block, b * block, min (N_i - a * block) block,
              min (N_j - b * block) block))) := by
    unfold blockLoop
    rw [ci, cj, List.flatMap_map]
    apply List.flatMap_congr
    intro a _
    rw [List.map_map]
    rfl
  refine ⟨hclosed, ?_, ?_, ?_, ?_, ?_, ?_⟩
  · intro fuel hf
    rw [ci, tileLoop_closed N_i block fuel hb (le_trans (NBlock_le N_i block hb) hf)]
  · intro fuel hf
    rw [cj, tileLoop_closed N_j block fuel hb (le_trans (NBlock_le N_j block hb) hf)]
  · intro t ht
    unfold blockLoop at ht
    rw [List.mem_flatMap] at ht
    obtain ⟨ti, hti, ht2⟩ := ht
    rw [List.mem_map] at ht2
    obtain ⟨tj, htj, rfl⟩ := ht2
    have hi := (tileLoop_mem N_i block ti.1 ti.2).1 hti
    have hj := (tileLoop_mem N_j block tj.1 tj.2).1 htj
    obtain ⟨_, hi1, hi2⟩ := hi
    obtain ⟨_, hj1, hj2⟩ := hj
    simp only []
    rw [hi2, hj2]
    refine ⟨?_, ?_, ?_, ?_⟩
    · rw [Nat.succ_le, lt_min_iff]
      omega
    · rw [Nat.succ_le, lt_min_iff]
      omega
    · have := min_le_left (N_i - ti.1) block
      omega
    · have := min_le_left (N_j - tj.1) block
      omega
  · intro x y hx hy
    unfold blockLoop
    obtain ⟨hix, hex⟩ := index_in_tile N_i block x hb hx
    obtain ⟨hiy, hey⟩ := index_in_tile N_j block y hb hy
    have h1 : ((tileLoop N_i block N_i 0).flatMap fun ti =>
          (tileLoop N_j block N_j 0).map fun tj => (ti.1, tj.1, ti.2, tj.2)).filter
          (inTile x y)
        = ((tileLoop N_j block N_j 0).map fun tj =>
            (x / block * block, tj.1, min (N_i - x / block * block) block, tj.2)).filter
          (inTile x y) := by
      refine filter_flatMap_unique _ _ _ _ (tileLoop_mem_of_lt N_i block x hx)
        (tileLoop_nodup _ _ hb _ _) ?_
      intro ti hti hne t ht
      rw [List.mem_map] at ht
      obtain ⟨tj, _, rfl⟩ := ht
      unfold inTile
      rw [decide_eq_false_iff_not]
      intro hc
      simp only [] at hc
      exact absurd (tile_of_index N_i block x ti.1 ti.2 (x - ti.1) hb hti (by omega)
        (by omega)) hne
    have h2 : ((tileLoop N_j block N_j 0).map fun tj =>
            (x / block * block, tj.1, min (N_i - x / block * block) block, tj.2)).filter
          (inTile x y)
        = [(x / block * block, y / block * block, min (N_i - x / block * block) block,
            min (N_j - y / block * block) block)] := by
      refine filter_map_unique _ _ _ _ (tileLoop_mem_of_lt N_j block y hy)
        (tileLoop_nodup _ _ hb _ _) ?_ ?_
      · unfold inTile
        rw [decide_eq_true_iff]
        simp only []
        have := Nat.div_mul_le_self x block
        have := Nat.div_mul_le_self y block
        omega
      · intro tj htj hne
        unfold inTile
        rw [decide_eq_false_iff_not]
        intro hc
        simp only [] at hc
        exact absurd (tile_of_index N_j block y tj.1 tj.2 (y - tj.1) hb htj (by omega)
          (by omega)) hne
    rw [h1, h2]
    rfl
  · rw [hclosed, length_flatMap_const _ _ (NBlock N_j block), List.length_range]
    intro a _
    rw [List.length_map, List.length_range]
  · intro conv K nmom ngamma nt cacheBlock i j
    unfold blockWrites blockLoop
    simp only [List.flatMap_assoc, List.flatMap_map]

/-- Witness of C23: five by three fields in blocks of two. -/
theorem blockLoop_tiles_witness :
    blockLoop 5 3 2
        = [(0, 0, 2, 2), (0, 2, 2, 1), (2, 0, 2, 2), (2, 2, 2, 1), (4, 0, 1, 2), (4, 2, 1, 1)]
      ∧ (blockLoop 5 3 2).length = NBlock 5 2 * NBlock 3 2
      ∧ ((blockLoop 5 3 2).filter (inTile 4 1)).length = 1 :=
  have h := @blockLoop_tiles Nat Nat 5 3 2 (by decide)
  ⟨by decide, h.2.2.2.2.2.1, h.2.2.2.2.1 4 1 (by decide) (by decide)⟩

end Hadrons


/-! # Binary I/O: lemmas and claims -/

namespace Grid

/-! ## Lemmas on the checksums -/

theorem foldl_add_mod (w : Nat → Nat) (l : List Nat) (a : Nat) :
    (l.foldl (fun acc j => (acc + w j) % 2 ^ 32) a) % 2 ^ 32
      = (a + (l.map w).sum) % 2 ^ 32 := by
  induction l generalizing a with
  | nil => simp
  | cons x t ih =>
    rw [List.foldl_cons, ih, List.map_cons, List.sum_cons, Nat.mod_add_mod, Nat.add_assoc]

theorem siteUpdate_nersc (M : Machine) (grid : GridBase) (size32 : Nat) (fbuf : List Nat)
    (thr : Csums) (s : Nat) :
    (siteUpdate M grid size32 fbuf thr s).nersc_csum % 2 ^ 32
      = (thr.nersc_csum + siteSum size32 fbuf s) % 2 ^ 32 := by
  unfold siteUpdate siteSum
  exact foldl_add_mod _ _ _

theorem thread_nersc (M : Machine) (grid : GridBase) (size32 : Nat) (fbuf : List Nat)
    (sites : List Nat) (thr : Csums) :
    (sites.foldl (siteUpdate M grid size32 fbuf) thr).nersc_csum % 2 ^ 32
      = (thr.nersc_csum + (sites.map (siteSum size32 fbuf)).sum) % 2 ^ 32 := by
  induction sites generalizing thr with
  | nil => simp
  | cons x t ih =>
    rw [List.foldl_cons, ih, List.map_cons, List.sum_cons, ← Nat.mod_add_mod,
      siteUpdate_nersc, Nat.mod_add_mod, Nat.add_assoc]

theorem checksum_nersc (M : Machine) (grid : GridBase) (size32 : Nat) (fbuf : List Nat)
    (schedule : List (List Nat)) (init : Csums) :
    (Uint32Checksum M grid size32 fbuf schedule init).nersc_csum % 2 ^ 32
      = (init.nersc_csum + (schedule.flatten.map (siteSum size32 fbuf)).sum) % 2 ^ 32 := by
  unfold Uint32Checksum
  induction schedule generalizing init with
  | nil => simp
  | cons x t ih =>
    rw [List.foldl_cons, ih, List.flatten_cons, List.map_append, List.sum_append]
    simp only [combine]
    have key := thread_nersc M grid size32 fbuf x ⟨0, 0, 0⟩
    generalize (List.foldl (siteUpdate M grid size32 fbuf) ⟨0, 0, 0⟩ x).nersc_csum = T at key ⊢
    generalize (List.map (siteSum size32 fbuf) x).sum = Sx at key ⊢
    generalize (List.map (siteSum size32 fbuf) t.flatten).sum = R
    simp only [Nat.zero_add] at key
    omega

theorem checksum_nersc_lt (M : Machine) (grid : GridBase) (size32 : Nat) (fbuf : List Nat)
    (schedule : List (List Nat)) (init : Csums) (h : init.nersc_csum < 2 ^ 32) :
    (Uint32Checksum M grid size32 fbuf schedule init).nersc_csum < 2 ^ 32 := by
  unfold Uint32Checksum
  induction schedule generalizing init with
  | nil => simpa using h
  | cons x t ih =>
    rw [List.foldl_cons]
    apply ih
    simp only [combine]
    exact Nat.mod_lt _ (by decide)

theorem getD_sum (l : List Nat) (n : Nat) (h : l.length ≤ n) :
    ((List.range n).map (fun j => l.getD j 0)).sum = l.sum := by
  induction l generalizing n with
  | nil =>
    simp only [List.getD_nil, List.sum_nil]
    induction n with
    | zero => rfl
    | succ m ihm =>
      rw [List.range_succ, List.map_append, List.sum_append, ihm (Nat.zero_le _)]
      rfl
  | cons x t ih =>
    cases n with
    | zero => simp at h
    | succ m =>
      rw [List.range_succ_eq_map, List.map_cons, List.map_map, List.sum_cons, List.sum_cons]
      have := ih m (by simpa using h)
      simp only [List.getD_cons_zero]
      rw [← this]
      rfl

theorem siteSum_eq (size32 : Nat) (fbuf : List Nat) (s : Nat) :
    siteSum size32 fbuf s = (siteWords size32 fbuf s).sum := by
  unfold siteSum
  apply getD_sum
  unfold siteWords
  rw [List.length_take]
  exact Nat.min_le_left _ _

theorem siteWords_succ (size32 : Nat) (fbuf : List Nat) (s : Nat) :
    siteWords size32 fbuf (s + 1) = siteWords size32 (fbuf.drop size32) s := by
  unfold siteWords
  rw [List.drop_drop, Nat.add_mul, Nat.one_mul, Nat.add_comm]

/-- The words of all sites together are the words of the buffer. -/
theorem sites_sum (size32 : Nat) (lsites : Nat) (fbuf : List Nat)
    (h : fbuf.length = lsites * size32) :
    ((List.range lsites).map (siteSum size32 fbuf)).sum = fbuf.sum := by
  induction lsites generalizing fbuf with
  | zero =>
    have : fbuf = [] := List.length_eq_zero.1 (by simpa using h)
    rw [this]
    rfl
  | succ n ih =>
    rw [List.range_succ_eq_map, List.map_cons, List.map_map, List.sum_cons]
    have h1 : (List.map (siteSum size32 fbuf ∘ Nat.succ) (List.range n))
        = (List.range n).map (siteSum size32 (fbuf.drop size32)) := by
      apply List.map_congr_left
      intro s _
      simp only [Function.comp, Nat.succ_eq_add_one, siteSum_eq, siteWords_succ]
    rw [h1, ih (fbuf.drop size32) (by rw [List.length_drop, h, Nat.add_mul]; omega),
      siteSum_eq]
    have h2 : siteWords size32 fbuf 0 = fbuf.take size32 := by
      unfold siteWords
      simp
    rw [h2, ← List.sum_append, List.take_append_drop]

theorem setByte_facts (w k b : Nat) (hw : w < 2 ^ 32) (hk : k < 4) (hb : b < 256)
    (hne : b ≠ w / 256 ^ k % 256) : setByte w k b < 2 ^ 32 ∧ setByte w k b ≠ w := by
  unfold setByte
  have hk4 : k = 0 ∨ k = 1 ∨ k = 2 ∨ k = 3 := by omega
  rcases hk4 with rfl | rfl | rfl | rfl
  · norm_num at hne ⊢
    omega
  · norm_num at hne ⊢
    omega
  · norm_num at hne ⊢
    omega
  · norm_num at hne ⊢
    omega

/-! ## Claims on the additive checksum -/

/-- C18: started from zero, for every distribution of the sites over threads that
runs each site below `lsites` once, the first checksum is the sum modulo 2^32
of the `size32` words of every site; when the buffer holds exactly `lsites`
objects this is the sum modulo 2^32 of all the words of the buffer. -/
theorem nersc_checksum_is_word_sum (M : Machine) (grid : GridBase) (size32 : Nat)
    (fbuf : List Nat) (schedule : List (List Nat))
    (hs : ValidSchedule grid.lSites schedule) :
    (Uint32Checksum M grid size32 fbuf schedule ⟨0, 0, 0⟩).nersc_csum
        = ((List.range grid.lSites).map (siteSum size32 fbuf)).sum % 2 ^ 32
      ∧ (fbuf.length = grid.lSites * size32 →
          (Uint32Checksum M grid size32 fbuf schedule ⟨0, 0, 0⟩).nersc_csum
            = fbuf.sum % 2 ^ 32) := by
  have h1 := checksum_nersc M grid size32 fbuf schedule ⟨0, 0, 0⟩
  have h2 := checksum_nersc_lt M grid size32 fbuf schedule ⟨0, 0, 0⟩ (by decide)
  have h3 : (schedule.flatten.map (siteSum size32 fbuf)).sum
      = ((List.range grid.lSites).map (siteSum size32 fbuf)).sum :=
    List.Perm.sum_eq (List.Perm.map _ hs)
  have key : (Uint32Checksum M grid size32 fbuf schedule ⟨0, 0, 0⟩).nersc_csum
      = ((List.range grid.lSites).map (siteSum size32 fbuf)).sum % 2 ^ 32 := by
    rw [← h3, ← Nat.mod_eq_of_lt h2, h1]
    simp
  refine ⟨key, ?_⟩
  intro hlen
  rw [key, sites_sum size32 grid.lSites fbuf hlen]

/-- Witness of C18: four sites of two words, two threads that run the sites in the
orders 2, 0 and 3, 1. -/
theorem nersc_checksum_is_word_sum_witness :
    (Uint32Checksum sampleLittle sampleGrid 2 [1, 2, 3, 4, 5, 6, 7, 4294967295]
        [[2, 0], [3, 1]] ⟨0, 0, 0⟩).nersc_csum
      = ((List.range 4).map (siteSum 2 [1, 2, 3, 4, 5, 6, 7, 4294967295])).sum % 2 ^ 32
    ∧ (Uint32Checksum sampleLittle sampleGrid 2 [1, 2, 3, 4, 5, 6, 7, 4294967295]
        [[2, 0], [3, 1]] ⟨0, 0, 0⟩).nersc_csum = 27 :=
  ⟨(nersc_checksum_is_word_sum sampleLittle sampleGrid 2 [1, 2, 3, 4, 5, 6, 7, 4294967295]
      [[2, 0], [3, 1]] (by unfold ValidSchedule; decide)).1,
    by decide⟩

/-- C17: for a buffer of `lsites` objects of `size32` words (32-bit words), replacing
one byte of one word by a different byte changes the additive checksum, for
every distribution of the sites over threads. -/
theorem nersc_detects_one_byte (M : Machine) (grid : GridBase) (size32 : Nat)
    (fbuf : List Nat) (schedule : List (List Nat))
    (hs : ValidSchedule grid.lSites schedule)
    (hlen : fbuf.length = grid.lSites * size32) (hw : ∀ w ∈ fbuf, w < 2 ^ 32)
    (p k b : Nat) (hp : p < fbuf.length) (hk : k < 4) (hb : b < 256)
    (hne : b ≠ fbuf[p] / 256 ^ k % 256) :
    (Uint32Checksum M grid size32 (fbuf.set p (setByte fbuf[p] k b)) schedule
        ⟨0, 0, 0⟩).nersc_csum
      ≠ (Uint32Checksum M grid size32 fbuf schedule ⟨0, 0, 0⟩).nersc_csum := by
  have hlen2 : (fbuf.set p (setByte fbuf[p] k b)).length = grid.lSites * size32 := by
    rw [List.length_set, hlen]
  have h1 : ∀ (buf : List Nat), buf.length = grid.lSites * size32 →
      (Uint32Checksum M grid size32 buf schedule ⟨0, 0, 0⟩).nersc_csum = buf.sum % 2 ^ 32 := by
    intro buf hbuf
    have e1 := checksum_nersc M grid size32 buf schedule ⟨0, 0, 0⟩
    have e2 := checksum_nersc_lt M grid size32 buf schedule ⟨0, 0, 0⟩ (by decide)
    have e3 : (schedule.flatten.map (siteSum size32 buf)).sum
        = ((List.range grid.lSites).map (siteSum size32 buf)).sum :=
      List.Perm.sum_eq (List.Perm.map _ hs)
    rw [← Nat.mod_eq_of_lt e2, e1, e3, sites_sum size32 grid.lSites buf hbuf]
    simp
  rw [h1 _ hlen2, h1 _ hlen]
  obtain ⟨f1, f2⟩ := setByte_facts fbuf[p] k b (hw _ (List.getElem_mem hp)) hk hb hne
  have s1 := List.sum_set fbuf p (setByte fbuf[p] k b)
  have s2 : fbuf.sum = (List.take p fbuf).sum + fbuf[p] + (List.drop (p + 1) fbuf).sum := by
    conv_lhs => rw [← List.take_append_drop p fbuf, List.drop_eq_getElem_cons hp]
    rw [List.sum_append, List.sum_cons, Nat.add_assoc]
  rw [if_pos hp] at s1
  have hwp : fbuf[p] < 2 ^ 32 := hw _ (List.getElem_mem hp)
  rw [s1, s2]
  generalize (List.take p fbuf).sum = A
  generalize (List.drop (p + 1) fbuf).sum = B
  generalize setByte fbuf[p] k b = w2 at f1 f2
  generalize fbuf[p] = w1 at hwp f2
  omega

/-- Witness of C17: in the buffer of the witness of C18, the byte of index 1 of
the word of index 5 is replaced by 255. -/
theorem nersc_detects_one_byte_witness :
    (Uint32Checksum sampleLittle sampleGrid 2
        (([1, 2, 3, 4, 5, 6, 7, 4294967295] : List Nat).set 5 (setByte 6 1 255))
        [[2, 0], [3, 1]] ⟨0, 0, 0⟩).nersc_csum
      ≠ (Uint32Checksum sampleLittle sampleGrid 2 [1, 2, 3, 4, 5, 6, 7, 4294967295]
        [[2, 0], [3, 1]] ⟨0, 0, 0⟩).nersc_csum :=
  nersc_detects_one_byte sampleLittle sampleGrid 2 [1, 2, 3, 4, 5, 6, 7, 4294967295]
    [[2, 0], [3, 1]] (by unfold ValidSchedule; decide) (by decide) (by decide)
    5 1 255 (by decide) (by decide) (by decide) (by decide)

/-! ## Lemmas on the rotated CRC checksums -/

theorem foldl_xor (l : List Nat) (a : Nat) :
    l.foldl (fun x y => x ^^^ y) a = a ^^^ xorAll l := by
  unfold xorAll
  induction l generalizing a with
  | nil => simp
  | cons x t ih =>
    rw [List.foldl_cons, List.foldl_cons, ih, ih (0 ^^^ x), Nat.zero_xor, Nat.xor_assoc]

theorem xorAll_append (l l2 : List Nat) : xorAll (l ++ l2) = xorAll l ^^^ xorAll l2 := by
  conv_lhs => unfold xorAll
  rw [List.foldl_append, foldl_xor]
  rfl

theorem xorAll_perm (l l2 : List Nat) (h : List.Perm l l2) : xorAll l = xorAll l2 := by
  unfold xorAll
  apply List.Perm.foldl_eq' h
  intro x _ y _ z
  rw [Nat.xor_assoc, Nat.xor_comm x y, ← Nat.xor_assoc]

theorem thread_csuma (M : Machine) (grid : GridBase) (size32 : Nat) (fbuf : List Nat)
    (sites : List Nat) (thr : Csums) :
    (sites.foldl (siteUpdate M grid size32 fbuf) thr).scidac_csuma
      = thr.scidac_csuma ^^^ xorAll (sites.map (fun s =>
          rotateExpr M (siteCrc M size32 fbuf s) (globalSite grid s % 29))) := by
  induction sites generalizing thr with
  | nil => simp [xorAll]
  | cons x t ih =>
    rw [List.foldl_cons, ih, List.map_cons]
    have : xorAll (rotateExpr M (siteCrc M size32 fbuf x) (globalSite grid x % 29)
        :: List.map (fun s => rotateExpr M (siteCrc M size32 fbuf s) (globalSite grid s % 29)) t)
        = rotateExpr M (siteCrc M size32 fbuf x) (globalSite grid x % 29)
          ^^^ xorAll (List.map (fun s =>
            rotateExpr M (siteCrc M size32 fbuf s) (globalSite grid s % 29)) t) := by
      rw [← List.singleton_append, xorAll_append]
      simp [xorAll]
    rw [this, ← Nat.xor_assoc]
    rfl

theorem thread_csumb (M : Machine) (grid : GridBase) (size32 : Nat) (fbuf : List Nat)
    (sites : List Nat) (thr : Csums) :
    (sites.foldl (siteUpdate M grid size32 fbuf) thr).scidac_csumb
      = thr.scidac_csumb ^^^ xorAll (sites.map (fun s =>
          rotateExpr M (siteCrc M size32 fbuf s) (globalSite grid s % 31))) := by
  induction sites generalizing thr with
  | nil => simp [xorAll]
  | cons x t ih =>
    rw [List.foldl_cons, ih, List.map_cons]
    have : xorAll (rotateExpr M (siteCrc M size32 fbuf x) (globalSite grid x % 31)
        :: List.map (fun s => rotateExpr M (siteCrc M size32 fbuf s) (globalSite grid s % 31)) t)
        = rotateExpr M (siteCrc M size32 fbuf x) (globalSite grid x % 31)
          ^^^ xorAll (List.map (fun s =>
            rotateExpr M (siteCrc M size32 fbuf s) (globalSite grid s % 31)) t) := by
      rw [← List.singleton_append, xorAll_append]
      simp [xorAll]
    rw [this, ← Nat.xor_assoc]
    rfl

theorem checksum_csuma (M : Machine) (grid : GridBase) (size32 : Nat) (fbuf : List Nat)
    (schedule : List (List Nat)) (init : Csums) :
    (Uint32Checksum M grid size32 fbuf schedule init).scidac_csuma
      = init.scidac_csuma ^^^ xorAll (schedule.flatten.map (fun s =>
          rotateExpr M (siteCrc M size32 fbuf s) (globalSite grid s % 29))) := by
  unfold Uint32Checksum
  induction schedule generalizing init with
  | nil => simp [xorAll]
  | cons x t ih =>
    rw [List.foldl_cons, ih, List.flatten_cons, List.map_append, xorAll_append]
    simp only [combine]
    rw [thread_csuma, Nat.zero_xor, Nat.xor_assoc]

theorem checksum_csumb (M : Machine) (grid : GridBase) (size32 : Nat) (fbuf : List Nat)
    (schedule : List (List Nat)) (init : Csums) :
    (Uint32Checksum M grid size32 fbuf schedule init).scidac_csumb
      = init.scidac_csumb ^^^ xorAll (schedule.flatten.map (fun s =>
          rotateExpr M (siteCrc M size32 fbuf s) (globalSite grid s % 31))) := by
  unfold Uint32Checksum
  induction schedule generalizing init with
  | nil => simp [xorAll]
  | cons x t ih =>
    rw [List.foldl_cons, ih, List.flatten_cons, List.map_append, xorAll_append]
    simp only [combine]
    rw [thread_csumb, Nat.zero_xor, Nat.xor_assoc]

/-- The expression of the source is the rotation to the left, on either kind of
host, also for the count 0. -/
theorem rotateExpr_eq_rotl32 (M : Machine) (x r : Nat) (hx : x < 2 ^ 32) (hr : r < 32) :
    rotateExpr M x r = rotl32 x r := by
  unfold rotateExpr rotl32 shiftRight32
  by_cases h0 : r = 0
  · subst h0
    have h1 : x / 2 ^ 32 = 0 := Nat.div_eq_of_lt hx
    have h2 : x % 2 ^ 32 = x := Nat.mod_eq_of_lt hx
    simp only [Nat.shiftLeft_zero, Nat.sub_zero, Nat.lt_irrefl, if_false, Nat.mod_self,
      Nat.shiftRight_zero, pow_zero, Nat.mul_one, h1, h2, Nat.add_zero]
    cases M.shiftMasked <;> simp
  · have hlt : 32 - r < 32 := by omega
    rw [if_pos hlt, Nat.shiftLeft_eq, Nat.shiftRight_eq_div_pow]
    have hp : (2 : Nat) ^ 32 = 2 ^ (32 - r) * 2 ^ r := by
      rw [← Nat.pow_add]
      congr 1
      omega
    have hb : x / 2 ^ (32 - r) < 2 ^ r := by
      apply Nat.div_lt_of_lt_mul
      rw [← hp]
      exact hx
    have hm : x * 2 ^ r % 2 ^ 32 = 2 ^ r * (x % 2 ^ (32 - r)) := by
      rw [hp, Nat.mul_mod_mul_right, Nat.mul_comm]
    rw [hm, ← Nat.mul_add_lt_is_or hb]

theorem siteCrc_lt (M : Machine) (size32 : Nat) (fbuf : List Nat) (s : Nat) :
    siteCrc M size32 fbuf s < 2 ^ 32 := by
  unfold siteCrc
  exact Nat.mod_lt _ (by decide)

/-! ## Claim on the rotated CRC checksums -/

/-- C19: started from zero, for every distribution of the sites over threads that
runs each site below `lsites` once, the second and the third checksum are the
XOR over the sites of the CRC-32 of the site rotated to the left by the global
lexicographic index of the site modulo 29, respectively modulo 31; the
expression of the source is this rotation for every count below 32 on either
kind of host, and for the count 0 it is the CRC-32 itself. -/
theorem scidac_checksums_are_rotated_crc (M : Machine) (grid : GridBase) (size32 : Nat)
    (fbuf : List Nat) (schedule : List (List Nat))
    (hs : ValidSchedule grid.lSites schedule) :
    (Uint32Checksum M grid size32 fbuf schedule ⟨0, 0, 0⟩).scidac_csuma
        = xorAll ((List.range grid.lSites).map (fun s =>
            rotl32 (siteCrc M size32 fbuf s) (globalSite grid s % 29)))
      ∧ (Uint32Checksum M grid size32 fbuf schedule ⟨0, 0, 0⟩).scidac_csumb
        = xorAll ((List.range grid.lSites).map (fun s =>
            rotl32 (siteCrc M size32 fbuf s) (globalSite grid s % 31)))
      ∧ (∀ x r, x < 2 ^ 32 → r < 32 → rotateExpr M x r = rotl32 x r)
      ∧ (∀ x, x < 2 ^ 32 → rotateExpr M x 0 = x ∧ rotl32 x 0 = x) := by
  refine ⟨?_, ?_, fun x r hx hr => rotateExpr_eq_rotl32 M x r hx hr, ?_⟩
  · rw [checksum_csuma, Nat.zero_xor, xorAll_perm _ _ (List.Perm.map _ hs)]
    congr 1
    apply List.map_congr_left
    intro s _
    exact rotateExpr_eq_rotl32 M _ _ (siteCrc_lt M size32 fbuf s)
      (lt_trans (Nat.mod_lt _ (by decide)) (by decide))
  · rw [checksum_csumb, Nat.zero_xor, xorAll_perm _ _ (List.Perm.map _ hs)]
    congr 1
    apply List.map_congr_left
    intro s _
    exact rotateExpr_eq_rotl32 M _ _ (siteCrc_lt M size32 fbuf s)
      (lt_trans (Nat.mod_lt _ (by decide)) (by decide))
  · intro x hx
    have h := rotateExpr_eq_rotl32 M x 0 hx (by decide)
    have h2 : rotl32 x 0 = x := by
      unfold rotl32
      have h1 : x / 2 ^ 32 = 0 := Nat.div_eq_of_lt hx
      simp only [pow_zero, Nat.mul_one, Nat.sub_zero, h1, Nat.add_zero]
      exact Nat.mod_eq_of_lt hx
    exact ⟨h.trans h2, h2⟩

/-- Witness of C19: the buffer and the threads of the witness of C18. -/
theorem scidac_checksums_are_rotated_crc_witness :
    (Uint32Checksum sampleLittle sampleGrid 2 [1, 2, 3, 4, 5, 6, 7, 4294967295]
        [[2, 0], [3, 1]] ⟨0, 0, 0⟩).scidac_csuma
      = xorAll ((List.range 4).map (fun s =>
          rotl32 (siteCrc sampleLittle 2 [1, 2, 3, 4, 5, 6, 7, 4294967295] s)
            (globalSite sampleGrid s % 29))) :=
  (scidac_checksums_are_rotated_crc sampleLittle sampleGrid 2
    [1, 2, 3, 4, 5, 6, 7, 4294967295] [[2, 0], [3, 1]]
    (by unfold ValidSchedule; decide)).1

/-! ## Lemmas on the reversal of bytes -/

theorem and_shifted_mask (f m k : Nat) : f &&& (m <<< k) = ((f >>> k) &&& m) <<< k := by
  apply Nat.eq_of_testBit_eq
  intro i
  simp only [Nat.testBit_and, Nat.testBit_shiftLeft, Nat.testBit_shiftRight]
  by_cases h : k ≤ i
  · simp [h, Nat.add_sub_cancel' h]
  · simp [h]

theorem mask1 (f : Nat) : f &&& 0xFF = f % 256 := by
  have := Nat.and_pow_two_sub_one_eq_mod f 8
  simpa using this

theorem mask2 (f : Nat) : f &&& 0xFF00 = (f / 256 % 256) * 256 := by
  have h : (0xFF00 : Nat) = 0xFF <<< 8 := by decide
  rw [h, and_shifted_mask, mask1, Nat.shiftLeft_eq, Nat.shiftRight_eq_div_pow]

theorem mask3 (f : Nat) : f &&& 0xFF0000 = (f / 65536 % 256) * 65536 := by
  have h : (0xFF0000 : Nat) = 0xFF <<< 16 := by decide
  rw [h, and_shifted_mask, mask1, Nat.shiftLeft_eq, Nat.shiftRight_eq_div_pow]

theorem mask4 (f : Nat) : f &&& 0xFF000000 = (f / 16777216 % 256) * 16777216 := by
  have h : (0xFF000000 : Nat) = 0xFF <<< 24 := by decide
  rw [h, and_shifted_mask, mask1, Nat.shiftLeft_eq, Nat.shiftRight_eq_div_pow]

/-- The reversal of the four low bytes, in arithmetic. -/
theorem byte_reverse32_eq (f : Nat) :
    byte_reverse32 f = (f % 256) * 16777216 + (f / 256 % 256) * 65536
      + (f / 65536 % 256) * 256 + f / 16777216 % 256 := by
  unfold byte_reverse32
  rw [mask1, mask2, mask3, mask4]
  simp only [Nat.shiftLeft_eq, Nat.shiftRight_eq_div_pow]
  have e1 : f % 256 * 2 ^ 24 = 2 ^ 24 * (f % 256) := by ring
  have e2 : f / 256 % 256 * 256 * 2 ^ 8 = (f / 256 % 256) * 65536 := by ring
  have e3 : f / 65536 % 256 * 65536 / 2 ^ 8 = (f / 65536 % 256) * 256 := by omega
  have e4 : f / 16777216 % 256 * 16777216 / 2 ^ 24 = f / 16777216 % 256 := by omega
  rw [e1, e2, e3, e4]
  have b1 : (f / 256 % 256) * 65536 < 2 ^ 24 := by omega
  rw [← Nat.mul_add_lt_is_or b1]
  have s1 : 2 ^ 24 * (f % 256) + f / 256 % 256 * 65536
      = 2 ^ 16 * ((f % 256) * 256 + f / 256 % 256) := by ring
  rw [s1]
  have b2 : (f / 65536 % 256) * 256 < 2 ^ 16 := by omega
  rw [← Nat.mul_add_lt_is_or b2]
  have s2 : 2 ^ 16 * ((f % 256) * 256 + f / 256 % 256) + f / 65536 % 256 * 256
      = 2 ^ 8 * (((f % 256) * 256 + f / 256 % 256) * 256 + f / 65536 % 256) := by ring
  rw [s2]
  have b3 : f / 16777216 % 256 < 2 ^ 8 := by omega
  rw [← Nat.mul_add_lt_is_or b3]
  ring

theorem byte_reverse32_bytes (a b c d : Nat) (ha : a < 256) (hb : b < 256) (hc : c < 256)
    (hd : d < 256) :
    byte_reverse32 (a + 256 * b + 65536 * c + 16777216 * d)
      = d + 256 * c + 65536 * b + 16777216 * a := by
  rw [byte_reverse32_eq]
  have h1 : (a + 256 * b + 65536 * c + 16777216 * d) % 256 = a := by omega
  have h2 : (a + 256 * b + 65536 * c + 16777216 * d) / 256 % 256 = b := by omega
  have h3 : (a + 256 * b + 65536 * c + 16777216 * d) / 65536 % 256 = c := by omega
  have h4 : (a + 256 * b + 65536 * c + 16777216 * d) / 16777216 % 256 = d := by omega
  rw [h1, h2, h3, h4]
  omega

theorem word_bytes (f : Nat) (h : f < 2 ^ 32) :
    f = f % 256 + 256 * (f / 256 % 256) + 65536 * (f / 65536 % 256)
      + 16777216 * (f / 16777216 % 256) := by
  omega

theorem byte_reverse32_lt (f : Nat) : byte_reverse32 f < 2 ^ 32 := by
  rw [byte_reverse32_eq]
  omega

/-- The four bytes of the reversed word. -/
theorem byte_reverse32_digits (f : Nat) :
    byte_reverse32 f % 256 = f / 16777216 % 256
      ∧ byte_reverse32 f / 256 % 256 = f / 65536 % 256
      ∧ byte_reverse32 f / 65536 % 256 = f / 256 % 256
      ∧ byte_reverse32 f / 16777216 % 256 = f % 256 := by
  rw [byte_reverse32_eq]
  have ha : f % 256 < 256 := Nat.mod_lt _ (by decide)
  have hb : f / 256 % 256 < 256 := Nat.mod_lt _ (by decide)
  have hc : f / 65536 % 256 < 256 := Nat.mod_lt _ (by decide)
  have hd : f / 16777216 % 256 < 256 := Nat.mod_lt _ (by decide)
  generalize f % 256 = a at ha
  generalize f / 256 % 256 = b at hb
  generalize f / 65536 % 256 = c at hc
  generalize f / 16777216 % 256 = d at hd
  refine ⟨?_, ?_, ?_, ?_⟩ <;> omega

theorem byte_reverse32_invol (f : Nat) (h : f < 2 ^ 32) :
    byte_reverse32 (byte_reverse32 f) = f := by
  have hf := word_bytes f h
  have ha : f % 256 < 256 := Nat.mod_lt _ (by decide)
  have hb : f / 256 % 256 < 256 := Nat.mod_lt _ (by decide)
  have hc : f / 65536 % 256 < 256 := Nat.mod_lt _ (by decide)
  have hd : f / 16777216 % 256 < 256 := Nat.mod_lt _ (by decide)
  generalize f % 256 = a at hf ha
  generalize f / 256 % 256 = b at hf hb
  generalize f / 65536 % 256 = c at hf hc
  generalize f / 16777216 % 256 = d at hf hd
  rw [hf, byte_reverse32_bytes a b c d ha hb hc hd]
  have := byte_reverse32_bytes d c b a hd hc hb ha
  rw [this]

/-- The reversal of four bytes reads only the four low bytes. -/
theorem byte_reverse32_low (lo hi : Nat) :
    byte_reverse32 (lo + hi * 4294967296) = byte_reverse32 lo := by
  rw [byte_reverse32_eq, byte_reverse32_eq]
  have h1 : (lo + hi * 4294967296) % 256 = lo % 256 := by omega
  have h2 : (lo + hi * 4294967296) / 256 % 256 = lo / 256 % 256 := by omega
  have h3 : (lo + hi * 4294967296) / 65536 % 256 = lo / 65536 % 256 := by omega
  have h4 : (lo + hi * 4294967296) / 16777216 % 256 = lo / 16777216 % 256 := by omega
  rw [h1, h2, h3, h4]

/-- The reversal of eight bytes, by halves. -/
theorem byte_reverse64_halves (lo hi : Nat) (hlo : lo < 2 ^ 32) :
    byte_reverse64 (lo + hi * 4294967296)
      = byte_reverse32 lo * 4294967296 + byte_reverse32 hi := by
  have e : byte_reverse64 (lo + hi * 4294967296)
      = ((byte_reverse32 (lo + hi * 4294967296) <<< 32) % 2 ^ 64)
        ||| byte_reverse32 ((lo + hi * 4294967296) >>> 32) := rfl
  rw [e, byte_reverse32_low, Nat.shiftLeft_eq, Nat.shiftRight_eq_div_pow]
  have h1 : (lo + hi * 4294967296) / 2 ^ 32 = hi := by omega
  rw [h1]
  have b1 := byte_reverse32_lt lo
  have b2 := byte_reverse32_lt hi
  have h2 : byte_reverse32 lo * 2 ^ 32 % 2 ^ 64 = 2 ^ 32 * byte_reverse32 lo := by omega
  rw [h2, ← Nat.mul_add_lt_is_or b2]
  omega

theorem byte_reverse64_lt (lo hi : Nat) (hlo : lo < 2 ^ 32) :
    byte_reverse64 (lo + hi * 4294967296) < 2 ^ 64 := by
  rw [byte_reverse64_halves lo hi hlo]
  have b1 := byte_reverse32_lt lo
  have b2 := byte_reverse32_lt hi
  omega

theorem byte_reverse64_invol (f : Nat) (h : f < 2 ^ 64) :
    byte_reverse64 (byte_reverse64 f) = f := by
  have hf : f = f % 4294967296 + f / 4294967296 * 4294967296 := by omega
  have hlo : f % 4294967296 < 2 ^ 32 := by omega
  have hhi : f / 4294967296 < 2 ^ 32 := by omega
  generalize f % 4294967296 = lo at hf hlo
  generalize f / 4294967296 = hi at hf hhi
  rw [hf, byte_reverse64_halves lo hi hlo]
  have b2 := byte_reverse32_lt hi
  have e : byte_reverse32 lo * 4294967296 + byte_reverse32 hi
      = byte_reverse32 hi + byte_reverse32 lo * 4294967296 := by omega
  rw [e, byte_reverse64_halves _ _ b2, byte_reverse32_invol lo hlo, byte_reverse32_invol hi hhi]
  omega

/-! ## Lemmas on words and bytes -/

theorem bigEndianBytes_four (x : Nat) :
    bigEndianBytes 4 x = [x / 16777216 % 256, x / 65536 % 256, x / 256 % 256, x % 256] := by
  simp [bigEndianBytes, List.range, List.range.loop]

theorem littleEndianBytes_four (x : Nat) :
    littleEndianBytes 4 x = [x % 256, x / 256 % 256, x / 65536 % 256, x / 16777216 % 256] := by
  simp [littleEndianBytes, List.range, List.range.loop]

theorem bigEndianBytes_eight (d : Nat) :
    bigEndianBytes 8 d
      = bigEndianBytes 4 (d / 4294967296) ++ bigEndianBytes 4 (d % 4294967296) := by
  rw [bigEndianBytes_four, bigEndianBytes_four]
  simp only [bigEndianBytes, List.range, List.range.loop, List.map_cons, List.map_nil,
    List.cons_append, List.nil_append]
  norm_num
  omega

theorem littleEndianBytes_eight (d : Nat) :
    littleEndianBytes 8 d
      = littleEndianBytes 4 (d % 4294967296) ++ littleEndianBytes 4 (d / 4294967296) := by
  rw [littleEndianBytes_four, littleEndianBytes_four]
  simp only [littleEndianBytes, List.range, List.range.loop, List.map_cons, List.map_nil,
    List.cons_append, List.nil_append]
  norm_num
  omega

/-- The bytes of the word `ntohl` yields are the big-endian bytes of its argument:
`htonl` puts a word in network order. -/
theorem bytesOfWord_ntohl (M : Machine) (x : Nat) :
    bytesOfWord M (ntohl M x) = bigEndianBytes 4 x := by
  rw [bigEndianBytes_four]
  unfold bytesOfWord ntohl
  cases M.bigEndian
  · obtain ⟨h1, h2, h3, h4⟩ := byte_reverse32_digits x
    simp [h1, h2, h3, h4]
  · simp

/-- The bytes of the word the little-endian converters yield are the
little-endian bytes of the argument. -/
theorem bytesOfWord_ntohl_reverse (M : Machine) (x : Nat) :
    bytesOfWord M (ntohl M (byte_reverse32 x)) = littleEndianBytes 4 x := by
  rw [bytesOfWord_ntohl, bigEndianBytes_four, littleEndianBytes_four]
  obtain ⟨h1, h2, h3, h4⟩ := byte_reverse32_digits x
  rw [h1, h2, h3, h4]

/-- Any host reads the value of a word from its big-endian bytes with `ntohl`. -/
theorem ntohl_wordOfBytes (M : Machine) (x : Nat) (hx : x < 2 ^ 32) :
    ntohl M (wordOfBytes M (x / 16777216 % 256) (x / 65536 % 256) (x / 256 % 256) (x % 256))
      = x := by
  unfold ntohl wordOfBytes
  cases M.bigEndian
  · simp only [Bool.false_eq_true, if_false]
    have h := byte_reverse32_bytes (x / 16777216 % 256) (x / 65536 % 256) (x / 256 % 256)
      (x % 256) (Nat.mod_lt _ (by decide)) (Nat.mod_lt _ (by decide))
      (Nat.mod_lt _ (by decide)) (Nat.mod_lt _ (by decide))
    have e : x / 16777216 % 256 + x / 65536 % 256 * 256 + x / 256 % 256 * 65536
          + x % 256 * 16777216
        = x / 16777216 % 256 + 256 * (x / 65536 % 256) + 65536 * (x / 256 % 256)
          + 16777216 * (x % 256) := by omega
    rw [e, h]
    omega
  · simp only [if_true]
    omega

/-- Any host reads the value of a word from its little-endian bytes with the
reversal followed by `ntohl`. -/
theorem ntohl_reverse_wordOfBytes (M : Machine) (x : Nat) (hx : x < 2 ^ 32) :
    ntohl M (byte_reverse32
        (wordOfBytes M (x % 256) (x / 256 % 256) (x / 65536 % 256) (x / 16777216 % 256)))
      = x := by
  unfold ntohl wordOfBytes
  cases M.bigEndian
  · simp only [Bool.false_eq_true, if_false]
    have e : x % 256 + x / 256 % 256 * 256 + x / 65536 % 256 * 65536
        + x / 16777216 % 256 * 16777216 = x := by omega
    rw [e, byte_reverse32_invol x hx]
  · simp only [if_true]
    have h := byte_reverse32_bytes (x / 16777216 % 256) (x / 65536 % 256) (x / 256 % 256)
      (x % 256) (Nat.mod_lt _ (by decide)) (Nat.mod_lt _ (by decide))
      (Nat.mod_lt _ (by decide)) (Nat.mod_lt _ (by decide))
    have e : x % 256 * 16777216 + x / 256 % 256 * 65536 + x / 65536 % 256 * 256
          + x / 16777216 % 256
        = x / 16777216 % 256 + 256 * (x / 65536 % 256) + 65536 * (x / 256 % 256)
          + 16777216 * (x % 256) := by omega
    rw [e, h]
    omega

theorem wordsOfBytes_bigEndian (M : Machine) (x : Nat) (rest : List Nat) :
    wordsOfBytes M (bigEndianBytes 4 x ++ rest)
      = wordOfBytes M (x / 16777216 % 256) (x / 65536 % 256) (x / 256 % 256) (x % 256)
        :: wordsOfBytes M rest := by
  rw [bigEndianBytes_four]
  rfl

theorem wordsOfBytes_littleEndian (M : Machine) (x : Nat) (rest : List Nat) :
    wordsOfBytes M (littleEndianBytes 4 x ++ rest)
      = wordOfBytes M (x % 256) (x / 256 % 256) (x / 65536 % 256) (x / 16777216 % 256)
        :: wordsOfBytes M rest := by
  rw [littleEndianBytes_four]
  rfl

/-! ## Lemmas on 64-bit values -/

theorem wordOfBytes_lt (M : Machine) (b0 b1 b2 b3 : Nat) (h0 : b0 < 256) (h1 : b1 < 256)
    (h2 : b2 < 256) (h3 : b3 < 256) : wordOfBytes M b0 b1 b2 b3 < 2 ^ 32 := by
  unfold wordOfBytes
  cases M.bigEndian
  · simp only [Bool.false_eq_true, if_false]
    omega
  · simp only [if_true]
    omega

theorem ntohl_lt (M : Machine) (x : Nat) (hx : x < 2 ^ 32) : ntohl M x < 2 ^ 32 := by
  unfold ntohl
  cases M.bigEndian
  · exact byte_reverse32_lt x
  · exact hx

theorem ntohl_ntohl (M : Machine) (x : Nat) (hx : x < 2 ^ 32) : ntohl M (ntohl M x) = x := by
  unfold ntohl
  cases M.bigEndian
  · exact byte_reverse32_invol x hx
  · rfl

/-- The words that hold the network-order form of a 64-bit value. -/
theorem store64_ntohll (M : Machine) (d : Nat) (hd : d < 2 ^ 64) :
    store64 M (Grid_ntohll M d) = [ntohl M (d / 4294967296), ntohl M (d % 4294967296)] := by
  unfold store64 Grid_ntohll ntohl
  cases M.bigEndian
  · simp only [Bool.false_eq_true, if_false]
    have hf : d = d % 4294967296 + d / 4294967296 * 4294967296 := by omega
    have hlo : d % 4294967296 < 2 ^ 32 := by omega
    generalize d % 4294967296 = lo at hf hlo
    generalize d / 4294967296 = hi at hf
    rw [hf, byte_reverse64_halves lo hi hlo]
    have b1 := byte_reverse32_lt lo
    have b2 := byte_reverse32_lt hi
    have e1 : (byte_reverse32 lo * 4294967296 + byte_reverse32 hi) % 4294967296
        = byte_reverse32 hi := by omega
    have e2 : (byte_reverse32 lo * 4294967296 + byte_reverse32 hi) / 4294967296 % 4294967296
        = byte_reverse32 lo := by omega
    rw [e1, e2]
  · simp only [if_true]
    have e : d / 4294967296 % 4294967296 = d / 4294967296 := by omega
    rw [e]

/-- The words that hold the form of a 64-bit value the little-endian converter
yields. -/
theorem store64_ntohll_reverse (M : Machine) (d : Nat) (hd : d < 2 ^ 64) :
    store64 M (Grid_ntohll M (byte_reverse64 d))
      = [ntohl M (byte_reverse32 (d % 4294967296)),
         ntohl M (byte_reverse32 (d / 4294967296))] := by
  have hf : d = d % 4294967296 + d / 4294967296 * 4294967296 := by omega
  have hlo : d % 4294967296 < 2 ^ 32 := by omega
  have hhi : d / 4294967296 < 2 ^ 32 := by omega
  unfold store64 Grid_ntohll ntohl
  cases M.bigEndian
  · simp only [Bool.false_eq_true, if_false]
    rw [byte_reverse64_invol d hd, byte_reverse32_invol _ hlo, byte_reverse32_invol _ hhi]
    have e : d / 4294967296 % 4294967296 = d / 4294967296 := by omega
    rw [e]
  · simp only [if_true]
    generalize d % 4294967296 = lo at hf hlo
    generalize d / 4294967296 = hi at hf hhi
    rw [hf, byte_reverse64_halves lo hi hlo]
    have b1 := byte_reverse32_lt lo
    have b2 := byte_reverse32_lt hi
    have e1 : (byte_reverse32 lo * 4294967296 + byte_reverse32 hi) % 4294967296
        = byte_reverse32 hi := by omega
    have e2 : (byte_reverse32 lo * 4294967296 + byte_reverse32 hi) / 4294967296 % 4294967296
        = byte_reverse32 lo := by omega
    rw [e1, e2]

/-- The network-order form of the 64-bit value held by two words. -/
theorem ntohll_load64 (M : Machine) (a b : Nat) (ha : a < 2 ^ 32) :
    Grid_ntohll M (load64 M a b) = ntohl M a * 4294967296 + ntohl M b := by
  unfold Grid_ntohll load64 ntohl
  cases M.bigEndian
  · simp only [Bool.false_eq_true, if_false]
    exact byte_reverse64_halves a b ha
  · simp only [if_true]

/-- The value the little-endian converter yields from two words. -/
theorem ntohll_reverse_load64 (M : Machine) (a b : Nat) (ha : a < 2 ^ 32) (hb : b < 2 ^ 32) :
    Grid_ntohll M (byte_reverse64 (load64 M a b))
      = ntohl M (byte_reverse32 a) + ntohl M (byte_reverse32 b) * 4294967296 := by
  unfold Grid_ntohll load64 ntohl
  cases M.bigEndian
  · simp only [Bool.false_eq_true, if_false]
    rw [byte_reverse64_invol _ (by omega), byte_reverse32_invol a ha, byte_reverse32_invol b hb]
  · simp only [if_true]
    have e : a * 4294967296 + b = b + a * 4294967296 := by omega
    rw [e, byte_reverse64_halves b a hb]
    omega

/-- A 64-bit value stored and loaded again. -/
theorem load64_store64 (M : Machine) (d : Nat) (hd : d < 2 ^ 64) :
    ∃ a b, store64 M d = [a, b] ∧ a < 2 ^ 32 ∧ b < 2 ^ 32 ∧ load64 M a b = d := by
  unfold store64 load64
  cases M.bigEndian
  · refine ⟨d % 4294967296, d / 4294967296 % 4294967296, ?_, ?_, ?_, ?_⟩
    · simp
    · omega
    · omega
    · simp only [Bool.false_eq_true, if_false]
      omega
  · refine ⟨d / 4294967296 % 4294967296, d % 4294967296, ?_, ?_, ?_, ?_⟩
    · simp
    · omega
    · omega
    · simp only [if_true]
      omega

theorem store64_load64 (M : Machine) (a b : Nat) (ha : a < 2 ^ 32) (hb : b < 2 ^ 32) :
    store64 M (load64 M a b) = [a, b] := by
  unfold store64 load64
  cases M.bigEndian
  · simp only [Bool.false_eq_true, if_false]
    have e1 : (a + b * 4294967296) % 4294967296 = a := by omega
    have e2 : (a + b * 4294967296) / 4294967296 % 4294967296 = b := by omega
    rw [e1, e2]
  · simp only [if_true]
    have e1 : (a * 4294967296 + b) % 4294967296 = b := by omega
    have e2 : (a * 4294967296 + b) / 4294967296 % 4294967296 = a := by omega
    rw [e1, e2]

theorem load64_lt (M : Machine) (a b : Nat) (ha : a < 2 ^ 32) (hb : b < 2 ^ 32) :
    load64 M a b < 2 ^ 64 := by
  unfold load64
  cases M.bigEndian
  · simp only [Bool.false_eq_true, if_false]
    omega
  · simp only [if_true]
    omega

/-! ## Lemmas on the converters applied to one value -/

theorem be32toh_v_one (M : Machine) (x : Nat) : be32toh_v M [x] 4 = [ntohl M x] := rfl

theorem le32toh_v_one (M : Machine) (x : Nat) :
    le32toh_v M [x] 4 = [ntohl M (byte_reverse32 x)] := rfl

theorem be64toh_v_one (M : Machine) (a b : Nat) :
    be64toh_v M [a, b] 8 = store64 M (Grid_ntohll M (load64 M a b)) := by
  show store64 M (Grid_ntohll M (load64 M a b)) ++ [] = _
  rw [List.append_nil]

theorem le64toh_v_one (M : Machine) (a b : Nat) :
    le64toh_v M [a, b] 8 = store64 M (Grid_ntohll M (byte_reverse64 (load64 M a b))) := by
  show store64 M (Grid_ntohll M (byte_reverse64 (load64 M a b))) ++ [] = _
  rw [List.append_nil]

theorem hostToFile_be32 (M : Machine) (ws : List Nat) (n : Nat) :
    hostToFile M "IEEE32BIG" ws n = htobe32_v M ws n := by
  simp [hostToFile]

theorem hostToFile_le32 (M : Machine) (ws : List Nat) (n : Nat) :
    hostToFile M "IEEE32" ws n = htole32_v M ws n := by
  simp [hostToFile]

theorem hostToFile_be64 (M : Machine) (ws : List Nat) (n : Nat) :
    hostToFile M "IEEE64BIG" ws n = htobe64_v M ws n := by
  simp [hostToFile]

theorem hostToFile_le64 (M : Machine) (ws : List Nat) (n : Nat) :
    hostToFile M "IEEE64" ws n = htole64_v M ws n := by
  simp [hostToFile]

theorem fileToHost_be32 (M : Machine) (ws : List Nat) (n : Nat) :
    fileToHost M "IEEE32BIG" ws n = be32toh_v M ws n := by
  simp [fileToHost]

theorem fileToHost_le32 (M : Machine) (ws : List Nat) (n : Nat) :
    fileToHost M "IEEE32" ws n = le32toh_v M ws n := by
  simp [fileToHost]

theorem fileToHost_be64 (M : Machine) (ws : List Nat) (n : Nat) :
    fileToHost M "IEEE64BIG" ws n = be64toh_v M ws n := by
  simp [fileToHost]

theorem fileToHost_le64 (M : Machine) (ws : List Nat) (n : Nat) :
    fileToHost M "IEEE64" ws n = le64toh_v M ws n := by
  simp [fileToHost]

theorem bytesOfWords_pair (M : Machine) (a b : Nat) :
    bytesOfWords M [a, b] = bytesOfWord M a ++ bytesOfWord M b := by
  simp [bytesOfWords]

theorem bytesOfWords_one (M : Machine) (a : Nat) :
    bytesOfWords M [a] = bytesOfWord M a ++ [] := by
  simp [bytesOfWords]

theorem wordsOfBytes_nil (M : Machine) : wordsOfBytes M [] = [] := rfl

/-- One 32-bit value written under the tag IEEE32BIG and read by any host. -/
theorem word_be32 (M1 M2 : Machine) (v : Nat) (hv : v < 2 ^ 32) :
    bytesOfWords M1 (hostToFile M1 "IEEE32BIG" [v] 4) = bigEndianBytes 4 v
      ∧ fileToHost M2 "IEEE32BIG"
          (wordsOfBytes M2 (bytesOfWords M1 (hostToFile M1 "IEEE32BIG" [v] 4))) 4 = [v] := by
  have e : bytesOfWords M1 (hostToFile M1 "IEEE32BIG" [v] 4) = bigEndianBytes 4 v ++ [] := by
    rw [hostToFile_be32]
    show bytesOfWords M1 [ntohl M1 v] = _
    rw [bytesOfWords_one, bytesOfWord_ntohl]
  refine ⟨by rw [e, List.append_nil], ?_⟩
  rw [e, wordsOfBytes_bigEndian, wordsOfBytes_nil, fileToHost_be32, be32toh_v_one,
    ntohl_wordOfBytes M2 v hv]

/-- One 32-bit value written under the tag IEEE32 and read by any host. -/
theorem word_le32 (M1 M2 : Machine) (v : Nat) (hv : v < 2 ^ 32) :
    bytesOfWords M1 (hostToFile M1 "IEEE32" [v] 4) = littleEndianBytes 4 v
      ∧ fileToHost M2 "IEEE32"
          (wordsOfBytes M2 (bytesOfWords M1 (hostToFile M1 "IEEE32" [v] 4))) 4 = [v] := by
  have e : bytesOfWords M1 (hostToFile M1 "IEEE32" [v] 4) = littleEndianBytes 4 v ++ [] := by
    rw [hostToFile_le32]
    show bytesOfWords M1 [ntohl M1 (byte_reverse32 v)] = _
    rw [bytesOfWords_one, bytesOfWord_ntohl_reverse]
  refine ⟨by rw [e, List.append_nil], ?_⟩
  rw [e, wordsOfBytes_littleEndian, wordsOfBytes_nil, fileToHost_le32, le32toh_v_one,
    ntohl_reverse_wordOfBytes M2 v hv]

/-- One 64-bit value written under the tag IEEE64BIG and read by any host. -/
theorem word_be64 (M1 M2 : Machine) (d : Nat) (hd : d < 2 ^ 64) :
    bytesOfWords M1 (hostToFile M1 "IEEE64BIG" (store64 M1 d) 8) = bigEndianBytes 8 d
      ∧ fileToHost M2 "IEEE64BIG"
          (wordsOfBytes M2 (bytesOfWords M1 (hostToFile M1 "IEEE64BIG" (store64 M1 d) 8))) 8
        = store64 M2 d := by
  have hlo : d % 4294967296 < 2 ^ 32 := by omega
  have hhi : d / 4294967296 < 2 ^ 32 := by omega
  have e : bytesOfWords M1 (hostToFile M1 "IEEE64BIG" (store64 M1 d) 8)
      = bigEndianBytes 4 (d / 4294967296) ++ (bigEndianBytes 4 (d % 4294967296) ++ []) := by
    obtain ⟨a, b, hs, _, _, hl⟩ := load64_store64 M1 d hd
    rw [hostToFile_be64, hs]
    show bytesOfWords M1 (be64toh_v M1 [a, b] 8) = _
    rw [be64toh_v_one, hl, store64_ntohll M1 d hd, bytesOfWords_pair, bytesOfWord_ntohl,
      bytesOfWord_ntohl, List.append_nil]
  refine ⟨by rw [e, List.append_nil, bigEndianBytes_eight], ?_⟩
  rw [e, wordsOfBytes_bigEndian, wordsOfBytes_bigEndian, wordsOfBytes_nil, fileToHost_be64,
    be64toh_v_one, ntohll_load64 M2 _ _ (wordOfBytes_lt M2 _ _ _ _ (Nat.mod_lt _ (by decide))
      (Nat.mod_lt _ (by decide)) (Nat.mod_lt _ (by decide)) (Nat.mod_lt _ (by decide))),
    ntohl_wordOfBytes M2 _ hhi, ntohl_wordOfBytes M2 _ hlo]
  congr 1
  omega

/-- One 64-bit value written under the tag IEEE64 and read by any host. -/
theorem word_le64 (M1 M2 : Machine) (d : Nat) (hd : d < 2 ^ 64) :
    bytesOfWords M1 (hostToFile M1 "IEEE64" (store64 M1 d) 8) = littleEndianBytes 8 d
      ∧ fileToHost M2 "IEEE64"
          (wordsOfBytes M2 (bytesOfWords M1 (hostToFile M1 "IEEE64" (store64 M1 d) 8))) 8
        = store64 M2 d := by
  have hlo : d % 4294967296 < 2 ^ 32 := by omega
  have hhi : d / 4294967296 < 2 ^ 32 := by omega
  have e : bytesOfWords M1 (hostToFile M1 "IEEE64" (store64 M1 d) 8)
      = littleEndianBytes 4 (d % 4294967296)
        ++ (littleEndianBytes 4 (d / 4294967296) ++ []) := by
    obtain ⟨a, b, hs, _, _, hl⟩ := load64_store64 M1 d hd
    rw [hostToFile_le64, hs]
    show bytesOfWords M1 (le64toh_v M1 [a, b] 8) = _
    rw [le64toh_v_one, hl, store64_ntohll_reverse M1 d hd, bytesOfWords_pair,
      bytesOfWord_ntohl_reverse, bytesOfWord_ntohl_reverse, List.append_nil]
  refine ⟨by rw [e, List.append_nil, littleEndianBytes_eight], ?_⟩
  rw [e, wordsOfBytes_littleEndian, wordsOfBytes_littleEndian, wordsOfBytes_nil,
    fileToHost_le64, le64toh_v_one,
    ntohll_reverse_load64 M2 _ _
      (wordOfBytes_lt M2 _ _ _ _ (Nat.mod_lt _ (by decide))
        (Nat.mod_lt _ (by decide)) (Nat.mod_lt _ (by decide)) (Nat.mod_lt _ (by decide)))
      (wordOfBytes_lt M2 _ _ _ _ (Nat.mod_lt _ (by decide))
        (Nat.mod_lt _ (by decide)) (Nat.mod_lt _ (by decide)) (Nat.mod_lt _ (by decide))),
    ntohl_reverse_wordOfBytes M2 _ hlo, ntohl_reverse_wordOfBytes M2 _ hhi]
  congr 1
  omega

/-! ## Lemmas on the file and on IOobject -/

theorem wordOfBytes_bytesOfWord (M : Machine) (w : Nat) (hw : w < 2 ^ 32) (rest : List Nat) :
    wordsOfBytes M (bytesOfWord M w ++ rest) = w :: wordsOfBytes M rest := by
  unfold bytesOfWord
  cases h : M.bigEndian
  · simp only [Bool.false_eq_true, if_false, List.cons_append, List.nil_append, wordsOfBytes,
      wordOfBytes, h]
    congr 1
    omega
  · simp only [if_true, List.cons_append, List.nil_append, wordsOfBytes, wordOfBytes, h]
    congr 1
    omega

theorem wordsOfBytes_bytesOfWords (M : Machine) (ws : List Nat) (hw : ∀ w ∈ ws, w < 2 ^ 32) :
    wordsOfBytes M (bytesOfWords M ws) = ws := by
  induction ws with
  | nil => rfl
  | cons x t ih =>
    have e : bytesOfWords M (x :: t) = bytesOfWord M x ++ bytesOfWords M t := by
      simp [bytesOfWords]
    rw [e, wordOfBytes_bytesOfWord M x (hw x (List.mem_cons_self _ _)),
      ih (fun w h => hw w (List.mem_cons_of_mem _ h))]

theorem bytesOfWords_length (M : Machine) (ws : List Nat) :
    (bytesOfWords M ws).length = 4 * ws.length := by
  induction ws with
  | nil => rfl
  | cons x t ih =>
    have e : bytesOfWords M (x :: t) = bytesOfWord M x ++ bytesOfWords M t := by
      simp [bytesOfWords]
    have e2 : (bytesOfWord M x).length = 4 := by
      unfold bytesOfWord
      cases M.bigEndian <;> rfl
    rw [e, List.length_append, ih, e2, List.length_cons]
    omega

/-- The bytes written at a position are the bytes read there. -/
theorem readAt_writeAt (file : List Nat) (pos : Nat) (bytes : List Nat) :
    readAt (writeAt file pos bytes) pos bytes.length = some bytes := by
  unfold readAt writeAt
  have hl : (List.take pos file ++ List.replicate (pos - file.length) 0).length = pos := by
    rw [List.length_append, List.length_take, List.length_replicate]
    omega
  generalize List.take pos file ++ List.replicate (pos - file.length) 0 = pre at hl
  have hle : pos + bytes.length
      ≤ (pre ++ bytes ++ List.drop (pos + bytes.length) file).length := by
    simp only [List.length_append, hl]
    omega
  rw [if_pos hle]
  congr 1
  rw [List.append_assoc, ← hl, List.drop_left, List.take_left]

theorem be32toh_loop_all (M : Machine) (n : Nat) (ws : List Nat) (h : ws.length ≤ n) :
    be32toh_loop M n ws = ws.map (ntohl M) := by
  induction ws generalizing n with
  | nil => cases n <;> rfl
  | cons x t ih =>
    cases n with
    | zero => simp at h
    | succ m =>
      show ntohl M x :: be32toh_loop M m t = _
      rw [ih m (by simpa using h)]
      rfl

/-- A call of `IOobject` that only writes, by a single process. -/
theorem IOobject_write (M : Machine) (grid : GridBase) (size32 : Nat) (iodata file : List Nat)
    (offset : Nat) (format : String) (schedule : List (List Nat))
    (hsize : grid.lSites = iodata.length / size32) :
    IOobject M grid size32 iodata file offset format (BINARYIO_WRITE ||| 0) schedule []
      = some
        { iodata := hostToFile M format iodata (4 * size32 * (iodata.length / size32))
          file := writeAt file (offset + grid.ThisRank * grid.lSites * (4 * size32))
            (bytesOfWords M
              (hostToFile M format iodata (4 * size32 * (iodata.length / size32))))
          csum := Uint32Checksum M grid size32 iodata schedule ⟨0, 0, 0⟩ } := by
  have c1 : (BINARYIO_WRITE ||| 0) &&& BINARYIO_MASTER_APPEND = 0 := by decide
  have c2 : (BINARYIO_WRITE ||| 0) &&& BINARYIO_READ = 0 := by decide
  have c3 : (BINARYIO_WRITE ||| 0) &&& BINARYIO_WRITE ≠ 0 := by decide
  have c4 : (BINARYIO_WRITE ||| 0) &&& BINARYIO_LEXICOGRAPHIC = 0 := by decide
  simp only [IOobject, ioWrite, c1, c2, c3, c4, hsize, ne_eq, not_true_eq_false, if_false,
    not_false_eq_true, if_true, false_and, globalReduce, List.foldl_nil]

/-- A call of `IOobject` that only reads, by a single process, when the file is
long enough. -/
theorem IOobject_read (M : Machine) (grid : GridBase) (size32 : Nat) (iodata file : List Nat)
    (offset : Nat) (format : String) (schedule : List (List Nat)) (bytes : List Nat)
    (hsize : grid.lSites = iodata.length / size32)
    (hread : readAt file (offset + grid.ThisRank * grid.lSites * (4 * size32))
      (iodata.length / size32 * (4 * size32)) = some bytes) :
    IOobject M grid size32 iodata file offset format (BINARYIO_READ ||| 0) schedule []
      = some
        { iodata := fileToHost M format (wordsOfBytes M bytes)
            (4 * size32 * (iodata.length / size32))
          file := file
          csum := Uint32Checksum M grid size32
            (fileToHost M format (wordsOfBytes M bytes)
              (4 * size32 * (iodata.length / size32))) schedule ⟨0, 0, 0⟩ } := by
  have c1 : (BINARYIO_READ ||| 0) &&& BINARYIO_MASTER_APPEND = 0 := by decide
  have c2 : (BINARYIO_READ ||| 0) &&& BINARYIO_READ ≠ 0 := by decide
  have c3 : (BINARYIO_READ ||| 0) &&& BINARYIO_WRITE = 0 := by decide
  have c4 : (BINARYIO_READ ||| 0) &&& BINARYIO_LEXICOGRAPHIC = 0 := by decide
  rw [hsize] at hread
  simp only [IOobject, ioRead, c1, c2, c3, c4, hsize, hread, ne_eq, not_true_eq_false,
    if_false, not_false_eq_true, if_true, false_and, globalReduce, List.foldl_nil]

/-- The additive checksum of a buffer of `lsites` objects is the sum of its words
modulo 2^32. -/
theorem nersc_of_valid (M : Machine) (grid : GridBase) (size32 : Nat) (fbuf : List Nat)
    (schedule : List (List Nat)) (hs : ValidSchedule grid.lSites schedule)
    (hlen : fbuf.length = grid.lSites * size32) :
    (Uint32Checksum M grid size32 fbuf schedule ⟨0, 0, 0⟩).nersc_csum = fbuf.sum % 2 ^ 32 := by
  have e1 := checksum_nersc M grid size32 fbuf schedule ⟨0, 0, 0⟩
  have e2 := checksum_nersc_lt M grid size32 fbuf schedule ⟨0, 0, 0⟩ (by decide)
  have e3 : (schedule.flatten.map (siteSum size32 fbuf)).sum
      = ((List.range grid.lSites).map (siteSum size32 fbuf)).sum :=
    List.Perm.sum_eq (List.Perm.map _ hs)
  rw [← Nat.mod_eq_of_lt e2, e1, e3, sites_sum size32 grid.lSites fbuf hlen]
  simp

theorem validSchedule_single (n : Nat) : ValidSchedule n [List.range n] := by
  unfold ValidSchedule
  rw [List.flatten_cons, List.flatten_nil, List.append_nil]

/-- A buffer of one-word objects whose size in bytes is a multiple of 2^32, written
under the tag IEEE32BIG by a little-endian host and read back: the write
converts no word, the read converts every word. -/
theorem writeThenRead_truncated (M : Machine) (hM : M.bigEndian = false) (grid : GridBase)
    (data file : List Nat) (offset : Nat) (schedule : List (List Nat))
    (hsize : grid.lSites = data.length) (hw : ∀ w ∈ data, w < 2 ^ 32)
    (hbytes : 4 * data.length % 2 ^ 32 = 0) :
    writeThenRead M grid 1 data file offset "IEEE32BIG" 0 schedule
      = some
        ({ iodata := data
           file := writeAt file (offset + grid.ThisRank * grid.lSites * (4 * 1))
             (bytesOfWords M data)
           csum := Uint32Checksum M grid 1 data schedule ⟨0, 0, 0⟩ },
         { iodata := data.map byte_reverse32
           file := writeAt file (offset + grid.ThisRank * grid.lSites * (4 * 1))
             (bytesOfWords M data)
           csum := Uint32Checksum M grid 1 (data.map byte_reverse32) schedule ⟨0, 0, 0⟩ }) := by
  have hd : data.length / 1 = data.length := Nat.div_one _
  have h1 : hostToFile M "IEEE32BIG" data (4 * 1 * (data.length / 1)) = data := by
    rw [hostToFile_be32, hd]
    unfold htobe32_v be32toh_v
    rw [Nat.mul_one, hbytes]
    rfl
  have h2 : fileToHost M "IEEE32BIG" data (4 * 1 * (data.length / 1))
      = data.map byte_reverse32 := by
    rw [fileToHost_be32, hd]
    unfold be32toh_v
    rw [Nat.mul_one, Nat.mul_div_cancel_left _ (by decide : 0 < 4),
      be32toh_loop_all M _ _ (Nat.le_refl _)]
    apply List.map_congr_left
    intro x _
    unfold ntohl
    rw [hM]
    rfl
  have hs1 : grid.lSites = data.length / 1 := by rw [hd, hsize]
  have hr : readAt (writeAt file (offset + grid.ThisRank * grid.lSites * (4 * 1))
      (bytesOfWords M data)) (offset + grid.ThisRank * grid.lSites * (4 * 1))
      (data.length / 1 * (4 * 1)) = some (bytesOfWords M data) := by
    have e : data.length / 1 * (4 * 1) = (bytesOfWords M data).length := by
      rw [bytesOfWords_length, hd]
      omega
    rw [e, readAt_writeAt]
  unfold writeThenRead
  rw [IOobject_write M grid 1 data file offset "IEEE32BIG" schedule hs1, h1]
  simp only []
  rw [IOobject_read M grid 1 data _ offset "IEEE32BIG" schedule (bytesOfWords M data) hs1 hr,
    wordsOfBytes_bytesOfWords M data hw, h2]

theorem sum_replicate_nat (n a : Nat) : (List.replicate n a).sum = n * a := by
  induction n with
  | zero => simp
  | succ m ih =>
    rw [List.replicate_succ, List.sum_cons, ih, Nat.succ_mul, Nat.add_comm]

theorem replicate_ne (n a b : Nat) (hn : n ≠ 0) (hab : a ≠ b) :
    List.replicate n a ≠ List.replicate n b := by
  intro h
  have h1 : a ∈ List.replicate n a := List.mem_replicate.2 ⟨hn, rfl⟩
  rw [h] at h1
  exact hab (List.mem_replicate.1 h1).2

/-! ## The round trip of buffers below 2^32 bytes -/

theorem byte_reverse64_lt_any (f : Nat) : byte_reverse64 f < 2 ^ 64 := by
  have hf : f = f % 4294967296 + f / 4294967296 * 4294967296 := by omega
  rw [hf]
  exact byte_reverse64_lt _ _ (by omega)

theorem ntohll_facts (M : Machine) (x : Nat) (hx : x < 2 ^ 64) :
    Grid_ntohll M x < 2 ^ 64 ∧ Grid_ntohll M (Grid_ntohll M x) = x := by
  unfold Grid_ntohll
  cases M.bigEndian
  · exact ⟨byte_reverse64_lt_any x, byte_reverse64_invol x hx⟩
  · exact ⟨hx, rfl⟩

theorem ntohll_reverse_facts (M : Machine) (x : Nat) (hx : x < 2 ^ 64) :
    Grid_ntohll M (byte_reverse64 x) < 2 ^ 64
      ∧ Grid_ntohll M (byte_reverse64 (Grid_ntohll M (byte_reverse64 x))) = x := by
  unfold Grid_ntohll
  cases M.bigEndian
  · simp only [Bool.false_eq_true, if_false]
    refine ⟨byte_reverse64_lt_any _, ?_⟩
    rw [byte_reverse64_invol x hx, byte_reverse64_invol x hx]
  · simp only [if_true]
    exact ⟨byte_reverse64_lt_any x, byte_reverse64_invol x hx⟩

theorem ntohl_reverse_facts (M : Machine) (x : Nat) (hx : x < 2 ^ 32) :
    ntohl M (byte_reverse32 x) < 2 ^ 32
      ∧ ntohl M (byte_reverse32 (ntohl M (byte_reverse32 x))) = x := by
  unfold ntohl
  cases M.bigEndian
  · simp only [Bool.false_eq_true, if_false]
    refine ⟨byte_reverse32_lt _, ?_⟩
    rw [byte_reverse32_invol x hx, byte_reverse32_invol x hx]
  · simp only [if_true]
    exact ⟨byte_reverse32_lt x, byte_reverse32_invol x hx⟩

/-- A loop that replaces each of the first `n` words `x` by `E x`, for an
involution `E` of the 32-bit words, undoes itself. -/
theorem loop32_facts (E : Nat → Nat) (L : Nat → List Nat → List Nat)
    (h0 : ∀ f, L 0 f = f) (h1 : ∀ n, L (n + 1) [] = [])
    (h2 : ∀ n x rest, L (n + 1) (x :: rest) = E x :: L n rest)
    (hE : ∀ x, x < 2 ^ 32 → E x < 2 ^ 32 ∧ E (E x) = x) (n : Nat) (ws : List Nat)
    (hws : ∀ w ∈ ws, w < 2 ^ 32) :
    (L n ws).length = ws.length ∧ (∀ w ∈ L n ws, w < 2 ^ 32) ∧ L n (L n ws) = ws := by
  induction n generalizing ws with
  | zero =>
    rw [h0, h0]
    exact ⟨rfl, hws, rfl⟩
  | succ m ih =>
    cases ws with
    | nil =>
      rw [h1, h1]
      exact ⟨rfl, hws, rfl⟩
    | cons x t =>
      have hx := hE x (hws x (List.mem_cons_self _ _))
      obtain ⟨i1, i2, i3⟩ := ih t (fun w h => hws w (List.mem_cons_of_mem _ h))
      rw [h2, h2, i3, hx.2]
      refine ⟨by rw [List.length_cons, List.length_cons, i1], ?_, rfl⟩
      intro w hw
      rcases List.mem_cons.1 hw with h | h
      · rw [h]
        exact hx.1
      · exact i2 w h

/-- A loop that replaces each of the first `n` 64-bit values `x` by `E x`, for an
involution `E` of the 64-bit values, undoes itself. -/
theorem loop64_facts (M : Machine) (E : Nat → Nat) (L : Nat → List Nat → List Nat)
    (h0 : ∀ f, L 0 f = f) (h1 : ∀ n, L (n + 1) [] = []) (h1b : ∀ n a, L (n + 1) [a] = [a])
    (h2 : ∀ n a b rest,
      L (n + 1) (a :: b :: rest) = store64 M (E (load64 M a b)) ++ L n rest)
    (hE : ∀ x, x < 2 ^ 64 → E x < 2 ^ 64 ∧ E (E x) = x) (n : Nat) (ws : List Nat)
    (hws : ∀ w ∈ ws, w < 2 ^ 32) :
    (L n ws).length = ws.length ∧ (∀ w ∈ L n ws, w < 2 ^ 32) ∧ L n (L n ws) = ws := by
  induction n generalizing ws with
  | zero =>
    rw [h0, h0]
    exact ⟨rfl, hws, rfl⟩
  | succ m ih =>
    match ws, hws with
    | [], hws =>
      rw [h1, h1]
      exact ⟨rfl, hws, rfl⟩
    | [a], hws =>
      rw [h1b, h1b]
      exact ⟨rfl, hws, rfl⟩
    | a :: b :: t, hws =>
      have ha : a < 2 ^ 32 := hws a (List.mem_cons_self _ _)
      have hb : b < 2 ^ 32 := hws b (List.mem_cons_of_mem _ (List.mem_cons_self _ _))
      have hx := hE _ (load64_lt M a b ha hb)
      obtain ⟨p, q, hs, hp, hq, hl⟩ := load64_store64 M _ hx.1
      obtain ⟨i1, i2, i3⟩ := ih t
        (fun w h => hws w (List.mem_cons_of_mem _ (List.mem_cons_of_mem _ h)))
      rw [h2, hs]
      show (p :: q :: L m t).length = _ ∧ (∀ w ∈ p :: q :: L m t, w < 2 ^ 32)
        ∧ L (m + 1) (p :: q :: L m t) = _
      rw [h2, hl, hx.2, i3, store64_load64 M a b ha hb]
      refine ⟨by simp only [List.length_cons, i1], ?_, rfl⟩
      intro w hw
      rcases List.mem_cons.1 hw with h | h
      · rw [h]
        exact hp
      · rcases List.mem_cons.1 h with h | h
        · rw [h]
          exact hq
        · exact i2 w h

theorem be32toh_loop_facts (M : Machine) (n : Nat) (ws : List Nat)
    (hws : ∀ w ∈ ws, w < 2 ^ 32) :
    (be32toh_loop M n ws).length = ws.length ∧ (∀ w ∈ be32toh_loop M n ws, w < 2 ^ 32)
      ∧ be32toh_loop M n (be32toh_loop M n ws) = ws :=
  loop32_facts (ntohl M) (be32toh_loop M) (fun _ => rfl) (fun _ => rfl) (fun _ _ _ => rfl)
    (fun x hx => ⟨ntohl_lt M x hx, ntohl_ntohl M x hx⟩) n ws hws

theorem le32toh_loop_facts (M : Machine) (n : Nat) (ws : List Nat)
    (hws : ∀ w ∈ ws, w < 2 ^ 32) :
    (le32toh_loop M n ws).length = ws.length ∧ (∀ w ∈ le32toh_loop M n ws, w < 2 ^ 32)
      ∧ le32toh_loop M n (le32toh_loop M n ws) = ws :=
  loop32_facts (fun x => ntohl M (byte_reverse32 x)) (le32toh_loop M) (fun _ => rfl)
    (fun _ => rfl) (fun _ _ _ => rfl) (fun x hx => ntohl_reverse_facts M x hx) n ws hws

theorem be64toh_loop_facts (M : Machine) (n : Nat) (ws : List Nat)
    (hws : ∀ w ∈ ws, w < 2 ^ 32) :
    (be64toh_loop M n ws).length = ws.length ∧ (∀ w ∈ be64toh_loop M n ws, w < 2 ^ 32)
      ∧ be64toh_loop M n (be64toh_loop M n ws) = ws :=
  loop64_facts M (Grid_ntohll M) (be64toh_loop M) (fun _ => rfl) (fun _ => rfl)
    (fun _ _ => rfl) (fun _ _ _ _ => rfl) (fun x hx => ntohll_facts M x hx) n ws hws

theorem le64toh_loop_facts (M : Machine) (n : Nat) (ws : List Nat)
    (hws : ∀ w ∈ ws, w < 2 ^ 32) :
    (le64toh_loop M n ws).length = ws.length ∧ (∀ w ∈ le64toh_loop M n ws, w < 2 ^ 32)
      ∧ le64toh_loop M n (le64toh_loop M n ws) = ws :=
  loop64_facts M (fun x => Grid_ntohll M (byte_reverse64 x)) (le64toh_loop M) (fun _ => rfl)
    (fun _ => rfl) (fun _ _ => rfl) (fun _ _ _ _ => rfl)
    (fun x hx => ntohll_reverse_facts M x hx) n ws hws

/-- Below 2^32 bytes, the read-side conversion undoes the write-side conversion,
for every format string. -/
theorem fileToHost_hostToFile (M : Machine) (format : String) (ws : List Nat) (n : Nat)
    (hn : n < 2 ^ 32) (hws : ∀ w ∈ ws, w < 2 ^ 32) :
    (hostToFile M format ws n).length = ws.length
      ∧ (∀ w ∈ hostToFile M format ws n, w < 2 ^ 32)
      ∧ fileToHost M format (hostToFile M format ws n) n = ws := by
  by_cases h1 : format = "IEEE32BIG"
  · subst h1
    rw [hostToFile_be32, fileToHost_be32]
    unfold htobe32_v be32toh_v
    rw [Nat.mod_eq_of_lt hn]
    exact be32toh_loop_facts M _ ws hws
  by_cases h2 : format = "IEEE32"
  · subst h2
    rw [hostToFile_le32, fileToHost_le32]
    unfold htole32_v le32toh_v
    rw [Nat.mod_eq_of_lt hn]
    exact le32toh_loop_facts M _ ws hws
  by_cases h3 : format = "IEEE64BIG"
  · subst h3
    rw [hostToFile_be64, fileToHost_be64]
    unfold htobe64_v be64toh_v
    rw [Nat.mod_eq_of_lt hn]
    exact be64toh_loop_facts M _ ws hws
  by_cases h4 : format = "IEEE64"
  · subst h4
    rw [hostToFile_le64, fileToHost_le64]
    unfold htole64_v le64toh_v
    rw [Nat.mod_eq_of_lt hn]
    exact le64toh_loop_facts M _ ws hws
  have e1 : hostToFile M format ws n = ws := by
    simp only [hostToFile, h1, h2, h3, h4, if_false]
  have e2 : fileToHost M format ws n = ws := by
    simp only [fileToHost, h1, h2, h3, h4, if_false]
  rw [e1, e2]
  exact ⟨rfl, hws, rfl⟩

/-- Below 2^32 bytes the round trip holds: for every host, every format, a single
process and a buffer of `lSites` objects of `size32` words, the read that
follows a write at the same offset returns the buffer given to the write and
the checksums of the write. -/
theorem writeThenRead_small (M : Machine) (grid : GridBase) (size32 : Nat)
    (iodata file : List Nat) (offset : Nat) (format : String) (schedule : List (List Nat))
    (hsize32 : 0 < size32) (hlen : iodata.length = grid.lSites * size32)
    (hws : ∀ w ∈ iodata, w < 2 ^ 32) (hbytes : 4 * iodata.length < 2 ^ 32) :
    ∃ w r, writeThenRead M grid size32 iodata file offset format 0 schedule = some (w, r)
      ∧ r.iodata = iodata ∧ r.csum = w.csum := by
  have hdiv : iodata.length / size32 = grid.lSites := by
    rw [hlen]
    exact Nat.mul_div_cancel _ hsize32
  have hn : 4 * size32 * (iodata.length / size32) < 2 ^ 32 := by
    rw [hdiv, Nat.mul_assoc, Nat.mul_comm size32, ← hlen]
    exact hbytes
  obtain ⟨f1, f2, f3⟩ := fileToHost_hostToFile M format iodata _ hn hws
  have hs1 : grid.lSites = iodata.length / size32 := hdiv.symm
  unfold writeThenRead
  rw [IOobject_write M grid size32 iodata file offset format schedule hs1]
  simp only []
  have hs2 : grid.lSites
      = (hostToFile M format iodata (4 * size32 * (iodata.length / size32))).length / size32 := by
    rw [f1]
    exact hs1
  have hr : readAt (writeAt file (offset + grid.ThisRank * grid.lSites * (4 * size32))
        (bytesOfWords M (hostToFile M format iodata (4 * size32 * (iodata.length / size32)))))
      (offset + grid.ThisRank * grid.lSites * (4 * size32))
      ((hostToFile M format iodata (4 * size32 * (iodata.length / size32))).length / size32
        * (4 * size32))
      = some (bytesOfWords M
          (hostToFile M format iodata (4 * size32 * (iodata.length / size32)))) := by
    have e : (hostToFile M format iodata (4 * size32 * (iodata.length / size32))).length
          / size32 * (4 * size32)
        = (bytesOfWords M
            (hostToFile M format iodata (4 * size32 * (iodata.length / size32)))).length := by
      rw [bytesOfWords_length, f1, hdiv, hlen, Nat.mul_left_comm]
    rw [e, readAt_writeAt]
  rw [IOobject_read M grid size32 _ _ offset format schedule _ hs2 hr,
    wordsOfBytes_bytesOfWords M _ f2, f1, f3]
  exact ⟨_, _, rfl, rfl, rfl⟩

/-- The round trip on the sample big-endian host, for four objects of one 64-bit
value under the tag IEEE64, written after three bytes of an existing file. -/
theorem writeThenRead_small_sample :
    ∃ w r, writeThenRead sampleBig sampleGrid 2 [1, 2, 3, 4, 5, 6, 7, 8] [9, 9] 3 "IEEE64" 0
          [[0, 1], [2, 3]] = some (w, r)
      ∧ r.iodata = [1, 2, 3, 4, 5, 6, 7, 8] ∧ r.csum = w.csum :=
  writeThenRead_small sampleBig sampleGrid 2 [1, 2, 3, 4, 5, 6, 7, 8] [9, 9] 3 "IEEE64"
    [[0, 1], [2, 3]] (by decide) (by decide) (by decide) (by decide)

/-! ## Claims on IOobject and on the byte order -/

/-- C14: on a little-endian host, a buffer of 2^30 one-word objects (2^32 bytes) that
hold the value 1, written by `IOobject` under the tag IEEE32BIG and read back
from the same file and offset by a single process, does not come back: the
write converts no word, so the read, which converts every word, returns
16777216 in every word, and the additive checksum of the read is 0 where that
of the write is 1073741824. -/
theorem roundtrip_fails_on_large_buffer (M : Machine) (hM : M.bigEndian = false)
    (file : List Nat) (offset : Nat) (schedule : List (List Nat))
    (hs : ValidSchedule largeGrid.lSites schedule) :
    ∃ w r, writeThenRead M largeGrid 1 (List.replicate 1073741824 1) file offset
          "IEEE32BIG" 0 schedule = some (w, r)
      ∧ w.iodata = List.replicate 1073741824 1
      ∧ r.iodata = List.replicate 1073741824 16777216
      ∧ r.iodata ≠ List.replicate 1073741824 1
      ∧ w.csum.nersc_csum = 1073741824
      ∧ r.csum.nersc_csum = 0 := by
  have hlen : (List.replicate 1073741824 1).length = 1073741824 := List.length_replicate _ _
  have hmap : (List.replicate 1073741824 1).map byte_reverse32
      = List.replicate 1073741824 16777216 := by
    rw [List.map_replicate]
    rfl
  have h := writeThenRead_truncated M hM largeGrid (List.replicate 1073741824 1) file offset
    schedule (by rw [hlen]; rfl)
    (fun w hw => by rw [(List.mem_replicate.1 hw).2]; decide)
    (by rw [hlen]; decide)
  rw [hmap] at h
  refine ⟨_, _, h, rfl, rfl, replicate_ne _ _ _ (by decide) (by decide), ?_, ?_⟩
  · show (Uint32Checksum M largeGrid 1 (List.replicate 1073741824 1) schedule
      ⟨0, 0, 0⟩).nersc_csum = 1073741824
    rw [nersc_of_valid M largeGrid 1 _ schedule hs (by rw [hlen]; rfl), sum_replicate_nat]
    decide
  · show (Uint32Checksum M largeGrid 1 (List.replicate 1073741824 16777216) schedule
      ⟨0, 0, 0⟩).nersc_csum = 0
    rw [nersc_of_valid M largeGrid 1 _ schedule hs (by rw [List.length_replicate]; rfl),
      sum_replicate_nat]
    decide

/-- Witness of C14: the sample little-endian host, an empty file, offset 0 and a
single thread. -/
theorem roundtrip_fails_on_large_buffer_witness :
    ∃ w r, writeThenRead sampleLittle largeGrid 1 (List.replicate 1073741824 1) [] 0
          "IEEE32BIG" 0 [List.range 1073741824] = some (w, r)
      ∧ w.iodata = List.replicate 1073741824 1
      ∧ r.iodata = List.replicate 1073741824 16777216
      ∧ r.iodata ≠ List.replicate 1073741824 1
      ∧ w.csum.nersc_csum = 1073741824
      ∧ r.csum.nersc_csum = 0 :=
  roundtrip_fails_on_large_buffer sampleLittle rfl [] 0 [List.range 1073741824]
    (validSchedule_single 1073741824)

/-- Counterexample to C16: on a little-endian host, under the tag IEEE32BIG, the
write of the words 1, 2, 3, 4 puts the converted words in the file and returns
the additive checksum 10 of the words as given, not the checksum 167772160 of
the words as they stand in the file; the read of that file returns the words
1, 2, 3, 4 and again the checksum 10 of the converted words, not that of the
words as read from the file. -/
theorem checksum_is_not_of_file_words :
    (IOobject sampleLittle sampleGrid 1 [1, 2, 3, 4] [] 0 "IEEE32BIG" BINARYIO_WRITE
        [[0, 1], [2, 3]] []).map (fun r => (r.iodata, r.file, r.csum.nersc_csum))
      = some ([16777216, 33554432, 50331648, 67108864],
          [0, 0, 0, 1, 0, 0, 0, 2, 0, 0, 0, 3, 0, 0, 0, 4], 10)
    ∧ (Uint32Checksum sampleLittle sampleGrid 1 [16777216, 33554432, 50331648, 67108864]
        [[0, 1], [2, 3]] ⟨0, 0, 0⟩).nersc_csum = 167772160
    ∧ (IOobject sampleLittle sampleGrid 1 [0, 0, 0, 0]
        [0, 0, 0, 1, 0, 0, 0, 2, 0, 0, 0, 3, 0, 0, 0, 4] 0 "IEEE32BIG" BINARYIO_READ
        [[0, 1], [2, 3]] []).map (fun r => (r.iodata, r.csum.nersc_csum))
      = some ([1, 2, 3, 4], 10)
    ∧ (Uint32Checksum sampleLittle sampleGrid 1
        (wordsOfBytes sampleLittle [0, 0, 0, 1, 0, 0, 0, 2, 0, 0, 0, 3, 0, 0, 0, 4])
        [[0, 1], [2, 3]] ⟨0, 0, 0⟩).nersc_csum = 167772160 := by
  decide

/-- A call of `IOobject` that only writes and returns has run the write branch on
the buffer and the file as given. -/
theorem IOobject_write_some (M : Machine) (grid : GridBase) (size32 : Nat)
    (iodata file : List Nat) (offset : Nat) (format : String) (control : Nat)
    (schedule : List (List Nat)) (others : List Csums) (res : IoResult)
    (h1 : control &&& BINARYIO_READ = 0) (h2 : control &&& BINARYIO_WRITE ≠ 0)
    (h : IOobject M grid size32 iodata file offset format control schedule others = some res) :
    ∃ st, ioWrite M grid size32 offset format control schedule
          { iodata := iodata, file := file, csum := ⟨0, 0, 0⟩ } = some st
      ∧ res = { st with csum := globalReduce st.csum others } := by
  unfold IOobject at h
  simp only [h1, h2, ne_eq, not_true_eq_false, if_false, not_false_eq_true, if_true] at h
  split at h <;> split at h <;> try (exact absurd h (by simp))
  all_goals
    split at h
    · exact absurd h (by simp)
    · rename_i st hst
      exact ⟨st, hst, (Option.some.inj h).symm⟩

/-- A call of `IOobject` that only reads and returns has run the read branch on
the buffer and the file as given. -/
theorem IOobject_read_some (M : Machine) (grid : GridBase) (size32 : Nat)
    (iodata file : List Nat) (offset : Nat) (format : String) (control : Nat)
    (schedule : List (List Nat)) (others : List Csums) (res : IoResult)
    (h1 : control &&& BINARYIO_READ ≠ 0) (h2 : control &&& BINARYIO_WRITE = 0)
    (h : IOobject M grid size32 iodata file offset format control schedule others = some res) :
    ∃ st, ioRead M grid size32 offset format control schedule
          { iodata := iodata, file := file, csum := ⟨0, 0, 0⟩ } = some st
      ∧ res = { st with csum := globalReduce st.csum others } := by
  unfold IOobject at h
  simp only [h1, h2, ne_eq, not_true_eq_false, if_false, not_false_eq_true, if_true] at h
  split at h <;> split at h <;> try (exact absurd h (by simp))
  all_goals
    split at h
    · exact absurd h (by simp)
    · rename_i st hst
      exact ⟨st, hst, (Option.some.inj h).symm⟩

theorem ioWrite_some (M : Machine) (grid : GridBase) (size32 : Nat) (offset : Nat)
    (format : String) (control : Nat) (schedule : List (List Nat)) (st res : IoResult)
    (h : ioWrite M grid size32 offset format control schedule st = some res) :
    res.csum = Uint32Checksum M grid size32 st.iodata schedule st.csum
      ∧ res.iodata = hostToFile M format st.iodata (4 * size32 * (st.iodata.length / size32))
      ∧ ∃ pos, res.file = writeAt st.file pos (bytesOfWords M res.iodata) := by
  unfold ioWrite at h
  simp only [] at h
  split at h
  · exact absurd h (by simp)
  · have e := Option.some.inj h
    subst e
    exact ⟨rfl, rfl, ⟨_, rfl⟩⟩

theorem ioRead_some (M : Machine) (grid : GridBase) (size32 : Nat) (offset : Nat)
    (format : String) (control : Nat) (schedule : List (List Nat)) (st res : IoResult)
    (h : ioRead M grid size32 offset format control schedule st = some res) :
    res.csum = Uint32Checksum M grid size32 res.iodata schedule st.csum
      ∧ (∃ bytes, res.iodata = fileToHost M format (wordsOfBytes M bytes)
            (4 * size32 * (st.iodata.length / size32)))
      ∧ res.file = st.file := by
  unfold ioRead at h
  simp only [] at h
  split at h
  · exact absurd h (by simp)
  · split at h
    · exact absurd h (by simp)
    · rename_i bytes _
      have e := Option.some.inj h
      subst e
      exact ⟨rfl, ⟨bytes, rfl⟩, rfl⟩

/-- C16: in a call of `IOobject` that only writes, the checksums returned are
those of the buffer as the caller gave it, in host order, and the conversion to
the byte order of the file comes after: the buffer is left converted and its
bytes are what the file receives. In a call that only reads, the conversion to
host order comes first, and the checksums returned are those of the converted
buffer that the call returns. -/
theorem checksum_is_of_host_words (M : Machine) (grid : GridBase) (size32 : Nat)
    (wdata rdata wfile rfile : List Nat) (offset : Nat) (format : String) (cw cr : Nat)
    (schedule : List (List Nat)) (others : List Csums) (w r : IoResult)
    (hw1 : cw &&& BINARYIO_READ = 0) (hw2 : cw &&& BINARYIO_WRITE ≠ 0)
    (hr1 : cr &&& BINARYIO_READ ≠ 0) (hr2 : cr &&& BINARYIO_WRITE = 0)
    (hw : IOobject M grid size32 wdata wfile offset format cw schedule others = some w)
    (hr : IOobject M grid size32 rdata rfile offset format cr schedule others = some r) :
    w.csum = globalReduce (Uint32Checksum M grid size32 wdata schedule ⟨0, 0, 0⟩) others
      ∧ w.iodata = hostToFile M format wdata (4 * size32 * (wdata.length / size32))
      ∧ (∃ pos, w.file = writeAt wfile pos (bytesOfWords M w.iodata))
      ∧ r.csum = globalReduce (Uint32Checksum M grid size32 r.iodata schedule ⟨0, 0, 0⟩) others
      ∧ (∃ bytes, r.iodata = fileToHost M format (wordsOfBytes M bytes)
            (4 * size32 * (rdata.length / size32)))
      ∧ r.file = rfile := by
  obtain ⟨sw, hsw, ew⟩ := IOobject_write_some M grid size32 wdata wfile offset format cw
    schedule others w hw1 hw2 hw
  obtain ⟨sr, hsr, er⟩ := IOobject_read_some M grid size32 rdata rfile offset format cr
    schedule others r hr1 hr2 hr
  obtain ⟨a1, a2, a3⟩ := ioWrite_some M grid size32 offset format cw schedule _ sw hsw
  obtain ⟨b1, b2, b3⟩ := ioRead_some M grid size32 offset format cr schedule _ sr hsr
  subst ew
  subst er
  exact ⟨by rw [a1], a2, a3, by rw [b1], b2, b3⟩

/-- Witness of C16: the write and the read of the counterexample. -/
theorem checksum_is_of_host_words_witness :
    sampleWritten.csum
        = globalReduce (Uint32Checksum sampleLittle sampleGrid 1 [1, 2, 3, 4]
            [[0, 1], [2, 3]] ⟨0, 0, 0⟩) []
      ∧ sampleRead.csum
        = globalReduce (Uint32Checksum sampleLittle sampleGrid 1 sampleRead.iodata
            [[0, 1], [2, 3]] ⟨0, 0, 0⟩) [] :=
  have h := checksum_is_of_host_words sampleLittle sampleGrid 1 [1, 2, 3, 4] [0, 0, 0, 0] []
    [0, 0, 0, 1, 0, 0, 0, 2, 0, 0, 0, 3, 0, 0, 0, 4] 0 "IEEE32BIG" BINARYIO_WRITE
    BINARYIO_READ [[0, 1], [2, 3]] [] sampleWritten sampleRead (by decide) (by decide)
    (by decide) (by decide) (by decide) (by decide)
  ⟨h.1, h.2.2.2.1⟩

/-- C15: for every host `M1` that writes and every host `M2` that reads, of either
byte order: a 32-bit value written under the tag IEEE32BIG (IEEE32) stands in the
file as its four bytes, the most (least) significant first, and the read-side
conversion of these bytes on `M2` yields the value; a 64-bit value written under
the tag IEEE64BIG (IEEE64) stands in the file as its eight bytes, the most
(least) significant first, and the read-side conversion on `M2` yields the two
words that hold the value on `M2`. The bytes in the file do not involve `M1`. -/
theorem disk_bytes_depend_on_tag_only (M1 M2 : Machine) (v d : Nat) (hv : v < 2 ^ 32)
    (hd : d < 2 ^ 64) :
    (bytesOfWords M1 (hostToFile M1 "IEEE32BIG" [v] 4) = bigEndianBytes 4 v
      ∧ fileToHost M2 "IEEE32BIG"
          (wordsOfBytes M2 (bytesOfWords M1 (hostToFile M1 "IEEE32BIG" [v] 4))) 4 = [v])
    ∧ (bytesOfWords M1 (hostToFile M1 "IEEE32" [v] 4) = littleEndianBytes 4 v
      ∧ fileToHost M2 "IEEE32"
          (wordsOfBytes M2 (bytesOfWords M1 (hostToFile M1 "IEEE32" [v] 4))) 4 = [v])
    ∧ (bytesOfWords M1 (hostToFile M1 "IEEE64BIG" (store64 M1 d) 8) = bigEndianBytes 8 d
      ∧ fileToHost M2 "IEEE64BIG"
          (wordsOfBytes M2 (bytesOfWords M1 (hostToFile M1 "IEEE64BIG" (store64 M1 d) 8))) 8
        = store64 M2 d)
    ∧ (bytesOfWords M1 (hostToFile M1 "IEEE64" (store64 M1 d) 8) = littleEndianBytes 8 d
      ∧ fileToHost M2 "IEEE64"
          (wordsOfBytes M2 (bytesOfWords M1 (hostToFile M1 "IEEE64" (store64 M1 d) 8))) 8
        = store64 M2 d) :=
  ⟨word_be32 M1 M2 v hv, word_le32 M1 M2 v hv, word_be64 M1 M2 d hd, word_le64 M1 M2 d hd⟩

/-- Witness of C15: the value 0x0102030405060708 written by the sample little-endian
host under the tag IEEE64BIG and read by the sample big-endian host. -/
theorem disk_bytes_depend_on_tag_only_witness :
    bytesOfWords sampleLittle
        (hostToFile sampleLittle "IEEE64BIG" (store64 sampleLittle 72623859790382856) 8)
        = bigEndianBytes 8 72623859790382856
      ∧ fileToHost sampleBig "IEEE64BIG"
          (wordsOfBytes sampleBig (bytesOfWords sampleLittle
            (hostToFile sampleLittle "IEEE64BIG" (store64 sampleLittle 72623859790382856) 8)))
          8
        = store64 sampleBig 72623859790382856 :=
  (disk_bytes_depend_on_tag_only sampleLittle sampleBig 16909060 72623859790382856
    (by decide) (by decide)).2.2.1

/-! ## Claim on the reversal of bytes -/

/-- The four bytes of the reversed word, by index. -/
theorem byte_reverse32_digit (x k : Nat) (hk : k < 4) :
    byte_reverse32 x / 256 ^ k % 256 = x / 256 ^ (3 - k) % 256 := by
  obtain ⟨a1, a2, a3, a4⟩ := byte_reverse32_digits x
  interval_cases k
  · simpa using a1
  · simpa using a2
  · simpa using a3
  · simpa using a4

/-- The four low bytes of a 64-bit value are the bytes of its low word. -/
theorem low_digit (lo hi k : Nat) (hk : k < 4) :
    (lo + hi * 4294967296) / 256 ^ k % 256 = lo / 256 ^ k % 256 := by
  interval_cases k
  all_goals norm_num
  all_goals omega

/-- The four high bytes of a 64-bit value are the bytes of its high word. -/
theorem high_digit (lo hi k : Nat) (hlo : lo < 2 ^ 32) :
    (lo + hi * 4294967296) / 256 ^ (k + 4) % 256 = hi / 256 ^ k % 256 := by
  have e : (256 : Nat) ^ (k + 4) = 4294967296 * 256 ^ k := by
    rw [Nat.pow_add, Nat.mul_comm]
  rw [e, ← Nat.div_div_eq_div_mul]
  have h : (lo + hi * 4294967296) / 4294967296 = hi := by omega
  rw [h]

/-- The eight bytes of the reversed 64-bit value. -/
theorem byte_reverse64_digits (y : Nat) (k : Nat) (hk : k < 8) :
    byte_reverse64 y / 256 ^ k % 256 = y / 256 ^ (7 - k) % 256 := by
  have hf : y = y % 4294967296 + y / 4294967296 * 4294967296 := by omega
  have hlo : y % 4294967296 < 2 ^ 32 := by omega
  generalize y % 4294967296 = lo at hf hlo
  generalize y / 4294967296 = hi at hf
  rw [hf, byte_reverse64_halves lo hi hlo, Nat.add_comm (byte_reverse32 lo * 4294967296)]
  by_cases h4 : k < 4
  · have e : 7 - k = (3 - k) + 4 := by omega
    rw [low_digit _ _ k h4, byte_reverse32_digit hi k h4, e, high_digit lo hi (3 - k) hlo]
  · obtain ⟨j, rfl⟩ : ∃ j, k = j + 4 := ⟨k - 4, by omega⟩
    have hj : j < 4 := by omega
    have e : 7 - (j + 4) = 3 - j := by omega
    rw [high_digit _ _ j (byte_reverse32_lt hi), byte_reverse32_digit lo j hj, e,
      low_digit lo hi (3 - j) (by omega)]

/-- C30: `byte_reverse32` maps a 32-bit value to the 32-bit value whose byte `k` is
the byte `3 - k` of the argument, and applied twice it gives the argument back;
`byte_reverse64` maps a 64-bit value to the 64-bit value whose byte `k` is the
byte `7 - k` of the argument, and applied twice it gives the argument back. -/
theorem byte_reverse_reverses (x y : Nat) (hx : x < 2 ^ 32) (hy : y < 2 ^ 64) :
    (byte_reverse32 x < 2 ^ 32
      ∧ (∀ k, k < 4 → byte_reverse32 x / 256 ^ k % 256 = x / 256 ^ (3 - k) % 256)
      ∧ byte_reverse32 (byte_reverse32 x) = x)
    ∧ (byte_reverse64 y < 2 ^ 64
      ∧ (∀ k, k < 8 → byte_reverse64 y / 256 ^ k % 256 = y / 256 ^ (7 - k) % 256)
      ∧ byte_reverse64 (byte_reverse64 y) = y) := by
  refine ⟨⟨byte_reverse32_lt x, ?_, byte_reverse32_invol x hx⟩,
    ⟨byte_reverse64_lt_any y, fun k hk => byte_reverse64_digits y k hk,
      byte_reverse64_invol y hy⟩⟩
  exact fun k hk => byte_reverse32_digit x k hk

/-- Witness of C30: the values 0x01020304 and 0x0102030405060708. -/
theorem byte_reverse_reverses_witness :
    byte_reverse32 (byte_reverse32 16909060) = 16909060
      ∧ byte_reverse64 (byte_reverse64 72623859790382856) = 72623859790382856
      ∧ byte_reverse32 16909060 = 67305985
      ∧ byte_reverse64 72623859790382856 = 578437695752307201 :=
  have h := byte_reverse_reverses 16909060 72623859790382856 (by decide) (by decide)
  ⟨h.1.2.2, h.2.2.2, by decide, by decide⟩

/-! ## Claim on the byte counts of the converters -/

/-- C26: each write-side converter passes its byte count, reduced modulo 2^32, to the
read-side converter of the same tag, so the two convert the same words for
every count below 2^32; for the count 2^32 and a buffer of 2^30 words that
hold 1, on a little-endian host, `htobe32_v` converts no word where `be32toh_v`
converts every word (to 16777216). -/
theorem write_side_count_truncated (M : Machine) (hM : M.bigEndian = false) :
    (∀ ws n, htobe32_v M ws n = be32toh_v M ws (n % 2 ^ 32)
        ∧ htole32_v M ws n = le32toh_v M ws (n % 2 ^ 32)
        ∧ htobe64_v M ws n = be64toh_v M ws (n % 2 ^ 32)
        ∧ htole64_v M ws n = le64toh_v M ws (n % 2 ^ 32))
      ∧ (∀ ws n, n < 2 ^ 32 → htobe32_v M ws n = be32toh_v M ws n
        ∧ htole32_v M ws n = le32toh_v M ws n
        ∧ htobe64_v M ws n = be64toh_v M ws n
        ∧ htole64_v M ws n = le64toh_v M ws n)
      ∧ htobe32_v M (List.replicate 1073741824 1) 4294967296 = List.replicate 1073741824 1
      ∧ be32toh_v M (List.replicate 1073741824 1) 4294967296
          = List.replicate 1073741824 16777216
      ∧ htobe32_v M (List.replicate 1073741824 1) 4294967296
          ≠ be32toh_v M (List.replicate 1073741824 1) 4294967296 := by
  have h1 : htobe32_v M (List.replicate 1073741824 1) 4294967296
      = List.replicate 1073741824 1 := rfl
  have h2 : be32toh_v M (List.replicate 1073741824 1) 4294967296
      = List.replicate 1073741824 16777216 := by
    unfold be32toh_v
    have hl : (List.replicate 1073741824 1).length ≤ 4294967296 / 4 :=
      le_of_eq (List.length_replicate _ _)
    rw [be32toh_loop_all M _ _ hl, List.map_replicate]
    unfold ntohl
    rw [hM]
    rfl
  refine ⟨fun ws n => ⟨rfl, rfl, rfl, rfl⟩, ?_, h1, h2, ?_⟩
  · intro ws n hn
    unfold htobe32_v htole32_v htobe64_v htole64_v
    rw [Nat.mod_eq_of_lt hn]
    exact ⟨rfl, rfl, rfl, rfl⟩
  · rw [h1, h2]
    exact replicate_ne _ _ _ (by decide) (by decide)

/-- Witness of C26: the sample little-endian host. -/
theorem write_side_count_truncated_witness :
    htobe32_v sampleLittle (List.replicate 1073741824 1) 4294967296
      ≠ be32toh_v sampleLittle (List.replicate 1073741824 1) 4294967296 :=
  (write_side_count_truncated sampleLittle rfl).2.2.2.2

/-! ## Claim on the accesses of the checksum loop -/

theorem thread_checked_none (M : Machine) (grid : GridBase) (size32 : Nat) (fbuf : List Nat)
    (sites : List Nat) :
    sites.foldl (siteUpdateChecked M grid size32 fbuf) none = none := by
  induction sites with
  | nil => rfl
  | cons x t ih => exact ih

/-- A thread whose sites are all in range runs as in the loop without checks; a
thread with a site out of range takes an element outside the buffer. -/
theorem thread_checked (M : Machine) (grid : GridBase) (size32 : Nat) (fbuf : List Nat)
    (sites : List Nat) (thr : Csums) :
    ((∀ s ∈ sites, s < fbuf.length / size32) →
        sites.foldl (siteUpdateChecked M grid size32 fbuf) (some thr)
          = some (sites.foldl (siteUpdate M grid size32 fbuf) thr))
      ∧ ((∃ s ∈ sites, fbuf.length / size32 ≤ s) →
        sites.foldl (siteUpdateChecked M grid size32 fbuf) (some thr) = none) := by
  induction sites generalizing thr with
  | nil =>
    refine ⟨fun _ => rfl, ?_⟩
    rintro ⟨s, hs, _⟩
    cases hs
  | cons x t ih =>
    constructor
    · intro h
      have hx : x < fbuf.length / size32 := h x (List.mem_cons_self _ _)
      rw [List.foldl_cons, List.foldl_cons]
      have e : siteUpdateChecked M grid size32 fbuf (some thr) x
          = some (siteUpdate M grid size32 fbuf thr x) := by
        unfold siteUpdateChecked
        simp only [hx, if_true]
      rw [e]
      exact (ih _).1 (fun s hs => h s (List.mem_cons_of_mem _ hs))
    · rintro ⟨s, hs, hle⟩
      rw [List.foldl_cons]
      by_cases hx : x < fbuf.length / size32
      · have e : siteUpdateChecked M grid size32 fbuf (some thr) x
            = some (siteUpdate M grid size32 fbuf thr x) := by
          unfold siteUpdateChecked
          simp only [hx, if_true]
        rw [e]
        rcases List.mem_cons.1 hs with rfl | ht
        · omega
        · exact (ih _).2 ⟨s, ht, hle⟩
      · have e : siteUpdateChecked M grid size32 fbuf (some thr) x = none := by
          unfold siteUpdateChecked
          simp only [hx, if_false]
        rw [e, thread_checked_none]

theorem checked_foldl_none (M : Machine) (grid : GridBase) (size32 : Nat) (fbuf : List Nat)
    (schedule : List (List Nat)) :
    schedule.foldl
      (fun acc sites =>
        match acc, sites.foldl (siteUpdateChecked M grid size32 fbuf) (some ⟨0, 0, 0⟩) with
        | some a, some t => some (combine a t)
        | _, _ => none) none = none := by
  induction schedule with
  | nil => rfl
  | cons x t ih =>
    rw [List.foldl_cons]
    exact ih

/-- The checked loop yields the checksums of the loop of the source when every
scheduled site is in range, and nothing when a scheduled site is out of range. -/
theorem checksum_checked (M : Machine) (grid : GridBase) (size32 : Nat) (fbuf : List Nat)
    (schedule : List (List Nat)) (init : Csums) :
    ((∀ s ∈ schedule.flatten, s < fbuf.length / size32) →
        Uint32ChecksumChecked M grid size32 fbuf schedule init
          = some (Uint32Checksum M grid size32 fbuf schedule init))
      ∧ ((∃ s ∈ schedule.flatten, fbuf.length / size32 ≤ s) →
        Uint32ChecksumChecked M grid size32 fbuf schedule init = none) := by
  unfold Uint32ChecksumChecked Uint32Checksum
  induction schedule generalizing init with
  | nil =>
    refine ⟨fun _ => rfl, ?_⟩
    rintro ⟨s, hs, _⟩
    simp at hs
  | cons x t ih =>
    constructor
    · intro h
      rw [List.foldl_cons, List.foldl_cons,
        (thread_checked M grid size32 fbuf x ⟨0, 0, 0⟩).1
          (fun s hs => h s (by rw [List.flatten_cons]; exact List.mem_append_left _ hs))]
      exact (ih _).1
        (fun s hs => h s (by rw [List.flatten_cons]; exact List.mem_append_right _ hs))
    · rintro ⟨s, hs, hle⟩
      rw [List.flatten_cons, List.mem_append] at hs
      rw [List.foldl_cons]
      by_cases hx : ∀ s ∈ x, s < fbuf.length / size32
      · rw [(thread_checked M grid size32 fbuf x ⟨0, 0, 0⟩).1 hx]
        rcases hs with h1 | h2
        · exact absurd (hx s h1) (by omega)
        · exact (ih _).2 ⟨s, h2, hle⟩
      · have hx2 : ∃ s ∈ x, fbuf.length / size32 ≤ s := by
          by_contra hc
          apply hx
          intro s hs2
          by_contra hlt
          exact hc ⟨s, hs2, by omega⟩
        rw [(thread_checked M grid size32 fbuf x ⟨0, 0, 0⟩).2 hx2]
        exact checked_foldl_none M grid size32 fbuf t

/-- C25: in a call of `IOobject` that appends (`BINARYIO_MASTER_APPEND` with
`BINARYIO_WRITE`) and returns, the buffer holds one object and the checksums
returned are those `Uint32Checksum` computes on it with the grid of the call;
when this grid has more than one local site, the site loop, which runs over
the `lSites` sites of the grid, takes the element `fbuf[1]`, outside the
buffer: the loop with checked accesses yields nothing. When the buffer holds
`lSites` objects every access is in range. -/
theorem append_checksum_reads_out_of_range (M : Machine) (grid : GridBase) (size32 : Nat)
    (iodata file : List Nat) (offset : Nat) (format : String)
    (schedule : List (List Nat)) (res : IoResult)
    (hs : ValidSchedule grid.lSites schedule) (hsites : 1 < grid.lSites)
    (h : IOobject M grid size32 iodata file offset format
      (BINARYIO_WRITE ||| BINARYIO_MASTER_APPEND) schedule [] = some res) :
    iodata.length / size32 = 1
      ∧ res.csum = Uint32Checksum M grid size32 iodata schedule ⟨0, 0, 0⟩
      ∧ 1 ∈ schedule.flatten
      ∧ Uint32ChecksumChecked M grid size32 iodata schedule ⟨0, 0, 0⟩ = none
      ∧ (∀ fbuf : List Nat, fbuf.length / size32 = grid.lSites →
          Uint32ChecksumChecked M grid size32 fbuf schedule ⟨0, 0, 0⟩
            = some (Uint32Checksum M grid size32 fbuf schedule ⟨0, 0, 0⟩)) := by
  have hmem : ∀ s, s ∈ schedule.flatten ↔ s < grid.lSites := by
    intro s
    rw [List.Perm.mem_iff hs, List.mem_range]
  have hsize : iodata.length / size32 = 1 := by
    unfold IOobject at h
    have c1 : (BINARYIO_WRITE ||| BINARYIO_MASTER_APPEND) &&& BINARYIO_MASTER_APPEND ≠ 0 := by
      decide
    simp only [c1, ne_eq, not_false_eq_true, if_true] at h
    by_contra hne
    rw [if_pos hne] at h
    exact absurd h (by simp)
  obtain ⟨st, hst, hres⟩ := IOobject_write_some M grid size32 iodata file offset format
    (BINARYIO_WRITE ||| BINARYIO_MASTER_APPEND) schedule [] res (by decide) (by decide) h
  obtain ⟨a1, _, _⟩ := ioWrite_some M grid size32 offset format
    (BINARYIO_WRITE ||| BINARYIO_MASTER_APPEND) schedule _ st hst
  refine ⟨hsize, ?_, (hmem 1).2 hsites, ?_, ?_⟩
  · rw [hres]
    exact a1
  · exact (checksum_checked M grid size32 iodata schedule ⟨0, 0, 0⟩).2
      ⟨1, (hmem 1).2 hsites, by omega⟩
  · intro fbuf hf
    exact (checksum_checked M grid size32 fbuf schedule ⟨0, 0, 0⟩).1
      (fun s hs2 => by rw [hf]; exact (hmem s).1 hs2)

/-- Witness of C25: the serial state 7, 8 appended on the sample grid of four
sites. -/
theorem append_checksum_reads_out_of_range_witness :
    Uint32ChecksumChecked sampleLittle sampleGrid 2 [7, 8] [[0, 1], [2, 3]] ⟨0, 0, 0⟩ = none
      ∧ (1 : Nat) ∈ ([[0, 1], [2, 3]] : List (List Nat)).flatten :=
  have h := append_checksum_reads_out_of_range sampleLittle sampleGrid 2 [7, 8] [] 0
    "IEEE32BIG" [[0, 1], [2, 3]]
    ⟨[117440512, 134217728], [0, 0, 0, 7, 0, 0, 0, 8],
      Uint32Checksum sampleLittle sampleGrid 2 [7, 8] [[0, 1], [2, 3]] ⟨0, 0, 0⟩⟩
    (by unfold ValidSchedule; decide) (by decide) (by decide)
  ⟨h.2.2.2.1, h.2.2.1⟩

/-! ## Lemmas on the calls of `IOobject` by `writeRNG` and `readRNG` -/

/-- The first call of `writeRNG`, by a single process. -/
theorem IOobject_write_lex (M : Machine) (grid : GridBase) (size32 : Nat)
    (iodata file : List Nat) (offset : Nat) (format : String) (schedule : List (List Nat))
    (hproc : grid.ProcessorCount ≤ 1) (hsize : grid.lSites = iodata.length / size32) :
    IOobject M grid size32 iodata file offset format
        (BINARYIO_WRITE ||| BINARYIO_LEXICOGRAPHIC) schedule []
      = some
        { iodata := hostToFile M format iodata (4 * size32 * (iodata.length / size32))
          file := writeAt file (offset + grid.ThisRank * grid.lSites * (4 * size32))
            (bytesOfWords M
              (hostToFile M format iodata (4 * size32 * (iodata.length / size32))))
          csum := Uint32Checksum M grid size32 iodata schedule ⟨0, 0, 0⟩ } := by
  have c1 : (BINARYIO_WRITE ||| BINARYIO_LEXICOGRAPHIC) &&& BINARYIO_MASTER_APPEND = 0 := by
    decide
  have c2 : (BINARYIO_WRITE ||| BINARYIO_LEXICOGRAPHIC) &&& BINARYIO_READ = 0 := by decide
  have c3 : (BINARYIO_WRITE ||| BINARYIO_LEXICOGRAPHIC) &&& BINARYIO_WRITE ≠ 0 := by decide
  have c4 : ¬ grid.ProcessorCount > 1 := by omega
  simp only [IOobject, ioWrite, c1, c2, c3, c4, hsize, ne_eq, not_true_eq_false, if_false,
    not_false_eq_true, if_true, and_false, globalReduce, List.foldl_nil]

/-- The second call of `writeRNG`: the buffer of one object goes to the end of the
file. -/
theorem IOobject_write_append (M : Machine) (grid : GridBase) (size32 : Nat)
    (iodata file : List Nat) (offset : Nat) (format : String) (schedule : List (List Nat))
    (hsize : iodata.length / size32 = 1) :
    IOobject M grid size32 iodata file offset format
        (BINARYIO_WRITE ||| BINARYIO_MASTER_APPEND) schedule []
      = some
        { iodata := hostToFile M format iodata (4 * size32 * (iodata.length / size32))
          file := writeAt file file.length
            (bytesOfWords M
              (hostToFile M format iodata (4 * size32 * (iodata.length / size32))))
          csum := Uint32Checksum M grid size32 iodata schedule ⟨0, 0, 0⟩ } := by
  have c1 : (BINARYIO_WRITE ||| BINARYIO_MASTER_APPEND) &&& BINARYIO_MASTER_APPEND ≠ 0 := by
    decide
  have c2 : (BINARYIO_WRITE ||| BINARYIO_MASTER_APPEND) &&& BINARYIO_READ = 0 := by decide
  have c3 : (BINARYIO_WRITE ||| BINARYIO_MASTER_APPEND) &&& BINARYIO_WRITE ≠ 0 := by decide
  have c4 : (BINARYIO_WRITE ||| BINARYIO_MASTER_APPEND) &&& BINARYIO_LEXICOGRAPHIC = 0 := by
    decide
  simp only [IOobject, ioWrite, c1, c2, c3, c4, hsize, ne_eq, not_true_eq_false, if_false,
    not_false_eq_true, if_true, false_and, globalReduce, List.foldl_nil]

/-- The first call of `readRNG`, by a single process, when the file is long
enough. -/
theorem IOobject_read_lex (M : Machine) (grid : GridBase) (size32 : Nat)
    (iodata file : List Nat) (offset : Nat) (format : String) (schedule : List (List Nat))
    (bytes : List Nat) (hproc : grid.ProcessorCount ≤ 1)
    (hsize : grid.lSites = iodata.length / size32)
    (hread : readAt file (offset + grid.ThisRank * grid.lSites * (4 * size32))
      (iodata.length / size32 * (4 * size32)) = some bytes) :
    IOobject M grid size32 iodata file offset format
        (BINARYIO_READ ||| BINARYIO_LEXICOGRAPHIC) schedule []
      = some
        { iodata := fileToHost M format (wordsOfBytes M bytes)
            (4 * size32 * (iodata.length / size32))
          file := file
          csum := Uint32Checksum M grid size32
            (fileToHost M format (wordsOfBytes M bytes)
              (4 * size32 * (iodata.length / size32))) schedule ⟨0, 0, 0⟩ } := by
  have c1 : (BINARYIO_READ ||| BINARYIO_LEXICOGRAPHIC) &&& BINARYIO_MASTER_APPEND = 0 := by
    decide
  have c2 : (BINARYIO_READ ||| BINARYIO_LEXICOGRAPHIC) &&& BINARYIO_READ ≠ 0 := by decide
  have c3 : (BINARYIO_READ ||| BINARYIO_LEXICOGRAPHIC) &&& BINARYIO_WRITE = 0 := by decide
  have c4 : ¬ grid.ProcessorCount > 1 := by omega
  rw [hsize] at hread
  simp only [IOobject, ioRead, c1, c2, c3, c4, hsize, hread, ne_eq, not_true_eq_false,
    if_false, not_false_eq_true, if_true, and_false, globalReduce, List.foldl_nil]

/-- The second call of `readRNG`: one object is read from the end of the file. -/
theorem IOobject_read_append (M : Machine) (grid : GridBase) (size32 : Nat)
    (iodata file : List Nat) (offset : Nat) (format : String) (schedule : List (List Nat))
    (bytes : List Nat) (hsize : iodata.length / size32 = 1)
    (hlen : 4 * size32 ≤ file.length)
    (hread : readAt file (file.length - 4 * size32) (1 * (4 * size32)) = some bytes) :
    IOobject M grid size32 iodata file offset format
        (BINARYIO_READ ||| BINARYIO_MASTER_APPEND) schedule []
      = some
        { iodata := fileToHost M format (wordsOfBytes M bytes) (4 * size32 * 1)
          file := file
          csum := Uint32Checksum M grid size32
            (fileToHost M format (wordsOfBytes M bytes) (4 * size32 * 1)) schedule
            ⟨0, 0, 0⟩ } := by
  have c1 : (BINARYIO_READ ||| BINARYIO_MASTER_APPEND) &&& BINARYIO_MASTER_APPEND ≠ 0 := by
    decide
  have c2 : (BINARYIO_READ ||| BINARYIO_MASTER_APPEND) &&& BINARYIO_READ ≠ 0 := by decide
  have c3 : (BINARYIO_READ ||| BINARYIO_MASTER_APPEND) &&& BINARYIO_WRITE = 0 := by decide
  have c4 : (BINARYIO_READ ||| BINARYIO_MASTER_APPEND) &&& BINARYIO_LEXICOGRAPHIC = 0 := by
    decide
  simp only [IOobject, ioRead, c1, c2, c3, c4, hsize, hlen, hread, ne_eq, not_true_eq_false,
    if_false, not_false_eq_true, if_true, false_and, globalReduce, List.foldl_nil]

/-- Writing at the end of a file appends. -/
theorem writeAt_end (file bytes : List Nat) : writeAt file file.length bytes = file ++ bytes := by
  unfold writeAt
  rw [List.take_length, Nat.sub_self, List.replicate_zero, List.append_nil,
    List.drop_eq_nil_of_le (by omega), List.append_nil]

/-- A read inside the first part of a file does not see what was appended. -/
theorem readAt_append_left (f g : List Nat) (pos n : Nat) (bytes : List Nat)
    (h : readAt f pos n = some bytes) : readAt (f ++ g) pos n = some bytes := by
  unfold readAt at h ⊢
  by_cases hle : pos + n ≤ f.length
  · rw [if_pos hle] at h
    rw [if_pos (by rw [List.length_append]; omega)]
    rw [← h]
    congr 1
    rw [List.drop_append_of_le_length (by omega), List.take_append_of_le_length]
    rw [List.length_drop]
    omega
  · rw [if_neg hle] at h
    exact absurd h (by simp)

/-- A read of the appended part of a file. -/
theorem readAt_append_right (f g : List Nat) :
    readAt (f ++ g) f.length g.length = some g := by
  unfold readAt
  rw [if_pos (by rw [List.length_append]), List.drop_left, List.take_length]

/-! ## Claim on the checksums of the generator states -/

/-- When `writeRNG` returns, its checksums are those of the parallel states alone
(the checksums of the call that appends the serial state are dropped), whereas
when `readRNG` returns, its checksums are those of the parallel states it has
read combined (sum modulo 2^32, XOR, XOR) with those of the serial state it has
read. -/
theorem rng_checksums_structure (M : Machine) (grid : GridBase) (size32 : Nat)
    (serial parallel file : List Nat) (offset : Nat) (schedule : List (List Nat))
    (written : List Nat) (cw : Csums) (r : RngRead)
    (hw : writeRNG M grid size32 serial parallel file offset schedule = some (written, cw))
    (hr : readRNG M grid size32 written offset schedule = some r) :
    cw = Uint32Checksum M grid size32 parallel schedule ⟨0, 0, 0⟩
      ∧ r.csum = combine (Uint32Checksum M grid size32 r.parallel schedule ⟨0, 0, 0⟩)
          (Uint32Checksum M grid size32 r.serial schedule ⟨0, 0, 0⟩) := by
  constructor
  · unfold writeRNG at hw
    split at hw
    · exact absurd hw (by simp)
    · rename_i first h1
      split at hw
      · exact absurd hw (by simp)
      · rename_i second h2
        obtain ⟨st, hst, hres⟩ := IOobject_write_some M grid size32 parallel file offset
          "IEEE32BIG" (BINARYIO_WRITE ||| BINARYIO_LEXICOGRAPHIC) schedule [] first
          (by decide) (by decide) h1
        obtain ⟨a1, _, _⟩ := ioWrite_some M grid size32 offset "IEEE32BIG"
          (BINARYIO_WRITE ||| BINARYIO_LEXICOGRAPHIC) schedule _ st hst
        have e := Option.some.inj hw
        rw [Prod.mk.injEq] at e
        rw [← e.2, hres]
        exact a1
  · unfold readRNG at hr
    split at hr
    · exact absurd hr (by simp)
    · rename_i first h1
      split at hr
      · exact absurd hr (by simp)
      · rename_i second h2
        obtain ⟨st1, hst1, hres1⟩ := IOobject_read_some M grid size32 _ written offset
          "IEEE32BIG" (BINARYIO_READ ||| BINARYIO_LEXICOGRAPHIC) schedule [] first
          (by decide) (by decide) h1
        obtain ⟨b1, _, _⟩ := ioRead_some M grid size32 offset "IEEE32BIG"
          (BINARYIO_READ ||| BINARYIO_LEXICOGRAPHIC) schedule _ st1 hst1
        obtain ⟨st2, hst2, hres2⟩ := IOobject_read_some M grid size32 _ written offset
          "IEEE32BIG" (BINARYIO_READ ||| BINARYIO_MASTER_APPEND) schedule [] second
          (by decide) (by decide) h2
        obtain ⟨c1, _, _⟩ := ioRead_some M grid size32 offset "IEEE32BIG"
          (BINARYIO_READ ||| BINARYIO_MASTER_APPEND) schedule _ st2 hst2
        have e := Option.some.inj hr
        subst e
        have f1 : first.csum = Uint32Checksum M grid size32 first.iodata schedule ⟨0, 0, 0⟩ := by
          rw [hres1]
          exact b1
        have f2 : second.csum
            = Uint32Checksum M grid size32 second.iodata schedule ⟨0, 0, 0⟩ := by
          rw [hres2]
          exact c1
        show _ = combine _ _
        rw [← f1, ← f2]
        rfl

/-- C27: on a lattice of one site held by a single process, for every host, every
parallel and serial state of `size32` 32-bit words (fewer than 2^32 bytes) and
every file and offset, `writeRNG` returns, `readRNG` on the file written returns
the two states, and the checksums of `readRNG` are those of `writeRNG` combined
(sum modulo 2^32, XOR, XOR) with the checksums of the serial state, which
`writeRNG` drops: the additive checksums differ whenever the words of the
serial state do not add up to 0 modulo 2^32. -/
theorem rng_checksums (M : Machine) (grid : GridBase) (size32 : Nat)
    (serial parallel file : List Nat) (offset : Nat) (schedule : List (List Nat))
    (hsites : grid.lSites = 1) (hproc : grid.ProcessorCount ≤ 1)
    (hs : ValidSchedule grid.lSites schedule) (hsize : 0 < size32)
    (hbytes : 4 * size32 < 2 ^ 32)
    (hpar : parallel.length = size32) (hser : serial.length = size32)
    (hpw : ∀ w ∈ parallel, w < 2 ^ 32) (hsw : ∀ w ∈ serial, w < 2 ^ 32)
    (hsum : serial.sum % 2 ^ 32 ≠ 0) :
    ∃ written cw r,
      writeRNG M grid size32 serial parallel file offset schedule = some (written, cw)
      ∧ readRNG M grid size32 written offset schedule = some r
      ∧ r.parallel = parallel ∧ r.serial = serial
      ∧ cw = Uint32Checksum M grid size32 parallel schedule ⟨0, 0, 0⟩
      ∧ r.csum = combine cw (Uint32Checksum M grid size32 serial schedule ⟨0, 0, 0⟩)
      ∧ r.csum.nersc_csum ≠ cw.nersc_csum := by
  have hd1 : parallel.length / size32 = 1 := by rw [hpar, Nat.div_self hsize]
  have hd2 : serial.length / size32 = 1 := by rw [hser, Nat.div_self hsize]
  have hn : 4 * size32 * 1 < 2 ^ 32 := by omega
  obtain ⟨p1, p2, p3⟩ := fileToHost_hostToFile M "IEEE32BIG" parallel (4 * size32 * 1) hn hpw
  obtain ⟨s1, s2, s3⟩ := fileToHost_hostToFile M "IEEE32BIG" serial (4 * size32 * 1) hn hsw
  generalize hP : hostToFile M "IEEE32BIG" parallel (4 * size32 * 1) = P at p1 p2 p3
  generalize hS : hostToFile M "IEEE32BIG" serial (4 * size32 * 1) = S at s1 s2 s3
  have lP : (bytesOfWords M P).length = 1 * (4 * size32) := by
    rw [bytesOfWords_length, p1, hpar]
    omega
  have lS : (bytesOfWords M S).length = 1 * (4 * size32) := by
    rw [bytesOfWords_length, s1, hser]
    omega
  generalize hpos : offset + grid.ThisRank * grid.lSites * (4 * size32) = pos
  -- the two calls of writeRNG
  have w1 := IOobject_write_lex M grid size32 parallel file offset "IEEE32BIG" schedule hproc
    (by rw [hd1, hsites])
  rw [hd1, hP, hpos] at w1
  have w2 := IOobject_write_append M grid size32 serial (writeAt file pos (bytesOfWords M P))
    offset "IEEE32BIG" schedule hd2
  rw [hd2, hS, writeAt_end] at w2
  have hw : writeRNG M grid size32 serial parallel file offset schedule
      = some (writeAt file pos (bytesOfWords M P) ++ bytesOfWords M S,
          Uint32Checksum M grid size32 parallel schedule ⟨0, 0, 0⟩) := by
    unfold writeRNG
    rw [w1]
    simp only []
    rw [w2]
  -- the two calls of readRNG
  have hb0 : (List.replicate (grid.lSites * size32) 0).length / size32 = 1 := by
    rw [List.length_replicate, hsites, Nat.one_mul, Nat.div_self hsize]
  have rd1 : readAt (writeAt file pos (bytesOfWords M P) ++ bytesOfWords M S)
      (offset + grid.ThisRank * grid.lSites * (4 * size32))
      ((List.replicate (grid.lSites * size32) 0).length / size32 * (4 * size32))
      = some (bytesOfWords M P) := by
    rw [hb0, hpos, ← lP]
    exact readAt_append_left _ _ _ _ _ (readAt_writeAt file pos (bytesOfWords M P))
  have r1 := IOobject_read_lex M grid size32 (List.replicate (grid.lSites * size32) 0)
    (writeAt file pos (bytesOfWords M P) ++ bytesOfWords M S) offset "IEEE32BIG" schedule
    (bytesOfWords M P) hproc (by rw [hb0, hsites]) rd1
  rw [hb0, wordsOfBytes_bytesOfWords M P p2, p3] at r1
  have hb1 : (parallel.take size32).length / size32 = 1 := by
    rw [List.length_take, hpar, Nat.min_self, Nat.div_self hsize]
  have hlen : 4 * size32
      ≤ (writeAt file pos (bytesOfWords M P) ++ bytesOfWords M S).length := by
    rw [List.length_append, lS]
    omega
  have rd2 : readAt (writeAt file pos (bytesOfWords M P) ++ bytesOfWords M S)
      ((writeAt file pos (bytesOfWords M P) ++ bytesOfWords M S).length - 4 * size32)
      (1 * (4 * size32)) = some (bytesOfWords M S) := by
    have e : (writeAt file pos (bytesOfWords M P) ++ bytesOfWords M S).length - 4 * size32
        = (writeAt file pos (bytesOfWords M P)).length := by
      rw [List.length_append, lS]
      omega
    rw [e, ← lS]
    exact readAt_append_right _ _
  have r2 := IOobject_read_append M grid size32 (parallel.take size32)
    (writeAt file pos (bytesOfWords M P) ++ bytesOfWords M S) offset "IEEE32BIG" schedule
    (bytesOfWords M S) hb1 hlen rd2
  rw [wordsOfBytes_bytesOfWords M S s2, s3] at r2
  have hr : readRNG M grid size32 (writeAt file pos (bytesOfWords M P) ++ bytesOfWords M S)
      offset schedule
      = some
        { serial := serial, parallel := parallel
          csum := combine (Uint32Checksum M grid size32 parallel schedule ⟨0, 0, 0⟩)
            (Uint32Checksum M grid size32 serial schedule ⟨0, 0, 0⟩) } := by
    unfold readRNG
    rw [r1]
    simp only []
    rw [r2]
    rfl
  refine ⟨_, _, _, hw, hr, rfl, rfl, rfl, rfl, ?_⟩
  have n1 := checksum_nersc_lt M grid size32 parallel schedule ⟨0, 0, 0⟩ (by decide)
  have n2 := nersc_of_valid M grid size32 serial schedule hs (by rw [hser, hsites, Nat.one_mul])
  show ((Uint32Checksum M grid size32 parallel schedule ⟨0, 0, 0⟩).nersc_csum
      + (Uint32Checksum M grid size32 serial schedule ⟨0, 0, 0⟩).nersc_csum) % 2 ^ 32
    ≠ (Uint32Checksum M grid size32 parallel schedule ⟨0, 0, 0⟩).nersc_csum
  rw [n2]
  generalize (Uint32Checksum M grid size32 parallel schedule ⟨0, 0, 0⟩).nersc_csum = a at n1
  generalize serial.sum = b at hsum
  omega

/-- Witness of C27: on the sample little-endian host and the lattice of one site,
the parallel state 1, 2 and the serial state 3, 4 are written to an empty file
and read back: the states come back, `writeRNG` returns the additive checksum 3
and `readRNG` returns 10. -/
theorem rng_checksums_witness :
    writeRNG sampleLittle unitGrid 2 [3, 4] [1, 2] [] 0 [[0]]
        = some ([0, 0, 0, 1, 0, 0, 0, 2, 0, 0, 0, 3, 0, 0, 0, 4],
            ⟨3, 107800093, 107800093⟩)
      ∧ readRNG sampleLittle unitGrid 2 [0, 0, 0, 1, 0, 0, 0, 2, 0, 0, 0, 3, 0, 0, 0, 4] 0 [[0]]
        = some ⟨[3, 4], [1, 2], ⟨10, 3495743108, 3495743108⟩⟩
      ∧ ∃ written cw r,
          writeRNG sampleLittle unitGrid 2 [3, 4] [1, 2] [] 0 [[0]] = some (written, cw)
          ∧ readRNG sampleLittle unitGrid 2 written 0 [[0]] = some r
          ∧ r.csum.nersc_csum ≠ cw.nersc_csum :=
  have h := rng_checksums sampleLittle unitGrid 2 [3, 4] [1, 2] [] 0 [[0]] rfl (by decide)
    (by unfold ValidSchedule; decide) (by decide) (by decide) rfl rfl (by decide) (by decide)
    (by decide)
  ⟨by decide, by decide,
    h.elim fun written h2 => h2.elim fun cw h3 => h3.elim fun r h4 =>
      ⟨written, cw, r, h4.1, h4.2.1, h4.2.2.2.2.2.2⟩⟩

/-! ## Lemmas on the global index of a site -/

theorem indexLoop_coor (dims : List Nat) (stride index s : Nat) (hs : s < dims.prod) :
    Lexicographic.indexLoop stride index (Lexicographic.CoorFromIndex s dims) dims
      = index + stride * s := by
  induction dims generalizing stride index s with
  | nil =>
    have h0 : s = 0 := by simpa using hs
    rw [h0]
    rfl
  | cons d ds ih =>
    rw [List.prod_cons] at hs
    have hd : s / d < ds.prod := Nat.div_lt_of_lt_mul hs
    show Lexicographic.indexLoop (stride * d) (index + stride * (s % d))
      (Lexicographic.CoorFromIndex (s / d) ds) ds = _
    rw [ih (stride * d) (index + stride * (s % d)) (s / d) hd, Nat.add_assoc, Nat.mul_assoc,
      ← Nat.mul_add, Nat.mod_add_div]

theorem CoorFromIndex_length (dims : List Nat) (s : Nat) :
    (Lexicographic.CoorFromIndex s dims).length = dims.length := by
  induction dims generalizing s with
  | nil => rfl
  | cons d ds ih =>
    show (s % d :: Lexicographic.CoorFromIndex (s / d) ds).length = _
    rw [List.length_cons, List.length_cons, ih]

theorem range_map_getD (l : List Nat) (z : List Nat) (hz : ∀ d, z.getD d 0 = 0) :
    (List.range l.length).map (fun d => l.getD d 0 + z.getD d 0) = l := by
  apply List.ext_getElem
  · rw [List.length_map, List.length_range]
  · intro i h1 h2
    rw [List.getElem_map, List.getElem_range, hz, Nat.add_zero, List.getD_eq_getElem _ _ h2]

theorem getD_map_zero (dims : List Nat) (d : Nat) : (dims.map (fun _ => 0)).getD d 0 = 0 := by
  induction dims generalizing d with
  | nil => rfl
  | cons x t ih =>
    cases d with
    | zero => rfl
    | succ n => exact ih n

/-- On the grid of a single process that holds the whole lattice, the global index
of a site is its local index. -/
theorem globalSite_whole (dims : List Nat) (s : Nat) (hs : s < dims.prod) :
    globalSite (wholeGrid dims) s = s := by
  unfold globalSite Lexicographic.IndexFromCoor
  show Lexicographic.indexLoop 1 0
    ((List.range dims.length).map (fun d =>
      (Lexicographic.CoorFromIndex s dims).getD d 0 + (dims.map (fun _ => 0)).getD d 0))
    dims = s
  have h := range_map_getD (Lexicographic.CoorFromIndex s dims) (dims.map (fun _ => 0))
    (getD_map_zero dims)
  rw [CoorFromIndex_length] at h
  rw [h, indexLoop_coor dims 1 0 s hs, Nat.zero_add, Nat.one_mul]

/-! ## Lemmas on the reduction over processes -/

theorem reduce_nersc (cs : List Csums) (c0 : Csums) :
    (globalReduce c0 cs).nersc_csum % 2 ^ 32
      = (c0.nersc_csum + (cs.map Csums.nersc_csum).sum) % 2 ^ 32 := by
  unfold globalReduce
  induction cs generalizing c0 with
  | nil => simp
  | cons x t ih =>
    rw [List.foldl_cons, ih, List.map_cons, List.sum_cons]
    simp only [combine]
    omega

theorem reduce_nersc_lt (cs : List Csums) (c0 : Csums) (h : c0.nersc_csum < 2 ^ 32) :
    (globalReduce c0 cs).nersc_csum < 2 ^ 32 := by
  unfold globalReduce
  induction cs generalizing c0 with
  | nil => exact h
  | cons x t ih =>
    rw [List.foldl_cons]
    apply ih
    simp only [combine]
    exact Nat.mod_lt _ (by decide)

theorem xorAll_cons (x : Nat) (l : List Nat) : xorAll (x :: l) = x ^^^ xorAll l := by
  rw [← List.singleton_append, xorAll_append]
  simp [xorAll]

theorem reduce_csuma (cs : List Csums) (c0 : Csums) :
    (globalReduce c0 cs).scidac_csuma
      = c0.scidac_csuma ^^^ xorAll (cs.map Csums.scidac_csuma) := by
  unfold globalReduce
  induction cs generalizing c0 with
  | nil => simp [xorAll]
  | cons x t ih =>
    rw [List.foldl_cons, ih, List.map_cons, xorAll_cons]
    simp only [combine]
    rw [Nat.xor_assoc]

theorem reduce_csumb (cs : List Csums) (c0 : Csums) :
    (globalReduce c0 cs).scidac_csumb
      = c0.scidac_csumb ^^^ xorAll (cs.map Csums.scidac_csumb) := by
  unfold globalReduce
  induction cs generalizing c0 with
  | nil => simp [xorAll]
  | cons x t ih =>
    rw [List.foldl_cons, ih, List.map_cons, xorAll_cons]
    simp only [combine]
    rw [Nat.xor_assoc]

theorem sum_mod_congr {α : Type} (l : List α) (f g : α → Nat) (m : Nat)
    (h : ∀ x ∈ l, f x % m = g x % m) : (l.map f).sum % m = (l.map g).sum % m := by
  induction l with
  | nil => rfl
  | cons x t ih =>
    rw [List.map_cons, List.map_cons, List.sum_cons, List.sum_cons, Nat.add_mod,
      h x (List.mem_cons_self _ _), ih (fun y hy => h y (List.mem_cons_of_mem _ hy)),
      ← Nat.add_mod]

theorem sum_flatMap {α : Type} (l : List α) (f : α → List Nat) :
    (l.flatMap f).sum = (l.map (fun x => (f x).sum)).sum := by
  induction l with
  | nil => rfl
  | cons x t ih => rw [List.flatMap_cons, List.sum_append, ih, List.map_cons, List.sum_cons]

theorem xorAll_flatMap {α : Type} (l : List α) (f : α → List Nat) :
    xorAll (l.flatMap f) = xorAll (l.map (fun x => xorAll (f x))) := by
  induction l with
  | nil => rfl
  | cons x t ih => rw [List.flatMap_cons, xorAll_append, ih, List.map_cons, xorAll_cons]

theorem siteSum_congr (size32 : Nat) (b1 b2 : List Nat) (s1 s2 : Nat)
    (h : siteWords size32 b1 s1 = siteWords size32 b2 s2) :
    siteSum size32 b1 s1 = siteSum size32 b2 s2 := by
  unfold siteSum
  rw [h]

theorem siteCrc_congr (M : Machine) (size32 : Nat) (b1 b2 : List Nat) (s1 s2 : Nat)
    (h : siteWords size32 b1 s1 = siteWords size32 b2 s2) :
    siteCrc M size32 b1 s1 = siteCrc M size32 b2 s2 := by
  unfold siteCrc
  rw [h]

/-- The additive checksum of a process, modulo 2^32, in terms of the data of the
lattice at the global indices of its sites. -/
theorem process_nersc (M : Machine) (size32 : Nat) (whole : List Nat) (p : Process)
    (hv : ValidSchedule p.grid.lSites p.schedule)
    (hd : ∀ s, s < p.grid.lSites →
      siteWords size32 p.fbuf s = siteWords size32 whole (globalSite p.grid s)) :
    (p.checksums M size32).nersc_csum % 2 ^ 32
      = (((List.range p.grid.lSites).map (globalSite p.grid)).map
          (siteSum size32 whole)).sum % 2 ^ 32 := by
  unfold Process.checksums
  rw [checksum_nersc, Nat.zero_add, List.Perm.sum_eq (List.Perm.map _ hv), List.map_map]
  congr 2
  apply List.map_congr_left
  intro s hs
  exact siteSum_congr size32 _ _ _ _ (hd s (List.mem_range.1 hs))

/-- The second checksum of a process in terms of the data of the lattice at the
global indices of its sites. -/
theorem process_csuma (M : Machine) (size32 : Nat) (whole : List Nat) (p : Process)
    (hv : ValidSchedule p.grid.lSites p.schedule)
    (hd : ∀ s, s < p.grid.lSites →
      siteWords size32 p.fbuf s = siteWords size32 whole (globalSite p.grid s)) :
    (p.checksums M size32).scidac_csuma
      = xorAll (((List.range p.grid.lSites).map (globalSite p.grid)).map
          (fun g => rotateExpr M (siteCrc M size32 whole g) (g % 29))) := by
  unfold Process.checksums
  rw [checksum_csuma, Nat.zero_xor, xorAll_perm _ _ (List.Perm.map _ hv), List.map_map]
  congr 1
  apply List.map_congr_left
  intro s hs
  simp only [Function.comp]
  rw [siteCrc_congr M size32 _ _ _ _ (hd s (List.mem_range.1 hs))]

/-- The third checksum of a process in terms of the data of the lattice at the
global indices of its sites. -/
theorem process_csumb (M : Machine) (size32 : Nat) (whole : List Nat) (p : Process)
    (hv : ValidSchedule p.grid.lSites p.schedule)
    (hd : ∀ s, s < p.grid.lSites →
      siteWords size32 p.fbuf s = siteWords size32 whole (globalSite p.grid s)) :
    (p.checksums M size32).scidac_csumb
      = xorAll (((List.range p.grid.lSites).map (globalSite p.grid)).map
          (fun g => rotateExpr M (siteCrc M size32 whole g) (g % 31))) := by
  unfold Process.checksums
  rw [checksum_csumb, Nat.zero_xor, xorAll_perm _ _ (List.Perm.map _ hv), List.map_map]
  congr 1
  apply List.map_congr_left
  intro s hs
  simp only [Function.comp]
  rw [siteCrc_congr M size32 _ _ _ _ (hd s (List.mem_range.1 hs))]

theorem csums_ext (a b : Csums) (h1 : a.nersc_csum = b.nersc_csum)
    (h2 : a.scidac_csuma = b.scidac_csuma) (h3 : a.scidac_csumb = b.scidac_csumb) : a = b := by
  cases a
  cases b
  simp only [Csums.mk.injEq]
  exact ⟨h1, h2, h3⟩

theorem process_nersc_lt (M : Machine) (size32 : Nat) (p : Process) :
    (p.checksums M size32).nersc_csum < 2 ^ 32 :=
  checksum_nersc_lt M p.grid size32 p.fbuf p.schedule ⟨0, 0, 0⟩ (by decide)

/-! ## Claim on the decomposition over processes and threads -/

/-- C24: for processes that decompose a lattice (every global site held by exactly
one process, the threads of each process running each local site once), the
checksums of the processes, each combined from its threads by `Uint32Checksum`,
reduced over the processes (sum modulo 2^32 for the first, XOR for the other
two) are the checksums that `Uint32Checksum` computes over the whole lattice
with one thread on the grid of a single process. -/
theorem checksum_of_decomposition (M : Machine) (size32 : Nat) (dims : List Nat)
    (whole : List Nat) (p0 : Process) (rest : List Process)
    (hdec : Decomposition size32 dims whole (p0 :: rest)) :
    globalReduce (p0.checksums M size32) (rest.map (Process.checksums M size32))
      = Uint32Checksum M (wholeGrid dims) size32 whole [List.range dims.prod] ⟨0, 0, 0⟩ := by
  obtain ⟨hperm, hvalid, hdata⟩ := hdec
  have hflat : ([List.range dims.prod] : List (List Nat)).flatten = List.range dims.prod := by
    rw [List.flatten_cons, List.flatten_nil, List.append_nil]
  apply csums_ext
  · have hl := reduce_nersc_lt (rest.map (Process.checksums M size32))
      (p0.checksums M size32) (process_nersc_lt M size32 p0)
    have hr := checksum_nersc_lt M (wholeGrid dims) size32 whole [List.range dims.prod]
      ⟨0, 0, 0⟩ (by decide)
    have e : (p0.checksums M size32).nersc_csum
          + (List.map Csums.nersc_csum (List.map (Process.checksums M size32) rest)).sum
        = ((p0 :: rest).map (fun p => (p.checksums M size32).nersc_csum)).sum := by
      rw [List.map_cons, List.sum_cons, List.map_map]
      rfl
    rw [← Nat.mod_eq_of_lt hl, ← Nat.mod_eq_of_lt hr, reduce_nersc, e, checksum_nersc, hflat,
      Nat.zero_add, ← List.Perm.sum_eq (List.Perm.map _ hperm)]
    unfold globalSites
    rw [List.map_flatMap, sum_flatMap]
    apply sum_mod_congr
    intro p hp
    exact process_nersc M size32 whole p (hvalid p hp) (hdata p hp)
  · have e : (p0.checksums M size32).scidac_csuma
          ^^^ xorAll (List.map Csums.scidac_csuma (List.map (Process.checksums M size32) rest))
        = xorAll ((p0 :: rest).map (fun p => (p.checksums M size32).scidac_csuma)) := by
      rw [List.map_cons, xorAll_cons, List.map_map]
      rfl
    have e2 : (List.range dims.prod).map (fun s =>
          rotateExpr M (siteCrc M size32 whole s) (globalSite (wholeGrid dims) s % 29))
        = (List.range dims.prod).map (fun g =>
          rotateExpr M (siteCrc M size32 whole g) (g % 29)) := by
      apply List.map_congr_left
      intro s hs
      rw [globalSite_whole dims s (List.mem_range.1 hs)]
    rw [reduce_csuma, e, checksum_csuma, hflat, Nat.zero_xor, e2,
      ← xorAll_perm _ _ (List.Perm.map _ hperm)]
    unfold globalSites
    rw [List.map_flatMap, xorAll_flatMap]
    congr 1
    apply List.map_congr_left
    intro p hp
    exact process_csuma M size32 whole p (hvalid p hp) (hdata p hp)
  · have e : (p0.checksums M size32).scidac_csumb
          ^^^ xorAll (List.map Csums.scidac_csumb (List.map (Process.checksums M size32) rest))
        = xorAll ((p0 :: rest).map (fun p => (p.checksums M size32).scidac_csumb)) := by
      rw [List.map_cons, xorAll_cons, List.map_map]
      rfl
    have e2 : (List.range dims.prod).map (fun s =>
          rotateExpr M (siteCrc M size32 whole s) (globalSite (wholeGrid dims) s % 31))
        = (List.range dims.prod).map (fun g =>
          rotateExpr M (siteCrc M size32 whole g) (g % 31)) := by
      apply List.map_congr_left
      intro s hs
      rw [globalSite_whole dims s (List.mem_range.1 hs)]
    rw [reduce_csumb, e, checksum_csumb, hflat, Nat.zero_xor, e2,
      ← xorAll_perm _ _ (List.Perm.map _ hperm)]
    unfold globalSites
    rw [List.map_flatMap, xorAll_flatMap]
    congr 1
    apply List.map_congr_left
    intro p hp
    exact process_csumb M size32 whole p (hvalid p hp) (hdata p hp)

/-- Witness of C24: the two sample processes against the whole sample lattice. -/
theorem checksum_of_decomposition_witness :
    globalReduce (sampleProcess0.checksums sampleLittle 2)
        ([sampleProcess1].map (Process.checksums sampleLittle 2))
      = Uint32Checksum sampleLittle (wholeGrid [2, 2, 1, 1]) 2 [1, 2, 3, 4, 5, 6, 7, 8]
          [List.range ([2, 2, 1, 1] : List Nat).prod] ⟨0, 0, 0⟩ := by
  apply checksum_of_decomposition sampleLittle 2 [2, 2, 1, 1] [1, 2, 3, 4, 5, 6, 7, 8]
    sampleProcess0 [sampleProcess1]
  refine ⟨by decide, ?_, ?_⟩
  · intro p hp
    rcases List.mem_cons.1 hp with rfl | hp
    · unfold ValidSchedule
      decide
    · rw [List.mem_singleton] at hp
      subst hp
      unfold ValidSchedule
      decide
  · intro p hp
    rcases List.mem_cons.1 hp with rfl | hp
    · decide
    · rw [List.mem_singleton] at hp
      subst hp
      decide

/-! ## Claims on the improved staggered fermion operator -/

namespace QCD

theorem DhopInternal_checkerboard {D : Type} (K : Constants) (L : Kernels D)
    (st : StencilImpl) (U : DoubledGaugeField) (inp out r : LatticeField D) (dag : Nat)
    (h : ImprovedStaggeredFermion.DhopInternal K L st U inp out dag = Except.ok r) :
    r.checkerboard = out.checkerboard := by
  unfold ImprovedStaggeredFermion.DhopInternal at h
  split at h
  · split at h
    · injection h with h
      subst h
      rfl
    · injection h with h
      subst h
      rfl
  · exact absurd h (by simp)

theorem DhopInternal_ok {D : Type} (K : Constants) (L : Kernels D)
    (st : StencilImpl) (U : DoubledGaugeField) (inp out : LatticeField D) (dag : Nat)
    (hdag : dag = K.DaggerNo ∨ dag = K.DaggerYes) :
    ∃ r, ImprovedStaggeredFermion.DhopInternal K L st U inp out dag = Except.ok r := by
  unfold ImprovedStaggeredFermion.DhopInternal
  rw [if_pos hdag]
  split
  · exact ⟨_, rfl⟩
  · exact ⟨_, rfl⟩

theorem DhopInternal_not_checkerboard {D : Type} (K : Constants) (L : Kernels D)
    (st : StencilImpl) (U : DoubledGaugeField) (inp out : LatticeField D) (dag : Nat) :
    ImprovedStaggeredFermion.DhopInternal K L st U inp out dag
      ≠ Except.error Abort.checkerboard := by
  unfold ImprovedStaggeredFermion.DhopInternal
  split
  · split <;> simp
  · simp

/-- The checks of `DhopEO` in the order of the source. -/
theorem DhopEO_eq {D : Type} (op : ImprovedStaggeredFermion) (K : Constants)
    (L : Kernels D) (inp out : LatticeField D) (dag : Nat) :
    op.DhopEO K L inp out dag =
      if inp._grid = op._cbgrid then
        if inp._grid = out._grid then
          if inp.checkerboard = K.Odd then
            ImprovedStaggeredFermion.DhopInternal K L StencilImpl.StencilOdd
              DoubledGaugeField.UmuEven inp { out with checkerboard := K.Even } dag
          else Except.error Abort.checkerboard
        else Except.error Abort.conformable
      else Except.error Abort.conformable := by
  unfold ImprovedStaggeredFermion.DhopEO conformable
  by_cases h1 : inp._grid = op._cbgrid
  · by_cases h2 : inp._grid = out._grid
    · rw [if_pos h1, if_pos h2, if_pos h1, if_pos h2]
      rfl
    · rw [if_pos h1, if_neg h2, if_pos h1, if_neg h2]
      rfl
  · rw [if_neg h1, if_neg h1]
    rfl

/-- The checks of `DhopOE` in the order of the source. -/
theorem DhopOE_eq {D : Type} (op : ImprovedStaggeredFermion) (K : Constants)
    (L : Kernels D) (inp out : LatticeField D) (dag : Nat) :
    op.DhopOE K L inp out dag =
      if inp._grid = op._cbgrid then
        if inp._grid = out._grid then
          if inp.checkerboard = K.Even then
            ImprovedStaggeredFermion.DhopInternal K L StencilImpl.StencilEven
              DoubledGaugeField.UmuOdd inp { out with checkerboard := K.Odd } dag
          else Except.error Abort.checkerboard
        else Except.error Abort.conformable
      else Except.error Abort.conformable := by
  unfold ImprovedStaggeredFermion.DhopOE conformable
  by_cases h1 : inp._grid = op._cbgrid
  · by_cases h2 : inp._grid = out._grid
    · rw [if_pos h1, if_pos h2, if_pos h1, if_pos h2]
      rfl
    · rw [if_pos h1, if_neg h2, if_pos h1, if_neg h2]
      rfl
  · rw [if_neg h1, if_neg h1]
    rfl

/-- The checks of `Dhop` in the order of the source. -/
theorem Dhop_eq {D : Type} (op : ImprovedStaggeredFermion) (K : Constants)
    (L : Kernels D) (inp out : LatticeField D) (dag : Nat) :
    op.Dhop K L inp out dag =
      if inp._grid = op._grid then
        if inp._grid = out._grid then
          ImprovedStaggeredFermion.DhopInternal K L StencilImpl.Stencil
            DoubledGaugeField.Umu inp { out with checkerboard := inp.checkerboard } dag
        else Except.error Abort.conformable
      else Except.error Abort.conformable := by
  unfold ImprovedStaggeredFermion.Dhop conformable
  by_cases h1 : inp._grid = op._grid
  · by_cases h2 : inp._grid = out._grid
    · rw [if_pos h1, if_pos h2, if_pos h1, if_pos h2]
      rfl
    · rw [if_pos h1, if_neg h2, if_pos h1, if_neg h2]
      rfl
  · rw [if_neg h1, if_neg h1]
    rfl

/-- The routine `DhopEO` on an input tagged `Odd`: the assertion on the checkerboard
holds, a result is tagged `Even`, and there is a result when the grids are
conformable. -/
theorem DhopEO_of_odd {D : Type} (op : ImprovedStaggeredFermion) (K : Constants)
    (L : Kernels D) (inp out : LatticeField D) (dag : Nat)
    (hdag : dag = K.DaggerNo ∨ dag = K.DaggerYes) (hodd : inp.checkerboard = K.Odd) :
    op.DhopEO K L inp out dag ≠ Except.error Abort.checkerboard
      ∧ (∀ r, op.DhopEO K L inp out dag = Except.ok r → r.checkerboard = K.Even)
      ∧ (inp._grid = op._cbgrid → out._grid = inp._grid →
          ∃ r, op.DhopEO K L inp out dag = Except.ok r) := by
  rw [DhopEO_eq]
  by_cases h1 : inp._grid = op._cbgrid
  · by_cases h2 : inp._grid = out._grid
    · rw [if_pos h1, if_pos h2, if_pos hodd]
      refine ⟨DhopInternal_not_checkerboard K L _ _ _ _ _, ?_,
        fun _ _ => DhopInternal_ok K L _ _ _ _ _ hdag⟩
      intro r hr
      exact DhopInternal_checkerboard K L _ _ _ _ _ _ hr
    · rw [if_pos h1, if_neg h2]
      exact ⟨by simp, fun r hr => absurd hr (by simp), fun _ h3 => absurd h3.symm h2⟩
  · rw [if_neg h1]
    exact ⟨by simp, fun r hr => absurd hr (by simp), fun h3 _ => absurd h3 h1⟩

/-- The routine `DhopOE` on an input tagged `Even`: the assertion on the
checkerboard holds, a result is tagged `Odd`, and there is a result when the
grids are conformable. -/
theorem DhopOE_of_even {D : Type} (op : ImprovedStaggeredFermion) (K : Constants)
    (L : Kernels D) (inp out : LatticeField D) (dag : Nat)
    (hdag : dag = K.DaggerNo ∨ dag = K.DaggerYes) (heven : inp.checkerboard = K.Even) :
    op.DhopOE K L inp out dag ≠ Except.error Abort.checkerboard
      ∧ (∀ r, op.DhopOE K L inp out dag = Except.ok r → r.checkerboard = K.Odd)
      ∧ (inp._grid = op._cbgrid → out._grid = inp._grid →
          ∃ r, op.DhopOE K L inp out dag = Except.ok r) := by
  rw [DhopOE_eq]
  by_cases h1 : inp._grid = op._cbgrid
  · by_cases h2 : inp._grid = out._grid
    · rw [if_pos h1, if_pos h2, if_pos heven]
      refine ⟨DhopInternal_not_checkerboard K L _ _ _ _ _, ?_,
        fun _ _ => DhopInternal_ok K L _ _ _ _ _ hdag⟩
      intro r hr
      exact DhopInternal_checkerboard K L _ _ _ _ _ _ hr
    · rw [if_pos h1, if_neg h2]
      exact ⟨by simp, fun r hr => absurd hr (by simp), fun _ h3 => absurd h3.symm h2⟩
  · rw [if_neg h1]
    exact ⟨by simp, fun r hr => absurd hr (by simp), fun h3 _ => absurd h3 h1⟩

/-- The dispatch of `Meooe` and `MeooeDag`, for either value of `dag`. -/
theorem dispatch_facts {D : Type} (op : ImprovedStaggeredFermion) (K : Constants)
    (L : Kernels D) (inp out : LatticeField D) (dag : Nat)
    (hdag : dag = K.DaggerNo ∨ dag = K.DaggerYes)
    (hcb : inp.checkerboard = K.Even ∨ inp.checkerboard = K.Odd) :
    (if inp.checkerboard = K.Odd then op.DhopEO K L inp out dag
        else op.DhopOE K L inp out dag) ≠ Except.error Abort.checkerboard
      ∧ (∀ r, (if inp.checkerboard = K.Odd then op.DhopEO K L inp out dag
            else op.DhopOE K L inp out dag) = Except.ok r →
          r.checkerboard = if inp.checkerboard = K.Odd then K.Even else K.Odd)
      ∧ (inp._grid = op._cbgrid → out._grid = inp._grid →
          ∃ r, (if inp.checkerboard = K.Odd then op.DhopEO K L inp out dag
            else op.DhopOE K L inp out dag) = Except.ok r) := by
  by_cases hodd : inp.checkerboard = K.Odd
  · rw [if_pos hodd, if_pos hodd]
    exact DhopEO_of_odd op K L inp out dag hdag hodd
  · rw [if_neg hodd, if_neg hodd]
    have heven : inp.checkerboard = K.Even := hcb.resolve_right hodd
    exact DhopOE_of_even op K L inp out dag hdag heven

/-- The checkerboard of the result of `M` or `Mdag`, for either value of `dag`. -/
theorem M_facts {D : Type} (op : ImprovedStaggeredFermion) (K : Constants)
    (L : Kernels D) (inp out : LatticeField D) (dag : Nat)
    (hdag : dag = K.DaggerNo ∨ dag = K.DaggerYes)
    (hax : ∀ a x y, (L.axpy_norm a x y).1.checkerboard = x.checkerboard
      ∨ (L.axpy_norm a x y).1.checkerboard = y.checkerboard) :
    (∀ r, (do let o ← op.Dhop K L inp { out with checkerboard := inp.checkerboard } dag
              Except.ok (L.axpy_norm op.mass inp o) : Except Abort (LatticeField D × ℚ))
          = Except.ok r → r.1.checkerboard = inp.checkerboard)
      ∧ (inp._grid = op._grid → out._grid = inp._grid →
          ∃ r, (do let o ← op.Dhop K L inp { out with checkerboard := inp.checkerboard } dag
                   Except.ok (L.axpy_norm op.mass inp o) :
                  Except Abort (LatticeField D × ℚ)) = Except.ok r) := by
  rw [Dhop_eq]
  by_cases h1 : inp._grid = op._grid
  · by_cases h2 : inp._grid = out._grid
    · have h2b : inp._grid = ({ out with checkerboard := inp.checkerboard } :
          LatticeField D)._grid := h2
      rw [if_pos h1, if_pos h2b]
      obtain ⟨o, ho⟩ := DhopInternal_ok K L StencilImpl.Stencil DoubledGaugeField.Umu inp
        { out with checkerboard := inp.checkerboard } dag hdag
      have hcb := DhopInternal_checkerboard K L _ _ _ _ _ _ ho
      have ho2 : ImprovedStaggeredFermion.DhopInternal K L StencilImpl.Stencil
          DoubledGaugeField.Umu inp
          { ({ out with checkerboard := inp.checkerboard } : LatticeField D) with
            checkerboard := inp.checkerboard } dag = Except.ok o := ho
      rw [ho2]
      refine ⟨?_, fun _ _ => ⟨_, rfl⟩⟩
      intro r hr
      have hr2 : L.axpy_norm op.mass inp o = r := by
        injection hr
      rw [← hr2]
      rcases hax op.mass inp o with h | h
      · exact h
      · rw [h]
        exact hcb
    · have h2b : ¬ inp._grid = ({ out with checkerboard := inp.checkerboard } :
          LatticeField D)._grid := h2
      rw [if_pos h1, if_neg h2b]
      exact ⟨fun r hr => absurd hr (by simp [bind, Except.bind]),
        fun _ h3 => absurd h3.symm h2⟩
  · rw [if_neg h1]
    exact ⟨fun r hr => absurd hr (by simp [bind, Except.bind]), fun h3 _ => absurd h3 h1⟩

/-- C28: for an input tagged `Even` or `Odd`, `Meooe` and `MeooeDag` call the hop
routine whose assertion on the checkerboard holds (`DhopEO` for `Odd`, `DhopOE`
otherwise), so no assertion on the checkerboard fails; a result carries the
other tag (`Even` for an `Odd` input, `Odd` for an `Even` one), and there is a
result when the grids are conformable. The results of `M` and `Mdag` (which
exist when the grids are conformable) and of `Mooee`, `MooeeDag`, `MooeeInv`
and `MooeeInvDag` carry the tag of the input, given that the library routines
`axpy_norm` and the scaled assignment leave a tag of one of their fields. -/
theorem checkerboard_dispatch {D : Type} (op : ImprovedStaggeredFermion) (K : Constants)
    (L : Kernels D) (inp out : LatticeField D)
    (hcb : inp.checkerboard = K.Even ∨ inp.checkerboard = K.Odd)
    (hax : ∀ a x y, (L.axpy_norm a x y).1.checkerboard = x.checkerboard
      ∨ (L.axpy_norm a x y).1.checkerboard = y.checkerboard)
    (hsc : ∀ a x y, (L.scale a x y).checkerboard = x.checkerboard
      ∨ (L.scale a x y).checkerboard = y.checkerboard) :
    (op.Meooe K L inp out ≠ Except.error Abort.checkerboard
        ∧ (∀ r, op.Meooe K L inp out = Except.ok r →
            r.checkerboard = if inp.checkerboard = K.Odd then K.Even else K.Odd)
        ∧ (inp._grid = op._cbgrid → out._grid = inp._grid →
            ∃ r, op.Meooe K L inp out = Except.ok r))
      ∧ (op.MeooeDag K L inp out ≠ Except.error Abort.checkerboard
        ∧ (∀ r, op.MeooeDag K L inp out = Except.ok r →
            r.checkerboard = if inp.checkerboard = K.Odd then K.Even else K.Odd)
        ∧ (inp._grid = op._cbgrid → out._grid = inp._grid →
            ∃ r, op.MeooeDag K L inp out = Except.ok r))
      ∧ ((∀ r, op.M K L inp out = Except.ok r → r.1.checkerboard = inp.checkerboard)
        ∧ (inp._grid = op._grid → out._grid = inp._grid →
            ∃ r, op.M K L inp out = Except.ok r))
      ∧ ((∀ r, op.Mdag K L inp out = Except.ok r → r.1.checkerboard = inp.checkerboard)
        ∧ (inp._grid = op._grid → out._grid = inp._grid →
            ∃ r, op.Mdag K L inp out = Except.ok r))
      ∧ (op.Mooee L inp out).checkerboard = inp.checkerboard
      ∧ (op.MooeeDag L inp out).checkerboard = inp.checkerboard
      ∧ (op.MooeeInv L inp out).checkerboard = inp.checkerboard
      ∧ (op.MooeeInvDag L inp out).checkerboard = inp.checkerboard := by
  have hscale : ∀ (a : ℚ) (o : LatticeField D), o.checkerboard = inp.checkerboard →
      (L.scale a inp o).checkerboard = inp.checkerboard := by
    intro a o ho
    rcases hsc a inp o with h | h
    · exact h
    · rw [h, ho]
  refine ⟨dispatch_facts op K L inp out K.DaggerNo (Or.inl rfl) hcb,
    dispatch_facts op K L inp out K.DaggerYes (Or.inr rfl) hcb,
    M_facts op K L inp out K.DaggerNo (Or.inl rfl) hax,
    M_facts op K L inp out K.DaggerYes (Or.inr rfl) hax, ?_, ?_, ?_, ?_⟩
  · exact hscale _ _ rfl
  · exact hscale _ _ rfl
  · exact hscale _ _ rfl
  · exact hscale _ _ rfl

/-- Witness of C28: an `Odd` field on the checkerboarded grid of the sample
operator. -/
theorem checkerboard_dispatch_witness :
    sampleOperator.Meooe sampleConstants sampleKernels ⟨1, 1, [5]⟩ ⟨1, 7, []⟩
        = Except.ok ⟨1, 0, [1]⟩
      ∧ sampleOperator.Meooe sampleConstants sampleKernels ⟨1, 1, [5]⟩ ⟨1, 7, []⟩
        ≠ Except.error Abort.checkerboard :=
  ⟨rfl, (checkerboard_dispatch sampleOperator sampleConstants sampleKernels ⟨1, 1, [5]⟩
    ⟨1, 7, []⟩ (Or.inr rfl) (fun _ _ _ => Or.inr rfl) (fun _ _ _ => Or.inr rfl)).1.1⟩

/-- With at least one direction, the loop of `DerivInternal` ends at `assert(0)`
after the site loop for `mu = 0`. -/
theorem derivLoop_aborts {D G : Type} (K : Constants) (L : Kernels D) (st : StencilImpl)
    (U : DoubledGaugeField) (mat : LatticeField G) (B : LatticeField D) (Btilde0 : D)
    (hNd : 1 ≤ K.Nd) :
    ImprovedStaggeredFermion.derivLoop L st U mat B (List.range K.Nd) Btilde0 []
      = { outcome := Except.error Abort.assertZero, sweeps := [0] } := by
  obtain ⟨n, hn⟩ : ∃ n, K.Nd = n + 1 := ⟨K.Nd - 1, by omega⟩
  rw [hn, List.range_succ_eq_map]
  rfl

/-- The function `DerivInternal` never ends with a force field. -/
theorem DerivInternal_aborts {D G : Type} (K : Constants) (L : Kernels D) (st : StencilImpl)
    (U : DoubledGaugeField) (mat : LatticeField G) (A B : LatticeField D) (Btilde0 : D)
    (dag : Nat) (hNd : 1 ≤ K.Nd) :
    (∀ m, (ImprovedStaggeredFermion.DerivInternal K L st U mat A B Btilde0 dag).outcome
        ≠ Except.ok m)
      ∧ (dag = K.DaggerNo ∨ dag = K.DaggerYes →
          ImprovedStaggeredFermion.DerivInternal K L st U mat A B Btilde0 dag
            = { outcome := Except.error Abort.assertZero, sweeps := [0] }) := by
  unfold ImprovedStaggeredFermion.DerivInternal
  by_cases hdag : dag = K.DaggerNo ∨ dag = K.DaggerYes
  · rw [if_pos hdag, derivLoop_aborts K L st U mat B Btilde0 hNd]
    exact ⟨fun m => by simp, fun _ => rfl⟩
  · rw [if_neg hdag]
    exact ⟨fun m => by simp, fun h => absurd h hdag⟩

/-- The three checks `conformable` at the head of the force routines. -/
theorem conformable_three (a b c d : Nat) :
    (do conformable a b
        conformable a c
        conformable a d : Except Abort Unit)
      = if a = b ∧ a = c ∧ a = d then Except.ok () else Except.error Abort.conformable := by
  unfold conformable
  by_cases h1 : a = b
  · subst h1
    by_cases h2 : a = c
    · subst h2
      by_cases h3 : a = d
      · subst h3
        simp [bind, Except.bind]
      · simp [h3, bind, Except.bind]
    · simp [h2, bind, Except.bind]
  · simp [h1, bind, Except.bind]

/-- C29: with at least one direction, `DhopDeriv`, `DhopDerivOE` and `DhopDerivEO`
never end with a force field, whatever their arguments; when the checks on
the grids, on the checkerboards and on `dag` pass, the run ends at the
`assert(0)` of `DerivInternal`, after the site loop for `mu = 0` and no other. -/
theorem force_always_aborts {D G : Type} (op : ImprovedStaggeredFermion) (K : Constants)
    (L : Kernels D) (mat : LatticeField G) (U V : LatticeField D) (Btilde0 : D) (dag : Nat)
    (hNd : 1 ≤ K.Nd) :
    (∀ m, (op.DhopDeriv K L mat U V Btilde0 dag).outcome ≠ Except.ok m)
      ∧ (∀ m, (op.DhopDerivOE K L mat U V Btilde0 dag).outcome ≠ Except.ok m)
      ∧ (∀ m, (op.DhopDerivEO K L mat U V Btilde0 dag).outcome ≠ Except.ok m)
      ∧ (U._grid = op._grid → U._grid = V._grid → U._grid = mat._grid →
          (dag = K.DaggerNo ∨ dag = K.DaggerYes) →
          op.DhopDeriv K L mat U V Btilde0 dag
            = { outcome := Except.error Abort.assertZero, sweeps := [0] })
      ∧ (U._grid = op._cbgrid → U._grid = V._grid → U._grid = mat._grid →
          V.checkerboard = K.Even → U.checkerboard = K.Odd →
          (dag = K.DaggerNo ∨ dag = K.DaggerYes) →
          op.DhopDerivOE K L mat U V Btilde0 dag
            = { outcome := Except.error Abort.assertZero, sweeps := [0] })
      ∧ (U._grid = op._cbgrid → U._grid = V._grid → U._grid = mat._grid →
          V.checkerboard = K.Odd → U.checkerboard = K.Even →
          (dag = K.DaggerNo ∨ dag = K.DaggerYes) →
          op.DhopDerivEO K L mat U V Btilde0 dag
            = { outcome := Except.error Abort.assertZero, sweeps := [0] }) := by
  refine ⟨?_, ?_, ?_, ?_, ?_, ?_⟩
  · intro m
    unfold ImprovedStaggeredFermion.DhopDeriv
    rw [conformable_three]
    split
    · simp
    · exact (DerivInternal_aborts K L _ _ _ U V Btilde0 dag hNd).1 m
  · intro m
    unfold ImprovedStaggeredFermion.DhopDerivOE
    rw [conformable_three]
    split
    · simp
    · split
      · exact (DerivInternal_aborts K L _ _ _ U V Btilde0 dag hNd).1 m
      · simp
  · intro m
    unfold ImprovedStaggeredFermion.DhopDerivEO
    rw [conformable_three]
    split
    · simp
    · split
      · exact (DerivInternal_aborts K L _ _ _ U V Btilde0 dag hNd).1 m
      · simp
  · intro h1 h2 h3 hdag
    unfold ImprovedStaggeredFermion.DhopDeriv
    rw [conformable_three, if_pos ⟨h1, h2, h3⟩]
    exact (DerivInternal_aborts K L _ _ _ U V Btilde0 dag hNd).2 hdag
  · intro h1 h2 h3 hv hu hdag
    unfold ImprovedStaggeredFermion.DhopDerivOE
    rw [conformable_three, if_pos ⟨h1, h2, h3⟩]
    simp only [hv, hu, and_self, if_true]
    exact (DerivInternal_aborts K L _ _ _ U V Btilde0 dag hNd).2 hdag
  · intro h1 h2 h3 hv hu hdag
    unfold ImprovedStaggeredFermion.DhopDerivEO
    rw [conformable_three, if_pos ⟨h1, h2, h3⟩]
    simp only [hv, hu, and_self, if_true]
    exact (DerivInternal_aborts K L _ _ _ U V Btilde0 dag hNd).2 hdag

/-- Witness of C29: the sample operator with four directions, fields on the full
grid. -/
theorem force_always_aborts_witness :
    sampleOperator.DhopDeriv sampleConstants sampleKernels
        (⟨0, 0, [0]⟩ : LatticeField (List Nat)) ⟨0, 0, [5]⟩ ⟨0, 0, [6]⟩ [] 0
      = { outcome := Except.error Abort.assertZero, sweeps := [0] } :=
  (force_always_aborts sampleOperator sampleConstants sampleKernels
    (⟨0, 0, [0]⟩ : LatticeField (List Nat)) ⟨0, 0, [5]⟩ ⟨0, 0, [6]⟩ [] 0
    (by decide)).2.2.2.1 rfl rfl rfl (Or.inl rfl)

end QCD

end Grid
